import Mathlib

/-!
# genetic_algorithm.c: a shallow embedding

The program is a generational genetic algorithm over the two global arrays
`population[POPSIZE + 1]` and `newpopulation[POPSIZE + 1]`; the last entry of
`population` (index `POPSIZE`) is the archive of the best individual.

Conventions of the embedding:

* `double` values are exact rationals (`ℚ`); no rounding, infinity or NaN.  A division
  by zero, which in C yields an infinity or NaN, is the `0` of `ℚ` here, so statements
  that depend on a quotient assume a non-zero divisor.
* C arrays are lists read with a default (`rd`, `rdq`) and written with `List.set`;
  the arrays of the program have fixed sizes, which theorems assume as lengths.
* the globals are the fields of `State`; `rand ()` is a stream `rand : ℕ → ℕ` of
  non-negative outputs and `State.nrand` counts the calls made so far, so the next
  call returns `rand s.nrand`.
* the constants `POPSIZE`, `NVARS`, `PXOVER`, `PMUTATION` are parameters (the source
  has 50, 3, 0.8, 0.15).
* a `for (i = lo; i < hi; i++)` loop is `for_loop lo hi body`.
-/

namespace GA

/-! ## Data model -/

/-- The `struct genotype` of the source: a member of the population. -/
structure genotype where
  gene : List ℚ
  fitness : ℚ
  upper : List ℚ
  lower : List ℚ
  rfitness : ℚ
  cfitness : ℚ
deriving DecidableEq, Repr

instance : Inhabited genotype := ⟨⟨[], 0, [], [], 0, 0⟩⟩

/-- One line of the log written by `__report`: generation, best value, average and
the radicand of the standard deviation (the square root itself is not rational). -/
structure report_line where
  generation : ℕ
  best_val : ℚ
  avg : ℚ
  variance : ℚ
deriving DecidableEq, Repr

/-- The global variables of the program, with the position in the `rand ()` stream
and the lines written to `galog`. -/
structure State where
  population : List genotype
  newpopulation : List genotype
  generation : ℕ
  cur_best : ℕ
  nrand : ℕ
  galog : List report_line
deriving DecidableEq, Repr

/-- Array read `a[i]` on an array of genotypes. -/
def rd (a : List genotype) (i : ℕ) : genotype := a.getD i default

/-- Array read `v[i]` on an array of doubles. -/
def rdq (v : List ℚ) (i : ℕ) : ℚ := v.getD i 0

/-- The assignment `pop[m].fitness = v`. -/
def set_fitness (pop : List genotype) (m : ℕ) (v : ℚ) : List genotype :=
  pop.set m { rd pop m with fitness := v }

/-- The assignment `pop[m].gene[i] = v`. -/
def set_gene (pop : List genotype) (m i : ℕ) (v : ℚ) : List genotype :=
  pop.set m { rd pop m with gene := (rd pop m).gene.set i v }

/-- The loop `for (i = lo; i < hi; i++) s = body i s`. -/
def for_loop {σ : Type} (lo : ℕ) : ℕ → (ℕ → σ → σ) → σ → σ
  | 0, _, s => s
  | hi + 1, body, s => if lo ≤ hi then body hi (for_loop lo hi body s) else s

/-- A zero-filled genotype, the content of a global array entry before any write. -/
def zero_genotype (NVARS : ℕ) : genotype :=
  ⟨List.replicate NVARS 0, 0, List.replicate NVARS 0, List.replicate NVARS 0, 0, 0⟩

/-- The state at program start: zero-initialised globals. -/
def start_state (POPSIZE NVARS : ℕ) : State :=
  ⟨List.replicate (POPSIZE + 1) (zero_genotype NVARS),
   List.replicate (POPSIZE + 1) (zero_genotype NVARS), 0, 0, 0, []⟩

/-! ## The operators of the program -/

/-- The function `__randval` applied to the output `r` of its `rand ()` call:
`((double)(r % 1000) / 1000.0) * (high - low) + low`. -/
def __randval (r : ℕ) (low high : ℚ) : ℚ :=
  (((r % 1000 : ℕ) : ℚ) / 1000) * (high - low) + low

/-- The function `__initialize`.  `infile` is `none` when `gadata.txt` cannot be opened
(the program exits, result `none`), otherwise the numbers of the file in order; a
`fscanf` past the end of the file leaves its variable as it was (`lbound`, `ubound`
start at 0 here, they are uninitialised in C). -/
def __initialize (POPSIZE NVARS : ℕ) (rand : ℕ → ℕ) (infile : Option (List ℚ))
    (s : State) : Option State :=
  match infile with
  | none => none
  | some nums =>
    some (for_loop 0 NVARS (fun i (t : State × ℚ × ℚ) =>
      let lbound := (nums.get? (2 * i)).getD t.2.1
      let ubound := (nums.get? (2 * i + 1)).getD t.2.2
      (for_loop 0 POPSIZE (fun j (s : State) =>
        let g := rd s.population j
        let g1 : genotype :=
          { g with fitness := 0, rfitness := 0, cfitness := 0,
                   lower := g.lower.set i lbound, upper := g.upper.set i ubound }
        let g2 : genotype :=
          { g1 with gene := g1.gene.set i
                      (__randval (rand s.nrand) (rdq g1.lower i) (rdq g1.upper i)) }
        { s with population := s.population.set j g2, nrand := s.nrand + 1 }) t.1,
       lbound, ubound)) (s, 0, 0)).1

/-- The function `__evaluate`: fitness `x[1]*x[1] - x[1]*x[2] + x[3]` of every working
genotype.  The local array `x[NVARS + 1]` is carried through the loop (zero-filled
here, uninitialised in C). -/
def __evaluate (POPSIZE NVARS : ℕ) (s : State) : State :=
  { s with population :=
      (for_loop 0 POPSIZE (fun mem (t : List genotype × List ℚ) =>
        let x := for_loop 0 NVARS
          (fun i (x : List ℚ) => x.set (i + 1) (rdq (rd t.1 mem).gene i)) t.2
        (set_fitness t.1 mem (rdq x 1 * rdq x 1 - rdq x 1 * rdq x 2 + rdq x 3), x))
        (s.population, List.replicate (NVARS + 1) 0)).1 }

/-- The gene copy loop shared by `__keep_the_best` and both branches of `__elitist`:
`for (i = 0; i < NVARS; i++) population[dst].gene[i] = population[src].gene[i];` -/
def copy_genes (NVARS : ℕ) (pop : List genotype) (dst src : ℕ) : List genotype :=
  for_loop 0 NVARS (fun i (pop : List genotype) =>
    set_gene pop dst i (rdq (rd pop src).gene i)) pop

/-- The function `__keep_the_best`. -/
def __keep_the_best (POPSIZE NVARS : ℕ) (s : State) : State :=
  let s1 := for_loop 0 POPSIZE (fun mem (s : State) =>
    if (rd s.population mem).fitness > (rd s.population POPSIZE).fitness then
      { s with cur_best := mem,
               population := set_fitness s.population POPSIZE (rd s.population mem).fitness }
    else s) { s with cur_best := 0 }
  { s1 with population := copy_genes NVARS s1.population POPSIZE s1.cur_best }

/-- The locals of `__elitist`; `best_mem` and `worst_mem` are uninitialised (`none`)
until the scan assigns them. -/
structure elitist_locals where
  best : ℚ
  worst : ℚ
  best_mem : Option ℕ
  worst_mem : Option ℕ
deriving DecidableEq, Repr

/-- The scan of `__elitist` for the best and the worst working member: the loop
`for (i = 0; i < POPSIZE - 1; ++i)` over adjacent pairs. -/
def elitist_scan (POPSIZE : ℕ) (pop : List genotype) : elitist_locals :=
  for_loop 0 (POPSIZE - 1) (fun i (l : elitist_locals) =>
    if (rd pop i).fitness > (rd pop (i + 1)).fitness then
      let l1 : elitist_locals :=
        if (rd pop i).fitness ≥ l.best then
          { l with best := (rd pop i).fitness, best_mem := some i } else l
      if (rd pop (i + 1)).fitness ≤ l1.worst then
        { l1 with worst := (rd pop (i + 1)).fitness, worst_mem := some (i + 1) } else l1
    else
      let l1 : elitist_locals :=
        if (rd pop i).fitness ≤ l.worst then
          { l with worst := (rd pop i).fitness, worst_mem := some i } else l
      if (rd pop (i + 1)).fitness ≥ l1.best then
        { l1 with best := (rd pop (i + 1)).fitness, best_mem := some (i + 1) } else l1)
    ⟨(rd pop 0).fitness, (rd pop 0).fitness, none, none⟩

/-- The function `__elitist`.  The result is `none` when the branch taken uses an index
(`best_mem` or `worst_mem`) that the scan never assigned. -/
def __elitist (POPSIZE NVARS : ℕ) (s : State) : Option State :=
  let l := elitist_scan POPSIZE s.population
  if l.best ≥ (rd s.population POPSIZE).fitness then
    match l.best_mem with
    | none => none
    | some best_mem =>
      let pop1 := copy_genes NVARS s.population POPSIZE best_mem
      some { s with population := set_fitness pop1 POPSIZE (rd pop1 best_mem).fitness }
  else
    match l.worst_mem with
    | none => none
    | some worst_mem =>
      let pop1 := copy_genes NVARS s.population worst_mem POPSIZE
      some { s with population := set_fitness pop1 worst_mem (rd pop1 POPSIZE).fitness }

/-- The total fitness that `__select` computes first: `sum += population[mem].fitness`
for `mem` from 0 to `POPSIZE - 1`. -/
def select_sum (POPSIZE : ℕ) (pop : List genotype) : ℚ :=
  for_loop 0 POPSIZE (fun mem (sum : ℚ) => sum + (rd pop mem).fitness) 0

/-- The second loop of `__select`: `population[mem].rfitness = population[mem].fitness / sum`. -/
def select_relative (POPSIZE : ℕ) (pop : List genotype) : List genotype :=
  let sum := select_sum POPSIZE pop
  for_loop 0 POPSIZE (fun mem (pop : List genotype) =>
    pop.set mem { rd pop mem with rfitness := (rd pop mem).fitness / sum }) pop

/-- The cumulative fitness of `__select`: `population[0].cfitness = population[0].rfitness`,
then `population[mem].cfitness = population[mem - 1].cfitness + population[mem].rfitness`
for `mem` from 1 to `POPSIZE - 1`. -/
def select_cumulative (POPSIZE : ℕ) (pop : List genotype) : List genotype :=
  for_loop 1 POPSIZE (fun mem (pop : List genotype) =>
    pop.set mem { rd pop mem with
      cfitness := (rd pop (mem - 1)).cfitness + (rd pop mem).rfitness })
    (pop.set 0 { rd pop 0 with cfitness := (rd pop 0).rfitness })

/-- The relative and cumulative fitness that `__select` writes into the working
population before it draws. -/
def select_fitness (POPSIZE : ℕ) (pop : List genotype) : List genotype :=
  select_cumulative POPSIZE (select_relative POPSIZE pop)

/-- The body of the survivor loop of `__select` for one draw `p`: the new content of
`newpopulation[i]`, whose content before is `slot`.  The scan has no `break` and
reads `population[j + 1]` up to `j + 1 = POPSIZE`. -/
def select_scan (POPSIZE : ℕ) (pop : List genotype) (p : ℚ) (slot : genotype) : genotype :=
  if p < (rd pop 0).cfitness then rd pop 0
  else
    for_loop 0 POPSIZE (fun j (slot : genotype) =>
      if p ≥ (rd pop j).cfitness ∧ p < (rd pop (j + 1)).cfitness then rd pop (j + 1)
      else slot) slot

/-- The draw `p = rand () % 1000 / 1000.0` for the output `r` of `rand ()`. -/
def select_draw (r : ℕ) : ℚ := ((r % 1000 : ℕ) : ℚ) / 1000

/-- The survivor loop of `__select`: one draw per position of `newpopulation`. -/
def select_survivors (POPSIZE : ℕ) (rand : ℕ → ℕ) (s : State) : State :=
  for_loop 0 POPSIZE (fun i (s : State) =>
    { s with nrand := s.nrand + 1,
             newpopulation := s.newpopulation.set i
               (select_scan POPSIZE s.population (select_draw (rand s.nrand))
                 (rd s.newpopulation i)) }) s

/-- The last loop of `__select`: `population[i] = newpopulation[i]` for `i < POPSIZE`. -/
def select_copy_back (POPSIZE : ℕ) (s : State) : State :=
  for_loop 0 POPSIZE (fun i (s : State) =>
    { s with population := s.population.set i (rd s.newpopulation i) }) s

/-- The function `__select`. -/
def __select (POPSIZE : ℕ) (rand : ℕ → ℕ) (s : State) : State :=
  select_copy_back POPSIZE
    (select_survivors POPSIZE rand
      { s with population := select_fitness POPSIZE s.population })

/-- The function `__swap` on the two values pointed to: the new `*x` and `*y`. -/
def __swap (x y : ℚ) : ℚ × ℚ := (y, x)

/-- The crossover point of `__Xover` for the output `r` of `rand ()` (case `NVARS > 2`). -/
def Xover_point (NVARS r : ℕ) : ℕ := (r % (NVARS - 1)) + 1

/-- The function `__Xover`. -/
def __Xover (NVARS : ℕ) (rand : ℕ → ℕ) (one two : ℕ) (s : State) : State :=
  if NVARS > 1 then
    let t : ℕ × State :=
      if NVARS = 2 then (1, s)
      else (Xover_point NVARS (rand s.nrand), { s with nrand := s.nrand + 1 })
    for_loop 0 t.1 (fun i (s : State) =>
      let w := __swap (rdq (rd s.population one).gene i) (rdq (rd s.population two).gene i)
      let pop1 := set_gene s.population one i w.1
      { s with population := set_gene pop1 two i w.2 }) t.2
  else s

/-- The decision value `x = rand () % 10001 / 1000.0` of `__crossover` and `__mutate`. -/
def decision_draw (r : ℕ) : ℚ := ((r % 10001 : ℕ) : ℚ) / 1000

/-- The locals of `__crossover` with the state: `first` counts the members chosen,
`one` holds the first member of the open pair (0 here before its first assignment;
it is read only after an assignment, when `first` is even and positive). -/
structure crossover_locals where
  state : State
  first : ℕ
  one : ℕ
deriving DecidableEq, Repr

/-- The function `__crossover`. -/
def __crossover (POPSIZE NVARS : ℕ) (PXOVER : ℚ) (rand : ℕ → ℕ) (s : State) : State :=
  (for_loop 0 POPSIZE (fun mem (l : crossover_locals) =>
    let x := decision_draw (rand l.state.nrand)
    let s1 : State := { l.state with nrand := l.state.nrand + 1 }
    if x < PXOVER then
      if (l.first + 1) % 2 = 0 then
        ⟨__Xover NVARS rand l.one mem s1, l.first + 1, l.one⟩
      else ⟨s1, l.first + 1, mem⟩
    else ⟨s1, l.first, l.one⟩) ⟨s, 0, 0⟩).state

/-- The function `__mutate`. -/
def __mutate (POPSIZE NVARS : ℕ) (PMUTATION : ℚ) (rand : ℕ → ℕ) (s : State) : State :=
  for_loop 0 POPSIZE (fun i (s : State) =>
    for_loop 0 NVARS (fun j (s : State) =>
      let x := decision_draw (rand s.nrand)
      let s1 : State := { s with nrand := s.nrand + 1 }
      if x < PMUTATION then
        let lbound := rdq (rd s1.population i).lower j
        let hbound := rdq (rd s1.population i).upper j
        { s1 with nrand := s1.nrand + 1,
                  population := set_gene s1.population i j
                    (__randval (rand s1.nrand) lbound hbound) }
      else s1) s) s

/-- The function `__report`: the line it prints is appended to `galog`. -/
def __report (POPSIZE : ℕ) (s : State) : State :=
  let t : ℚ × ℚ := for_loop 0 POPSIZE (fun i (t : ℚ × ℚ) =>
    (t.1 + (rd s.population i).fitness,
     t.2 + (rd s.population i).fitness * (rd s.population i).fitness)) (0, 0)
  let avg := t.1 / (POPSIZE : ℚ)
  let square_sum := avg * avg * (POPSIZE : ℚ)
  { s with galog := s.galog ++
      [⟨s.generation, (rd s.population POPSIZE).fitness, avg,
        (t.2 - square_sum) / ((POPSIZE : ℚ) - 1)⟩] }

/-- The body of the `while` loop of `main` up to and including `__evaluate`. -/
def generation_evaluated (POPSIZE NVARS : ℕ) (PXOVER PMUTATION : ℚ) (rand : ℕ → ℕ)
    (s : State) : State :=
  __evaluate POPSIZE NVARS
    (__report POPSIZE
      (__mutate POPSIZE NVARS PMUTATION rand
        (__crossover POPSIZE NVARS PXOVER rand
          (__select POPSIZE rand { s with generation := s.generation + 1 }))))

/-- One pass of the `while` loop of `main`: `generation++`, `__select`, `__crossover`,
`__mutate`, `__report`, `__evaluate`, `__elitist`. -/
def generation_step (POPSIZE NVARS : ℕ) (PXOVER PMUTATION : ℚ) (rand : ℕ → ℕ)
    (s : State) : Option State :=
  __elitist POPSIZE NVARS (generation_evaluated POPSIZE NVARS PXOVER PMUTATION rand s)

/-- The state of `main` after `__initialize` and the first `__evaluate`. -/
def first_evaluated (POPSIZE NVARS : ℕ) (rand : ℕ → ℕ) (infile : Option (List ℚ)) :
    Option State :=
  ( __initialize POPSIZE NVARS rand infile (start_state POPSIZE NVARS)).map
    (__evaluate POPSIZE NVARS)

/-- The state of `main` when it enters the `while` loop: after `__initialize`,
`__evaluate` and `__keep_the_best`. -/
def best_captured (POPSIZE NVARS : ℕ) (rand : ℕ → ℕ) (infile : Option (List ℚ)) :
    Option State :=
  (first_evaluated POPSIZE NVARS rand infile).map (__keep_the_best POPSIZE NVARS)

/-- The state of `main` after `g` passes of the `while` loop. -/
def after_generation (POPSIZE NVARS : ℕ) (PXOVER PMUTATION : ℚ) (rand : ℕ → ℕ)
    (infile : Option (List ℚ)) : ℕ → Option State
  | 0 => best_captured POPSIZE NVARS rand infile
  | g + 1 => (after_generation POPSIZE NVARS PXOVER PMUTATION rand infile g).bind
      (generation_step POPSIZE NVARS PXOVER PMUTATION rand)

/-- The state right after the `__evaluate` call of generation `g` (generation 0 is the
evaluation that follows `__initialize`), before the elitism check. -/
def evaluated_in (POPSIZE NVARS : ℕ) (PXOVER PMUTATION : ℚ) (rand : ℕ → ℕ)
    (infile : Option (List ℚ)) : ℕ → Option State
  | 0 => first_evaluated POPSIZE NVARS rand infile
  | g + 1 => (after_generation POPSIZE NVARS PXOVER PMUTATION rand infile g).map
      (generation_evaluated POPSIZE NVARS PXOVER PMUTATION rand)

/-! ## Predicates of the statements and sample states -/

/-- The arrays have their declared sizes: `POPSIZE + 1` genotypes, each with `NVARS`
genes. -/
def well_formed (POPSIZE NVARS : ℕ) (pop : List genotype) : Prop :=
  pop.length = POPSIZE + 1 ∧ ∀ i, i ≤ POPSIZE → (rd pop i).gene.length = NVARS

/-- Index `b` is a working member of maximum fitness. -/
def is_best (POPSIZE : ℕ) (pop : List genotype) (b : ℕ) : Prop :=
  b < POPSIZE ∧ ∀ i, i < POPSIZE → (rd pop i).fitness ≤ (rd pop b).fitness

/-- Index `w` is a working member of minimum fitness. -/
def is_worst (POPSIZE : ℕ) (pop : List genotype) (w : ℕ) : Prop :=
  w < POPSIZE ∧ ∀ i, i < POPSIZE → (rd pop w).fitness ≤ (rd pop i).fitness

/-- A small state: two working members with three genes each, and the archive. -/
def small_state : State :=
  ⟨[⟨[1, 2, 3], 2, [9, 9, 9], [0, 0, 0], 0, 0⟩,
    ⟨[4, 5, 6], 2, [9, 9, 9], [0, 0, 0], 0, 0⟩,
    ⟨[7, 8, 9], 5, [0, 0, 0], [0, 0, 0], 0, 0⟩],
   [zero_genotype 3, zero_genotype 3, zero_genotype 3], 0, 0, 0, []⟩

/-- A state for the first-best capture: two working members of positive fitness and a
zero-filled archive. -/
def fresh_state : State :=
  ⟨[⟨[1, 2, 3], 2, [9, 9, 9], [0, 0, 0], 0, 0⟩,
    ⟨[4, 5, 6], 3, [9, 9, 9], [0, 0, 0], 0, 0⟩,
    zero_genotype 3],
   [zero_genotype 3, zero_genotype 3, zero_genotype 3], 0, 0, 0, []⟩

/-- The array `pop'` has the length of `pop` and the same entry at index `P`. -/
def same_archive (P : ℕ) (pop pop' : List genotype) : Prop :=
  pop'.length = pop.length ∧ rd pop' P = rd pop P

/-- Numbers of a small input file: the bound pairs `[1, 2]`, `[0, 1]`, `[1, 2]`. -/
def small_infile : List ℚ := [1, 2, 0, 1, 1, 2]

/-- A state whose working fitness values are negative (total -4). -/
def negative_state : State :=
  ⟨[⟨[1, 2, 3], -1, [9, 9, 9], [0, 0, 0], 0, 0⟩,
    ⟨[4, 5, 6], -3, [9, 9, 9], [0, 0, 0], 0, 0⟩,
    zero_genotype 3],
   [zero_genotype 3, zero_genotype 3, zero_genotype 3], 0, 0, 0, []⟩

/-- The array `pop` with the gene vector of member `m` replaced by `G`. -/
def with_genes (pop : List genotype) (m : ℕ) (G : List ℚ) : List genotype :=
  pop.set m { rd pop m with gene := G }

/-- A state with three working members of equal fitness, and the archive. -/
def tied_state : State :=
  ⟨[⟨[1, 2, 3], 2, [9, 9, 9], [0, 0, 0], 0, 0⟩,
    ⟨[4, 5, 6], 2, [9, 9, 9], [0, 0, 0], 0, 0⟩,
    ⟨[2, 2, 2], 2, [9, 9, 9], [0, 0, 0], 0, 0⟩,
    ⟨[7, 8, 9], 5, [0, 0, 0], [0, 0, 0], 0, 0⟩],
   [zero_genotype 3, zero_genotype 3, zero_genotype 3, zero_genotype 3], 0, 0, 0, []⟩

/-- The prefix exchange in the words of the specification (single-point crossover):
the gene values of members `one` and `two` at all indices strictly before `point` are
swapped, the indices at or after the point are untouched. -/
def prefix_exchange (point one two : ℕ) (pop : List genotype) : List genotype :=
  with_genes
    (with_genes pop one ((rd pop two).gene.take point ++ (rd pop one).gene.drop point))
    two ((rd pop one).gene.take point ++ (rd pop two).gene.drop point)

/-- The crossover point that `__Xover` uses when its `rand ()` call (made only for
`NVARS > 2`) returns `r`; 0 stands for no exchange (`NVARS ≤ 1`). -/
def crossover_point (NVARS r : ℕ) : ℕ :=
  if NVARS ≤ 1 then 0 else if NVARS = 2 then 1 else Xover_point NVARS r

/-- The state after generation 1 of the run with two working members, the bounds of
`small_infile`, the probabilities of the source and the constant random stream 0. -/
def small_run_state : State :=
  ⟨[⟨[1, 0, 1], 2, [2, 1, 2], [1, 0, 1], 1 / 2, 1 / 2⟩,
    ⟨[1, 0, 1], 2, [2, 1, 2], [1, 0, 1], 1 / 2, 1 / 2⟩,
    ⟨[1, 0, 1], 2, [0, 0, 0], [0, 0, 0], 0, 0⟩],
   [⟨[1, 0, 1], 2, [2, 1, 2], [1, 0, 1], 1 / 2, 1 / 2⟩,
    ⟨[1, 0, 1], 2, [2, 1, 2], [1, 0, 1], 1 / 2, 1 / 2⟩, zero_genotype 3],
   1, 0, 23, [⟨1, 2, 2, 0⟩]⟩

/-- The number of crossover-point draws made for `k` marked members: one per completed
pair when `NVARS > 2`, none otherwise (`__Xover` calls `rand ()` only then). -/
def point_draws (NVARS k : ℕ) : ℕ := if 2 < NVARS then k / 2 else 0

/-- The working indices below `mem` that `__crossover` marks, in increasing order, in
the words of the specification: an index is marked when its decision draw is below the
crossover probability.  The decision draw of index `mem` is call number
`n0 + mem` of `rand ()` plus the crossover-point draws made before it. -/
def crossover_marks (NVARS : ℕ) (PXOVER : ℚ) (rand : ℕ → ℕ) (n0 : ℕ) : ℕ → List ℕ
  | 0 => []
  | mem + 1 =>
    if decision_draw (rand (n0 + mem
        + point_draws NVARS (crossover_marks NVARS PXOVER rand n0 mem).length)) < PXOVER
    then crossover_marks NVARS PXOVER rand n0 mem ++ [mem]
    else crossover_marks NVARS PXOVER rand n0 mem

/-- The first member of the `j`-th pair of the marked indices `ms`. -/
def pair_first (ms : List ℕ) (j : ℕ) : ℕ := ms.getD (2 * j) 0

/-- The second member of the `j`-th pair of the marked indices `ms`. -/
def pair_second (ms : List ℕ) (j : ℕ) : ℕ := ms.getD (2 * j + 1) 0

/-- The crossover point of the `j`-th pair: drawn by the call of `rand ()` that follows
the decision draw of the pair's second member. -/
def pair_point (NVARS : ℕ) (rand : ℕ → ℕ) (n0 : ℕ) (ms : List ℕ) (j : ℕ) : ℕ :=
  crossover_point NVARS (rand (n0 + pair_second ms j + j + 1))

/-- The crossover step in the words of the specification: the marked indices are grouped
into consecutive pairs in the order marked, and the prefix exchange is applied to the
pairs in that order; a marked index left over has no partner and takes part in no
exchange. -/
def crossover_exchanges (NVARS : ℕ) (rand : ℕ → ℕ) (n0 : ℕ) (ms : List ℕ)
    (pop : List genotype) : List genotype :=
  for_loop 0 (ms.length / 2) (fun j (pop : List genotype) =>
    prefix_exchange (pair_point NVARS rand n0 ms j) (pair_first ms j) (pair_second ms j) pop)
    pop

/-- The number of genes that `__mutate` redraws among the first `t` genes (genotype by
genotype, gene by gene): a gene is redrawn when its decision draw is below the mutation
probability; its decision draw is call number `n0 + t` of `rand ()` plus one call (the
`__randval` draw) per gene redrawn before it. -/
def mutation_count (PMUTATION : ℚ) (rand : ℕ → ℕ) (n0 : ℕ) : ℕ → ℕ
  | 0 => 0
  | t + 1 =>
    mutation_count PMUTATION rand n0 t +
      (if decision_draw (rand (n0 + t + mutation_count PMUTATION rand n0 t)) < PMUTATION
       then 1 else 0)

/-- A random stream for a run that improves in generation 1: outputs 0 for the 6 draws
of `__initialize` and the 2 draws of `__select`, 5000 for the 2 decision draws of
`__crossover` (nothing marked), then alternately 0 (decision draw of `__mutate`, gene
redrawn) and 500 (the `__randval` draw: the middle of the bounds). -/
def improving_stream (n : ℕ) : ℕ :=
  if n < 8 then 0 else if n < 10 then 5000 else if n % 2 = 0 then 0 else 500

/-- The state of the run on `improving_stream` right after the `__evaluate` call of
generation 1. -/
def improving_evaluated : State :=
  ⟨[⟨[3 / 2, 1 / 2, 3 / 2], 3, [2, 1, 2], [1, 0, 1], 1 / 2, 1 / 2⟩,
    ⟨[3 / 2, 1 / 2, 3 / 2], 3, [2, 1, 2], [1, 0, 1], 1 / 2, 1 / 2⟩,
    ⟨[1, 0, 1], 2, [0, 0, 0], [0, 0, 0], 0, 0⟩],
   [⟨[1, 0, 1], 2, [2, 1, 2], [1, 0, 1], 1 / 2, 1 / 2⟩,
    ⟨[1, 0, 1], 2, [2, 1, 2], [1, 0, 1], 1 / 2, 1 / 2⟩, zero_genotype 3],
   1, 0, 22, [⟨1, 2, 2, 0⟩]⟩

/-- The state of the run on `improving_stream` after generation 1. -/
def improving_state : State :=
  ⟨[⟨[3 / 2, 1 / 2, 3 / 2], 3, [2, 1, 2], [1, 0, 1], 1 / 2, 1 / 2⟩,
    ⟨[3 / 2, 1 / 2, 3 / 2], 3, [2, 1, 2], [1, 0, 1], 1 / 2, 1 / 2⟩,
    ⟨[3 / 2, 1 / 2, 3 / 2], 3, [0, 0, 0], [0, 0, 0], 0, 0⟩],
   [⟨[1, 0, 1], 2, [2, 1, 2], [1, 0, 1], 1 / 2, 1 / 2⟩,
    ⟨[1, 0, 1], 2, [2, 1, 2], [1, 0, 1], 1 / 2, 1 / 2⟩, zero_genotype 3],
   1, 0, 22, [⟨1, 2, 2, 0⟩]⟩

/-- Every gene of the genotype lies within the genotype's own bounds, and these are the
bounds `lo`, `hi`. -/
def member_within (NVARS : ℕ) (lo hi : ℕ → ℚ) (g : genotype) : Prop :=
  ∀ i, i < NVARS → rdq g.lower i = lo i ∧ rdq g.upper i = hi i ∧
    rdq g.lower i ≤ rdq g.gene i ∧ rdq g.gene i ≤ rdq g.upper i

/-- The bound invariant: every working genotype carries the bounds `lo`, `hi` and has
every gene within its bounds, and the genes of the archive `population[POPSIZE]` lie
within the same bounds. -/
def within_bounds (POPSIZE NVARS : ℕ) (lo hi : ℕ → ℚ) (pop : List genotype) : Prop :=
  (∀ m, m < POPSIZE → member_within NVARS lo hi (rd pop m)) ∧
  ∀ i, i < NVARS → lo i ≤ rdq (rd pop POPSIZE).gene i ∧ rdq (rd pop POPSIZE).gene i ≤ hi i

/-! ## Arrays and loops -/

theorem rd_set_eq (a : List genotype) (i : ℕ) (v : genotype) (h : i < a.length) :
    rd (a.set i v) i = v := by
  simp [rd, List.getD_eq_getElem?_getD, List.getElem?_set, h]

theorem rd_set_ne (a : List genotype) (i j : ℕ) (v : genotype) (h : i ≠ j) :
    rd (a.set i v) j = rd a j := by
  simp [rd, List.getD_eq_getElem?_getD, List.getElem?_set, h]

theorem rdq_set_eq (a : List ℚ) (i : ℕ) (v : ℚ) (h : i < a.length) :
    rdq (a.set i v) i = v := by
  simp [rdq, List.getD_eq_getElem?_getD, List.getElem?_set, h]

theorem rdq_set_ne (a : List ℚ) (i j : ℕ) (v : ℚ) (h : i ≠ j) :
    rdq (a.set i v) j = rdq a j := by
  simp [rdq, List.getD_eq_getElem?_getD, List.getElem?_set, h]

theorem list_eq_of_rdq (a b : List ℚ) (hl : a.length = b.length)
    (h : ∀ i, i < a.length → rdq a i = rdq b i) : a = b := by
  apply List.ext_getElem hl
  intro i h1 h2
  have := h i h1
  simpa [rdq, List.getD_eq_getElem?_getD, List.getElem?_eq_getElem, h1, h2] using this

theorem for_loop_succ {σ : Type} (lo hi : ℕ) (body : ℕ → σ → σ) (s : σ) (h : lo ≤ hi) :
    for_loop lo (hi + 1) body s = body hi (for_loop lo hi body s) := by
  simp [for_loop, h]

theorem for_loop_empty {σ : Type} (lo hi : ℕ) (body : ℕ → σ → σ) (s : σ) (h : hi ≤ lo) :
    for_loop lo hi body s = s := by
  cases hi with
  | zero => rfl
  | succ n =>
    have : ¬ lo ≤ n := by omega
    simp [for_loop, this]

/-- Loop invariant rule: `I i` holds before iteration `i` and `I hi` at exit. -/
theorem for_loop_inv {σ : Type} (I : ℕ → σ → Prop) (lo hi : ℕ) (body : ℕ → σ → σ) (s : σ)
    (hle : lo ≤ hi) (h0 : I lo s)
    (hstep : ∀ i t, lo ≤ i → i < hi → I i t → I (i + 1) (body i t)) :
    I hi (for_loop lo hi body s) := by
  induction hi with
  | zero =>
    have : lo = 0 := by omega
    subst this
    simpa [for_loop] using h0
  | succ n ih =>
    rcases Nat.eq_or_lt_of_le hle with h | h
    · subst h
      rw [for_loop_empty _ _ _ _ (le_refl _)]
      exact h0
    · have hn : lo ≤ n := by omega
      rw [for_loop_succ _ _ _ _ hn]
      apply hstep n _ hn (by omega)
      exact ih hn (fun i t h1 h2 h3 => hstep i t h1 (by omega) h3)

/-! ## Elitism: `__elitist` -/

theorem set_rd_self (a : List genotype) (i : ℕ) (h : i < a.length) :
    a.set i (rd a i) = a := by
  apply List.ext_getElem (by simp)
  intro j h1 h2
  by_cases hij : i = j
  · subst hij
    simp [rd, List.getD_eq_getElem?_getD, List.getElem?_eq_getElem h]
  · simp [List.getElem_set, hij]

theorem length_set_fitness (pop : List genotype) (m : ℕ) (v : ℚ) :
    (set_fitness pop m v).length = pop.length := by
  simp [set_fitness]

theorem length_set_gene (pop : List genotype) (m i : ℕ) (v : ℚ) :
    (set_gene pop m i v).length = pop.length := by
  simp [set_gene]

theorem copy_genes_eq (N : ℕ) (pop : List genotype) (dst src : ℕ) (hne : dst ≠ src)
    (hd : dst < pop.length) (hg1 : (rd pop dst).gene.length = N)
    (hg2 : (rd pop src).gene.length = N) :
    copy_genes N pop dst src = pop.set dst { rd pop dst with gene := (rd pop src).gene } := by
  have key : ∃ G : List ℚ, copy_genes N pop dst src = pop.set dst { rd pop dst with gene := G }
      ∧ G.length = N ∧ ∀ i, i < N → rdq G i = rdq (rd pop src).gene i := by
    unfold copy_genes
    apply for_loop_inv (fun k (q : List genotype) => ∃ G : List ℚ,
      q = pop.set dst { rd pop dst with gene := G } ∧ G.length = N ∧
        ∀ i, i < k → rdq G i = rdq (rd pop src).gene i) 0 N _ pop (Nat.zero_le _)
    · refine ⟨(rd pop dst).gene, ?_, hg1, fun i hi => absurd hi (Nat.not_lt_zero _)⟩
      exact (set_rd_self pop dst hd).symm
    · rintro k q - hk ⟨G, hq, hG, hpre⟩
      refine ⟨G.set k (rdq (rd pop src).gene k), ?_, by simpa using hG, ?_⟩
      · subst hq
        simp [set_gene, rd_set_eq _ _ _ hd, rd_set_ne _ _ _ _ hne, List.set_set]
      · intro i hi
        rcases Nat.lt_succ_iff_lt_or_eq.mp hi with h | h
        · rw [rdq_set_ne _ _ _ _ (by omega)]
          exact hpre i h
        · subst h
          exact rdq_set_eq _ _ _ (by omega)
  obtain ⟨G, hG, hlen, hpre⟩ := key
  have : G = (rd pop src).gene :=
    list_eq_of_rdq _ _ (by rw [hlen, hg2]) (fun i hi => hpre i (by omega))
  rw [hG, this]

/-- What the scan of `__elitist` leaves in its locals when there are at least two
working members: both indices are assigned, they hold the best and worst fitness. -/
theorem elitist_scan_spec (P : ℕ) (pop : List genotype) (hP : 2 ≤ P) :
    ∃ b w, (elitist_scan P pop).best_mem = some b ∧ (elitist_scan P pop).worst_mem = some w
      ∧ b < P ∧ w < P
      ∧ (elitist_scan P pop).best = (rd pop b).fitness
      ∧ (elitist_scan P pop).worst = (rd pop w).fitness
      ∧ (∀ i, i < P → (rd pop i).fitness ≤ (rd pop b).fitness)
      ∧ (∀ i, i < P → (rd pop w).fitness ≤ (rd pop i).fitness) := by
  have key : (∀ i, i ≤ P - 1 → (rd pop i).fitness ≤ (elitist_scan P pop).best ∧
        (elitist_scan P pop).worst ≤ (rd pop i).fitness) ∧
      (∃ b, b ≤ P - 1 ∧ (elitist_scan P pop).best = (rd pop b).fitness ∧
        (0 < P - 1 → (elitist_scan P pop).best_mem = some b)) ∧
      (∃ w, w ≤ P - 1 ∧ (elitist_scan P pop).worst = (rd pop w).fitness ∧
        (0 < P - 1 → (elitist_scan P pop).worst_mem = some w)) := by
    unfold elitist_scan
    refine for_loop_inv (fun k (l : elitist_locals) =>
      (∀ i, i ≤ k → (rd pop i).fitness ≤ l.best ∧ l.worst ≤ (rd pop i).fitness) ∧
      (∃ b, b ≤ k ∧ l.best = (rd pop b).fitness ∧ (0 < k → l.best_mem = some b)) ∧
      (∃ w, w ≤ k ∧ l.worst = (rd pop w).fitness ∧ (0 < k → l.worst_mem = some w)))
      0 (P - 1) _ _ (Nat.zero_le _) ?_ ?_
    · refine ⟨fun i hi => ?_, ⟨0, le_refl _, rfl, fun h => absurd h (lt_irrefl _)⟩,
        ⟨0, le_refl _, rfl, fun h => absurd h (lt_irrefl _)⟩⟩
      have : i = 0 := by omega
      subst this
      exact ⟨le_refl _, le_refl _⟩
    · rintro k l - hk ⟨hall, ⟨b, hb, hbest, hbm⟩, ⟨w, hw, hworst, hwm⟩⟩
      have hk0 := hall k (le_refl _)
      have hb0 : k = 0 → l.best = (rd pop k).fitness := by
        intro h; subst h; have : b = 0 := by omega
        subst this; exact hbest
      have hw0 : k = 0 → l.worst = (rd pop k).fitness := by
        intro h; subst h; have : w = 0 := by omega
        subst this; exact hworst
      refine ⟨?_, ?_, ?_⟩
      · intro i hi
        have hc : i ≤ k ∨ i = k + 1 := by omega
        rcases hc with h | h
        · have := hall i h
          dsimp only
          split_ifs <;> constructor <;> linarith
        · subst h
          dsimp only
          split_ifs <;> constructor <;> linarith
      · dsimp only
        by_cases h1 : (rd pop k).fitness > (rd pop (k + 1)).fitness
        · by_cases h2 : (rd pop k).fitness ≥ l.best
          · refine ⟨k, by omega, ?_, fun _ => ?_⟩ <;> simp only [h1, h2, if_true] <;>
              split_ifs <;> rfl
          · have hpos : 0 < k := by
              rcases Nat.eq_zero_or_pos k with h | h
              · exact absurd (hb0 h).le h2
              · exact h
            refine ⟨b, by omega, ?_, fun _ => ?_⟩ <;> simp only [h1, h2, if_true, if_false] <;>
              split_ifs <;> first | exact hbest | exact hbm hpos
        · by_cases h2 : (rd pop (k + 1)).fitness ≥ l.best
          · refine ⟨k + 1, le_refl _, ?_, fun _ => ?_⟩ <;> simp only [h1, if_false] <;>
              split_ifs <;> rfl
          · have hpos : 0 < k := by
              rcases Nat.eq_zero_or_pos k with h | h
              · exact absurd (le_trans (hb0 h).le (not_lt.mp h1)) h2
              · exact h
            refine ⟨b, by omega, ?_, fun _ => ?_⟩ <;> simp only [h1, if_false] <;>
              split_ifs <;> first | exact hbest | exact hbm hpos
      · dsimp only
        by_cases h1 : (rd pop k).fitness > (rd pop (k + 1)).fitness
        · by_cases h2 : (rd pop (k + 1)).fitness ≤ l.worst
          · refine ⟨k + 1, le_refl _, ?_, fun _ => ?_⟩ <;> simp only [h1, if_true] <;>
              split_ifs <;> rfl
          · have hpos : 0 < k := by
              rcases Nat.eq_zero_or_pos k with h | h
              · exact absurd (le_trans (le_of_lt h1) (hw0 h).ge) h2
              · exact h
            refine ⟨w, by omega, ?_, fun _ => ?_⟩ <;> simp only [h1, if_true] <;>
              split_ifs <;> first | exact hworst | exact hwm hpos
        · by_cases h2 : (rd pop k).fitness ≤ l.worst
          · refine ⟨k, by omega, ?_, fun _ => ?_⟩ <;> simp only [h1, h2, if_true, if_false] <;>
              split_ifs <;> rfl
          · have hpos : 0 < k := by
              rcases Nat.eq_zero_or_pos k with h | h
              · exact absurd (hw0 h).ge h2
              · exact h
            refine ⟨w, by omega, ?_, fun _ => ?_⟩ <;> simp only [h1, h2, if_false] <;>
              split_ifs <;> first | exact hworst | exact hwm hpos
  obtain ⟨hall, ⟨b, hb, hbest, hbm⟩, ⟨w, hw, hworst, hwm⟩⟩ := key
  have hpos : 0 < P - 1 := by omega
  refine ⟨b, w, hbm hpos, hwm hpos, by omega, by omega, hbest, hworst, ?_, ?_⟩
  · intro i hi
    rw [← hbest]
    exact (hall i (by omega)).1
  · intro i hi
    rw [← hworst]
    exact (hall i (by omega)).2


/-- The effect of `__elitist` in closed form, for at least two working members. -/
theorem elitist_closed_form (P N : ℕ) (s : State) (hP : 2 ≤ P)
    (hwf : well_formed P N s.population) :
    ∃ b w, is_best P s.population b ∧ is_worst P s.population w ∧
      __elitist P N s = some
        (if (rd s.population b).fitness ≥ (rd s.population P).fitness then
          { s with population := s.population.set P
                     { rd s.population P with gene := (rd s.population b).gene,
                                              fitness := (rd s.population b).fitness } }
        else
          { s with population := s.population.set w
                     { rd s.population w with gene := (rd s.population P).gene,
                                              fitness := (rd s.population P).fitness } }) := by
  obtain ⟨b, w, hbm, hwm, hb, hw, hbest, hworst, hmax, hmin⟩ :=
    elitist_scan_spec P s.population hP
  obtain ⟨hlen, hgene⟩ := hwf
  refine ⟨b, w, ⟨hb, hmax⟩, ⟨hw, hmin⟩, ?_⟩
  have hPlt : P < s.population.length := by omega
  have hblt : b < s.population.length := by omega
  have hwlt : w < s.population.length := by omega
  unfold __elitist
  simp only [hbm, hwm, hbest]
  split_ifs with h
  · rw [copy_genes_eq N _ P b (by omega) hPlt (hgene P (le_refl _)) (hgene b (by omega))]
    simp [set_fitness, rd_set_eq _ _ _ hPlt, rd_set_ne _ P b _ (by omega), List.set_set]
  · rw [copy_genes_eq N _ w P (by omega) hwlt (hgene w (by omega)) (hgene P (le_refl _))]
    simp [set_fitness, rd_set_eq _ _ _ hwlt, rd_set_ne _ w P _ (by omega), List.set_set]


/-- C3: for at least two working members, `__elitist` returns and does exactly one of
two things.  With `b` a working member of maximum fitness and `w` one of minimum
fitness: if the maximum is at least the archive fitness, the archive gets the genes
and fitness of `b` and every working genotype is unchanged; otherwise the archive is
unchanged, the working genotype `w` gets the genes and fitness of the archive, and
all other working genotypes are unchanged. -/
theorem elitist_archive_or_worst (P N : ℕ) (s : State) (hP : 2 ≤ P)
    (hwf : well_formed P N s.population) :
    ∃ s' b w, __elitist P N s = some s' ∧ is_best P s.population b ∧
      is_worst P s.population w ∧
      ((rd s.population P).fitness ≤ (rd s.population b).fitness →
        rd s'.population P =
          { rd s.population P with gene := (rd s.population b).gene,
                                   fitness := (rd s.population b).fitness } ∧
        ∀ i, i < P → rd s'.population i = rd s.population i) ∧
      ((rd s.population b).fitness < (rd s.population P).fitness →
        rd s'.population P = rd s.population P ∧
        rd s'.population w =
          { rd s.population w with gene := (rd s.population P).gene,
                                   fitness := (rd s.population P).fitness } ∧
        ∀ i, i < P → i ≠ w → rd s'.population i = rd s.population i) := by
  obtain ⟨b, w, hb, hw, hel⟩ := elitist_closed_form P N s hP hwf
  have hlen := hwf.1
  refine ⟨_, b, w, hel, hb, hw, ?_, ?_⟩
  · intro h
    rw [if_pos h]
    refine ⟨rd_set_eq _ _ _ (by omega), fun i hi => rd_set_ne _ _ _ _ (by omega)⟩
  · intro h
    rw [if_neg (not_le.mpr h)]
    have hwP : w < P := hw.1
    refine ⟨rd_set_ne _ _ _ _ (by omega), rd_set_eq _ _ _ (by omega),
      fun i _ hi => rd_set_ne _ _ _ _ (fun e => hi e.symm)⟩

/-- The arrays of `small_state` have their declared sizes. -/
theorem well_formed_small_state : well_formed 2 3 small_state.population := by
  refine ⟨rfl, ?_⟩
  intro i hi
  have : i = 0 ∨ i = 1 ∨ i = 2 := by omega
  rcases this with h | h | h <;> subst h <;> rfl

/-- C3 on `small_state`, where the archive (fitness 5) beats both working members. -/
theorem elitist_archive_or_worst_witness :
    2 ≤ 2 ∧ well_formed 2 3 small_state.population ∧
    ∃ s' b w, __elitist 2 3 small_state = some s' ∧ is_best 2 small_state.population b ∧
      is_worst 2 small_state.population w ∧
      ((rd small_state.population 2).fitness ≤ (rd small_state.population b).fitness →
        rd s'.population 2 =
          { rd small_state.population 2 with
            gene := (rd small_state.population b).gene,
            fitness := (rd small_state.population b).fitness } ∧
        ∀ i, i < 2 → rd s'.population i = rd small_state.population i) ∧
      ((rd small_state.population b).fitness < (rd small_state.population 2).fitness →
        rd s'.population 2 = rd small_state.population 2 ∧
        rd s'.population w =
          { rd small_state.population w with
            gene := (rd small_state.population 2).gene,
            fitness := (rd small_state.population 2).fitness } ∧
        ∀ i, i < 2 → i ≠ w → rd s'.population i = rd small_state.population i) :=
  ⟨by decide, well_formed_small_state,
    elitist_archive_or_worst 2 3 small_state (by decide) well_formed_small_state⟩

/-- C4: for at least two working members, after `__elitist` the archive fitness is at
least the fitness of every working genotype, and some working genotype has the genes
and the fitness of the archive. -/
theorem elitist_archive_dominates (P N : ℕ) (s : State) (hP : 2 ≤ P)
    (hwf : well_formed P N s.population) :
    ∃ s', __elitist P N s = some s' ∧
      (∀ i, i < P → (rd s'.population i).fitness ≤ (rd s'.population P).fitness) ∧
      ∃ i, i < P ∧ (rd s'.population i).gene = (rd s'.population P).gene ∧
        (rd s'.population i).fitness = (rd s'.population P).fitness := by
  obtain ⟨b, w, hb, hw, hel⟩ := elitist_closed_form P N s hP hwf
  have hlen := hwf.1
  refine ⟨_, hel, ?_⟩
  have hbP : b < P := hb.1
  have hwP : w < P := hw.1
  split_ifs with h
  · have hw1 : ∀ i, i < P → rd (s.population.set P
        { rd s.population P with gene := (rd s.population b).gene,
                                 fitness := (rd s.population b).fitness }) i
        = rd s.population i := fun i hi => rd_set_ne _ _ _ _ (by omega)
    constructor
    · intro i hi
      simp only [hw1 i hi, rd_set_eq _ _ _ (show P < s.population.length by omega)]
      exact hb.2 i hi
    · refine ⟨b, hbP, ?_, ?_⟩ <;>
        simp only [hw1 b hbP, rd_set_eq _ _ _ (show P < s.population.length by omega)]
  · have hP1 : rd (s.population.set w
        { rd s.population w with gene := (rd s.population P).gene,
                                 fitness := (rd s.population P).fitness }) P
        = rd s.population P := rd_set_ne _ _ _ _ (by omega)
    constructor
    · intro i hi
      by_cases hiw : i = w
      · subst hiw
        simp only [hP1, rd_set_eq _ _ _ (show i < s.population.length by omega)]
        exact le_refl _
      · simp only [hP1, rd_set_ne _ _ _ _ (fun e => hiw e.symm)]
        exact le_trans (hb.2 i hi) (le_of_lt (not_le.mp h))
    · refine ⟨w, hwP, ?_, ?_⟩ <;>
        simp only [hP1, rd_set_eq _ _ _ (show w < s.population.length by omega)]

/-- C4 on `small_state`. -/
theorem elitist_archive_dominates_witness :
    2 ≤ 2 ∧ well_formed 2 3 small_state.population ∧
    ∃ s', __elitist 2 3 small_state = some s' ∧
      (∀ i, i < 2 → (rd s'.population i).fitness ≤ (rd s'.population 2).fitness) ∧
      ∃ i, i < 2 ∧ (rd s'.population i).gene = (rd s'.population 2).gene ∧
        (rd s'.population i).fitness = (rd s'.population 2).fitness :=
  ⟨by decide, well_formed_small_state,
    elitist_archive_dominates 2 3 small_state (by decide) well_formed_small_state⟩

/-! ## First-best capture: `__keep_the_best` -/

/-- The first loop of `__keep_the_best` in closed form, when the working fitness values
are positive and the archive fitness starts at 0. -/
theorem keep_the_best_scan (P : ℕ) (s : State) (hP : 1 ≤ P)
    (hlen : s.population.length = P + 1)
    (h0 : (rd s.population P).fitness = 0)
    (hpos : ∀ i, i < P → 0 < (rd s.population i).fitness)
    (t : State)
    (ht : t = for_loop 0 P (fun mem (s : State) =>
      if (rd s.population mem).fitness > (rd s.population P).fitness then
        { s with cur_best := mem,
                 population := set_fitness s.population P (rd s.population mem).fitness }
      else s) { s with cur_best := 0 }) :
    is_best P s.population t.cur_best ∧
      (∀ i, i < t.cur_best → (rd s.population i).fitness < (rd s.population t.cur_best).fitness) ∧
      t.population = s.population.set P
        { rd s.population P with fitness := (rd s.population t.cur_best).fitness } := by
  have hPlt : P < s.population.length := by omega
  have key : ∃ f : ℚ, t.population = s.population.set P { rd s.population P with fitness := f } ∧
      (∀ i, i < P → (rd s.population i).fitness ≤ f) ∧
      (P = 0 → f = 0 ∧ t.cur_best = 0) ∧
      (0 < P → t.cur_best < P ∧ f = (rd s.population t.cur_best).fitness ∧
        ∀ i, i < t.cur_best → (rd s.population i).fitness < f) := by
    rw [ht]
    refine for_loop_inv (fun k (t : State) => ∃ f : ℚ,
      t.population = s.population.set P { rd s.population P with fitness := f } ∧
      (∀ i, i < k → (rd s.population i).fitness ≤ f) ∧
      (k = 0 → f = 0 ∧ t.cur_best = 0) ∧
      (0 < k → t.cur_best < k ∧ f = (rd s.population t.cur_best).fitness ∧
        ∀ i, i < t.cur_best → (rd s.population i).fitness < f)) 0 P _ _ (Nat.zero_le _) ?_ ?_
    · refine ⟨0, ?_, fun i hi => absurd hi (Nat.not_lt_zero _), fun _ => ⟨rfl, rfl⟩,
        fun h => absurd h (lt_irrefl _)⟩
      rw [← h0]
      exact (set_rd_self _ _ hPlt).symm
    · rintro k t - hk ⟨f, hpop, hle, hz, hp⟩
      have hrk : rd t.population k = rd s.population k := by
        rw [hpop]; exact rd_set_ne _ _ _ _ (by omega)
      have hrP : (rd t.population P).fitness = f := by
        rw [hpop, rd_set_eq _ _ _ hPlt]
      simp only [hrk, hrP]
      split_ifs with h
      · refine ⟨(rd s.population k).fitness, ?_, ?_, fun h => False.elim h, ?_⟩
        · simp [set_fitness, hpop, rd_set_eq _ _ _ hPlt, List.set_set]
        · intro i hi
          rcases Nat.lt_succ_iff_lt_or_eq.mp hi with h1 | h1
          · exact le_trans (hle i h1) (le_of_lt h)
          · subst h1; exact le_refl _
        · intro _
          exact ⟨Nat.lt_succ_self _, rfl, fun i hi => lt_of_le_of_lt (hle i hi) h⟩
      · have hkpos : 0 < k := by
          rcases Nat.eq_zero_or_pos k with h1 | h1
          · subst h1
            have := hpos 0 hk
            rw [(hz rfl).1] at h
            exact absurd this h
          · exact h1
        obtain ⟨hc, hf, hlt⟩ := hp hkpos
        refine ⟨f, hpop, ?_, fun h => False.elim h, fun _ => ⟨by omega, hf, hlt⟩⟩
        intro i hi
        rcases Nat.lt_succ_iff_lt_or_eq.mp hi with h1 | h1
        · exact hle i h1
        · subst h1; exact not_lt.mp h
  obtain ⟨f, hpop, hle, -, hp⟩ := key
  obtain ⟨hc, hf, hlt⟩ := hp (by omega)
  subst hf
  exact ⟨⟨hc, hle⟩, hlt, hpop⟩

/-- C5: when every working fitness is strictly positive and the archive fitness is 0,
`__keep_the_best` sets the archive fitness to the maximum working fitness and the
archive genes to the genes of the lowest-index working genotype of that fitness,
and leaves the working population unchanged. -/
theorem keep_the_best_first_max (P N : ℕ) (s : State) (hP : 1 ≤ P)
    (hwf : well_formed P N s.population)
    (h0 : (rd s.population P).fitness = 0)
    (hpos : ∀ i, i < P → 0 < (rd s.population i).fitness) :
    ∃ b, is_best P s.population b ∧
      (∀ i, i < b → (rd s.population i).fitness < (rd s.population b).fitness) ∧
      (rd (__keep_the_best P N s).population P).fitness = (rd s.population b).fitness ∧
      (rd (__keep_the_best P N s).population P).gene = (rd s.population b).gene ∧
      ∀ i, i < P → rd (__keep_the_best P N s).population i = rd s.population i := by
  obtain ⟨hlen, hgene⟩ := hwf
  have hPlt : P < s.population.length := by omega
  obtain ⟨hb, hlow, hpop⟩ := keep_the_best_scan P s hP hlen h0 hpos _ rfl
  refine ⟨_, hb, hlow, ?_⟩
  have hbP := hb.1
  unfold __keep_the_best
  simp only []
  rw [copy_genes_eq N _ P _ (by omega) (by rw [hpop]; simpa using hPlt)
    (by rw [hpop, rd_set_eq _ _ _ hPlt]; exact hgene P (le_refl _))
    (by rw [hpop, rd_set_ne _ _ _ _ (by omega)]; exact hgene _ (by omega))]
  rw [hpop]
  simp only [rd_set_eq _ _ _ hPlt, List.set_set, rd_set_ne _ P _ _ (Nat.ne_of_gt hbP)]
  refine ⟨trivial, trivial, fun i hi => rd_set_ne _ _ _ _ (by omega)⟩


/-- The arrays of `fresh_state` have their declared sizes. -/
theorem well_formed_fresh_state : well_formed 2 3 fresh_state.population := by
  refine ⟨rfl, ?_⟩
  intro i hi
  have : i = 0 ∨ i = 1 ∨ i = 2 := by omega
  rcases this with h | h | h <;> subst h <;> rfl

theorem fresh_state_positive :
    ∀ i, i < 2 → 0 < (rd fresh_state.population i).fitness := by
  intro i hi
  have : i = 0 ∨ i = 1 := by omega
  rcases this with h | h <;> subst h <;> simp [fresh_state, rd]

/-- C5 on `fresh_state` (working fitness 2 and 3, zero-filled archive). -/
theorem keep_the_best_first_max_witness :
    1 ≤ 2 ∧ well_formed 2 3 fresh_state.population ∧
    (rd fresh_state.population 2).fitness = 0 ∧
    (∀ i, i < 2 → 0 < (rd fresh_state.population i).fitness) ∧
    ∃ b, is_best 2 fresh_state.population b ∧
      (∀ i, i < b →
        (rd fresh_state.population i).fitness < (rd fresh_state.population b).fitness) ∧
      (rd (__keep_the_best 2 3 fresh_state).population 2).fitness
        = (rd fresh_state.population b).fitness ∧
      (rd (__keep_the_best 2 3 fresh_state).population 2).gene
        = (rd fresh_state.population b).gene ∧
      ∀ i, i < 2 → rd (__keep_the_best 2 3 fresh_state).population i
        = rd fresh_state.population i :=
  ⟨by decide, well_formed_fresh_state, rfl, fresh_state_positive,
    keep_the_best_first_max 2 3 fresh_state (by decide) well_formed_fresh_state rfl
      fresh_state_positive⟩

/-! ## The archive entry across one generation -/

theorem same_archive_refl (P : ℕ) (pop : List genotype) : same_archive P pop pop :=
  ⟨rfl, rfl⟩

theorem same_archive_trans {P : ℕ} {a b c : List genotype} (h1 : same_archive P a b)
    (h2 : same_archive P b c) : same_archive P a c :=
  ⟨h2.1.trans h1.1, h2.2.trans h1.2⟩

theorem same_archive_set (P : ℕ) (pop : List genotype) (i : ℕ) (v : genotype) (h : i ≠ P) :
    same_archive P pop (pop.set i v) :=
  ⟨by simp, rd_set_ne _ _ _ _ h⟩

theorem same_archive_set_gene (P : ℕ) (pop : List genotype) (m i : ℕ) (v : ℚ) (h : m ≠ P) :
    same_archive P pop (set_gene pop m i v) :=
  same_archive_set P pop m _ h

theorem same_archive_set_fitness (P : ℕ) (pop : List genotype) (m : ℕ) (v : ℚ) (h : m ≠ P) :
    same_archive P pop (set_fitness pop m v) :=
  same_archive_set P pop m _ h

/-- Frame rule for loops: if every iteration keeps the archive entry of the array
`proj t` (under a loop invariant `J`), so does the loop. -/
theorem for_loop_same_archive {σ : Type} (proj : σ → List genotype) (J : σ → Prop) (P lo hi : ℕ)
    (body : ℕ → σ → σ) (s : σ) (hJ : J s)
    (h : ∀ i t, lo ≤ i → i < hi → J t →
      J (body i t) ∧ same_archive P (proj t) (proj (body i t))) :
    J (for_loop lo hi body s) ∧ same_archive P (proj s) (proj (for_loop lo hi body s)) := by
  rcases Nat.lt_or_ge hi lo with hlt | hle
  · rw [for_loop_empty _ _ _ _ (le_of_lt hlt)]
    exact ⟨hJ, same_archive_refl _ _⟩
  · refine for_loop_inv (fun _ (t : σ) => J t ∧ same_archive P (proj s) (proj t))
      lo hi body s hle ⟨hJ, same_archive_refl _ _⟩ ?_
    rintro i t h1 h2 ⟨h3, h4⟩
    exact ⟨(h i t h1 h2 h3).1, same_archive_trans h4 (h i t h1 h2 h3).2⟩

theorem select_relative_same_archive (P : ℕ) (pop : List genotype) :
    same_archive P pop (select_relative P pop) := by
  unfold select_relative
  exact (for_loop_same_archive id (fun _ => True) P 0 P _ pop trivial
    (fun i t _ hi _ => ⟨trivial, same_archive_set P t i _ (by omega)⟩)).2

theorem select_cumulative_same_archive (P : ℕ) (pop : List genotype) (hP : 1 ≤ P) :
    same_archive P pop (select_cumulative P pop) := by
  unfold select_cumulative
  exact same_archive_trans (same_archive_set P pop 0 _ (by omega))
    (for_loop_same_archive id (fun _ => True) P 1 P _ _ trivial
      (fun i t _ hi _ => ⟨trivial, same_archive_set P t i _ (by omega)⟩)).2

theorem select_fitness_same_archive (P : ℕ) (pop : List genotype) (hP : 1 ≤ P) :
    same_archive P pop (select_fitness P pop) :=
  same_archive_trans (select_relative_same_archive P pop)
    (select_cumulative_same_archive P _ hP)

theorem select_survivors_population (P : ℕ) (rand : ℕ → ℕ) (s : State) :
    (select_survivors P rand s).population = s.population := by
  unfold select_survivors
  exact for_loop_inv (fun _ (t : State) => t.population = s.population) 0 P _ s
    (Nat.zero_le _) rfl (fun i t _ _ h => h)

theorem select_copy_back_same_archive (P : ℕ) (s : State) :
    same_archive P s.population (select_copy_back P s).population := by
  unfold select_copy_back
  exact (for_loop_same_archive State.population (fun _ => True) P 0 P _ s trivial
    (fun i t _ hi _ => ⟨trivial, same_archive_set P _ i _ (by omega)⟩)).2

theorem select_same_archive (P : ℕ) (rand : ℕ → ℕ) (s : State) (hP : 1 ≤ P) :
    same_archive P s.population (__select P rand s).population := by
  unfold __select
  refine same_archive_trans ?_ (select_copy_back_same_archive P _)
  rw [select_survivors_population]
  exact select_fitness_same_archive P s.population hP

theorem Xover_same_archive (P N : ℕ) (rand : ℕ → ℕ) (one two : ℕ) (s : State)
    (h1 : one ≠ P) (h2 : two ≠ P) :
    same_archive P s.population (__Xover N rand one two s).population := by
  unfold __Xover
  split_ifs with hN h2N
  · exact (for_loop_same_archive State.population (fun _ => True) P 0 _ _ _ trivial
      (fun i t _ hi _ => ⟨trivial, same_archive_trans (same_archive_set_gene P _ one i _ h1)
        (same_archive_set_gene P _ two i _ h2)⟩)).2
  · exact (for_loop_same_archive State.population (fun _ => True) P 0 _ _ _ trivial
      (fun i t _ hi _ => ⟨trivial, same_archive_trans (same_archive_set_gene P _ one i _ h1)
        (same_archive_set_gene P _ two i _ h2)⟩)).2
  · exact same_archive_refl _ _

theorem crossover_same_archive (P N : ℕ) (PXOVER : ℚ) (rand : ℕ → ℕ) (s : State) :
    same_archive P s.population (__crossover P N PXOVER rand s).population := by
  unfold __crossover
  rcases Nat.eq_zero_or_pos P with h0 | hpos
  · subst h0
    exact same_archive_refl _ _
  · exact (for_loop_same_archive (fun l : crossover_locals => l.state.population)
      (fun l => l.one < P) P 0 P _ ⟨s, 0, 0⟩ hpos (by
        intro i l _ hi hone
        dsimp only
        split_ifs
        · exact ⟨hone, Xover_same_archive P N rand l.one i _ (by omega) (by omega)⟩
        · exact ⟨hi, same_archive_refl _ _⟩
        · exact ⟨hone, same_archive_refl _ _⟩)).2

theorem mutate_same_archive (P N : ℕ) (PMUTATION : ℚ) (rand : ℕ → ℕ) (s : State) :
    same_archive P s.population (__mutate P N PMUTATION rand s).population := by
  unfold __mutate
  refine (for_loop_same_archive State.population (fun _ => True) P 0 P _ s trivial ?_).2
  intro i t _ hi _
  refine ⟨trivial, (for_loop_same_archive State.population (fun _ => True) P 0 N _ t trivial ?_).2⟩
  intro j u _ _ _
  refine ⟨trivial, ?_⟩
  dsimp only
  split_ifs
  · exact same_archive_set_gene P _ i j _ (by omega)
  · exact same_archive_refl _ _

theorem evaluate_same_archive (P N : ℕ) (s : State) :
    same_archive P s.population (__evaluate P N s).population := by
  unfold __evaluate
  exact (for_loop_same_archive (fun t : List genotype × List ℚ => t.1) (fun _ => True) P 0 P _
    (s.population, List.replicate (N + 1) 0) trivial
    (fun i t _ hi _ => ⟨trivial, same_archive_set_fitness P _ i _ (by omega)⟩)).2

theorem report_population (P : ℕ) (s : State) : (__report P s).population = s.population :=
  rfl


theorem rd_set_gene_fitness (q : List genotype) (m i j : ℕ) (v : ℚ) :
    (rd (set_gene q m i v) j).fitness = (rd q j).fitness := by
  unfold set_gene
  by_cases hmj : m = j
  · subst hmj
    by_cases hlt : m < q.length
    · rw [rd_set_eq _ _ _ hlt]
    · rw [List.set_eq_of_length_le (not_lt.mp hlt)]
  · rw [rd_set_ne _ _ _ _ hmj]

theorem copy_genes_frame (N : ℕ) (pop : List genotype) (dst src : ℕ) :
    (copy_genes N pop dst src).length = pop.length ∧
      ∀ j, (rd (copy_genes N pop dst src) j).fitness = (rd pop j).fitness := by
  unfold copy_genes
  refine for_loop_inv (fun _ (q : List genotype) => q.length = pop.length ∧
    ∀ j, (rd q j).fitness = (rd pop j).fitness) 0 N _ pop (Nat.zero_le _)
    ⟨rfl, fun _ => rfl⟩ ?_
  rintro i q - - ⟨h1, h2⟩
  exact ⟨by rw [length_set_gene, h1], fun j => by rw [rd_set_gene_fitness, h2]⟩

/-- For at least two working members `__elitist` returns, keeps the array length and
never lowers the archive fitness. -/
theorem elitist_archive_fitness (P N : ℕ) (s : State) (hP : 2 ≤ P)
    (hlen : s.population.length = P + 1) :
    ∃ s', __elitist P N s = some s' ∧ s'.population.length = P + 1 ∧
      (rd s.population P).fitness ≤ (rd s'.population P).fitness := by
  obtain ⟨b, w, hbm, hwm, hb, hw, hbest, hworst, -, -⟩ := elitist_scan_spec P s.population hP
  unfold __elitist
  simp only [hbm, hwm, hbest]
  split_ifs with h
  · obtain ⟨h1, h2⟩ := copy_genes_frame N s.population P b
    refine ⟨_, rfl, by simp [set_fitness, h1, hlen], ?_⟩
    simp only [set_fitness]
    rw [rd_set_eq _ _ _ (by omega)]
    simpa [h2 b] using h
  · obtain ⟨h1, h2⟩ := copy_genes_frame N s.population w P
    refine ⟨_, rfl, by simp [set_fitness, h1, hlen], ?_⟩
    simp only [set_fitness]
    rw [rd_set_ne _ _ _ _ (by omega), h2 P]

/-- The archive entry and the array length after the operators that precede
`__elitist` in one pass of the loop of `main`. -/
theorem generation_evaluated_same_archive (P N : ℕ) (PXOVER PMUTATION : ℚ) (rand : ℕ → ℕ)
    (s : State) (hP : 1 ≤ P) :
    same_archive P s.population
      (generation_evaluated P N PXOVER PMUTATION rand s).population := by
  unfold generation_evaluated
  refine same_archive_trans ?_ (evaluate_same_archive P N _)
  rw [report_population]
  refine same_archive_trans ?_ (mutate_same_archive P N PMUTATION rand _)
  refine same_archive_trans ?_ (crossover_same_archive P N PXOVER rand _)
  exact select_same_archive P rand { s with generation := s.generation + 1 } hP

/-- C1: with at least two working members, `__select`, `__crossover`, `__mutate` and
`__evaluate` leave the archive entry `population[POPSIZE]` as it is, `__elitist`
replaces the archive fitness only by a value at least as large, and so one full
generation (one pass of the loop of `main`) returns with an archive fitness greater
than or equal to the one before, for every random stream. -/
theorem generation_archive_monotone (P N : ℕ) (PXOVER PMUTATION : ℚ) (rand : ℕ → ℕ)
    (s : State) (hP : 2 ≤ P) (hlen : s.population.length = P + 1) :
    rd (__select P rand s).population P = rd s.population P ∧
    rd (__crossover P N PXOVER rand s).population P = rd s.population P ∧
    rd (__mutate P N PMUTATION rand s).population P = rd s.population P ∧
    rd (__evaluate P N s).population P = rd s.population P ∧
    (∃ s', __elitist P N s = some s' ∧
      (rd s.population P).fitness ≤ (rd s'.population P).fitness) ∧
    (∃ s', generation_step P N PXOVER PMUTATION rand s = some s' ∧
      (rd s.population P).fitness ≤ (rd s'.population P).fitness) := by
  refine ⟨(select_same_archive P rand s (by omega)).2,
    (crossover_same_archive P N PXOVER rand s).2,
    (mutate_same_archive P N PMUTATION rand s).2,
    (evaluate_same_archive P N s).2, ?_, ?_⟩
  · obtain ⟨s', h1, -, h2⟩ := elitist_archive_fitness P N s hP hlen
    exact ⟨s', h1, h2⟩
  · obtain ⟨h1, h2⟩ := generation_evaluated_same_archive P N PXOVER PMUTATION rand s (by omega)
    obtain ⟨s', h3, -, h4⟩ := elitist_archive_fitness P N
      (generation_evaluated P N PXOVER PMUTATION rand s) hP (by rw [h1, hlen])
    exact ⟨s', h3, by rw [← h2]; exact h4⟩

/-- C1 on `small_state` with the constant random stream 0 and the probabilities of the
source (0.8 and 0.15). -/
theorem generation_archive_monotone_witness :
    2 ≤ 2 ∧ small_state.population.length = 2 + 1 ∧
    rd (__select 2 (fun _ => 0) small_state).population 2 = rd small_state.population 2 ∧
    rd (__crossover 2 3 (4 / 5) (fun _ => 0) small_state).population 2
      = rd small_state.population 2 ∧
    rd (__mutate 2 3 (3 / 20) (fun _ => 0) small_state).population 2
      = rd small_state.population 2 ∧
    rd (__evaluate 2 3 small_state).population 2 = rd small_state.population 2 ∧
    (∃ s', __elitist 2 3 small_state = some s' ∧
      (rd small_state.population 2).fitness ≤ (rd s'.population 2).fitness) ∧
    (∃ s', generation_step 2 3 (4 / 5) (3 / 20) (fun _ => 0) small_state = some s' ∧
      (rd small_state.population 2).fitness ≤ (rd s'.population 2).fitness) :=
  ⟨by decide, rfl,
    generation_archive_monotone 2 3 (4 / 5) (3 / 20) (fun _ => 0) small_state (by decide) rfl⟩

/-! ## The archive fitness as running maximum -/

theorem initialize_same_archive (P N : ℕ) (rand : ℕ → ℕ) (nums : List ℚ) (s : State) :
    ∃ s1, __initialize P N rand (some nums) s = some s1 ∧
      same_archive P s.population s1.population := by
  refine ⟨_, rfl, ?_⟩
  refine (for_loop_same_archive (fun t : State × ℚ × ℚ => t.1.population) (fun _ => True)
    P 0 N _ (s, 0, 0) trivial ?_).2
  intro i t _ _ _
  refine ⟨trivial, ?_⟩
  exact (for_loop_same_archive State.population (fun _ => True) P 0 P _ t.1 trivial
    (fun j u _ hj _ => ⟨trivial, same_archive_set P _ j _ (by omega)⟩)).2

theorem rd_replicate (n i : ℕ) (g : genotype) (h : i < n) : rd (List.replicate n g) i = g := by
  simp [rd, List.getD_eq_getElem?_getD, List.getElem?_replicate, h]

/-- The first evaluation exists when the input file opens; the array has its length and
the archive entry is still zero-filled. -/
theorem first_evaluated_spec (P N : ℕ) (rand : ℕ → ℕ) (nums : List ℚ) :
    ∃ s0, first_evaluated P N rand (some nums) = some s0 ∧
      s0.population.length = P + 1 ∧ rd s0.population P = zero_genotype N := by
  obtain ⟨s1, h1, h2, h3⟩ := initialize_same_archive P N rand nums (start_state P N)
  obtain ⟨h4, h5⟩ := evaluate_same_archive P N s1
  refine ⟨__evaluate P N s1, by simp [first_evaluated, h1], ?_, ?_⟩
  · rw [h4, h2]; simp [start_state]
  · rw [h5, h3]; exact rd_replicate _ _ _ (Nat.lt_succ_self _)

/-- The archive fitness after `__keep_the_best`, for positive working fitness and an
archive fitness of 0: the maximum working fitness. -/
theorem keep_the_best_fitness (P N : ℕ) (s : State) (hP : 1 ≤ P)
    (hlen : s.population.length = P + 1)
    (h0 : (rd s.population P).fitness = 0)
    (hpos : ∀ i, i < P → 0 < (rd s.population i).fitness) :
    ∃ b, is_best P s.population b ∧
      (__keep_the_best P N s).population.length = P + 1 ∧
      (rd (__keep_the_best P N s).population P).fitness = (rd s.population b).fitness := by
  obtain ⟨hb, -, hpop⟩ := keep_the_best_scan P s hP hlen h0 hpos _ rfl
  refine ⟨_, hb, ?_, ?_⟩
  · unfold __keep_the_best
    simp only []
    rw [(copy_genes_frame N _ P _).1, hpop]
    simpa using hlen
  · unfold __keep_the_best
    simp only []
    rw [(copy_genes_frame N _ P _).2 P, hpop, rd_set_eq _ _ _ (by omega)]

/-- The archive fitness after `__elitist`: the larger of the archive fitness before and
the maximum working fitness. -/
theorem elitist_archive_max (P N : ℕ) (s : State) (hP : 2 ≤ P)
    (hlen : s.population.length = P + 1) :
    ∃ s' b, __elitist P N s = some s' ∧ s'.population.length = P + 1 ∧
      is_best P s.population b ∧
      (rd s'.population P).fitness =
        if (rd s.population P).fitness ≤ (rd s.population b).fitness
        then (rd s.population b).fitness else (rd s.population P).fitness := by
  obtain ⟨b, w, hbm, hwm, hb, hw, hbest, hworst, hmax, -⟩ := elitist_scan_spec P s.population hP
  unfold __elitist
  simp only [hbm, hwm, hbest]
  split_ifs with h
  · obtain ⟨h1, h2⟩ := copy_genes_frame N s.population P b
    refine ⟨_, b, rfl, by simp [set_fitness, h1, hlen], ⟨hb, hmax⟩, ?_⟩
    simp only [set_fitness]
    rw [rd_set_eq _ _ _ (by omega), if_pos h]
    simp [h2 b]
  · obtain ⟨h1, h2⟩ := copy_genes_frame N s.population w P
    refine ⟨_, b, rfl, by simp [set_fitness, h1, hlen], ⟨hb, hmax⟩, ?_⟩
    simp only [set_fitness]
    rw [rd_set_ne _ _ _ _ (by omega), h2 P, if_neg h]

/-- C2: in a run started by `__initialize`, `__evaluate` and `__keep_the_best` (at least
two working members, zero-initialised archive) in which every evaluated fitness is
strictly positive, after the elitism check of generation `g` the archive fitness is the
maximum of the fitness values that `__evaluate` produced for working genotypes in
generations `0..g`: an upper bound of all of them that one of them attains. -/
theorem archive_is_running_maximum (P N : ℕ) (PXOVER PMUTATION : ℚ) (rand : ℕ → ℕ)
    (nums : List ℚ) (g : ℕ) (hP : 2 ≤ P)
    (hpos : ∀ k, k ≤ g → ∀ sk,
      evaluated_in P N PXOVER PMUTATION rand (some nums) k = some sk →
      ∀ i, i < P → 0 < (rd sk.population i).fitness) :
    ∃ sg, after_generation P N PXOVER PMUTATION rand (some nums) g = some sg ∧
      (∀ k, k ≤ g → ∀ sk,
        evaluated_in P N PXOVER PMUTATION rand (some nums) k = some sk →
        ∀ i, i < P → (rd sk.population i).fitness ≤ (rd sg.population P).fitness) ∧
      ∃ k sk i, k ≤ g ∧ evaluated_in P N PXOVER PMUTATION rand (some nums) k = some sk ∧
        i < P ∧ (rd sk.population i).fitness = (rd sg.population P).fitness := by
  suffices H : ∃ sg, after_generation P N PXOVER PMUTATION rand (some nums) g = some sg ∧
      sg.population.length = P + 1 ∧
      (∀ k, k ≤ g → ∀ sk,
        evaluated_in P N PXOVER PMUTATION rand (some nums) k = some sk →
        ∀ i, i < P → (rd sk.population i).fitness ≤ (rd sg.population P).fitness) ∧
      ∃ k sk i, k ≤ g ∧ evaluated_in P N PXOVER PMUTATION rand (some nums) k = some sk ∧
        i < P ∧ (rd sk.population i).fitness = (rd sg.population P).fitness by
    obtain ⟨sg, h1, -, h2, h3⟩ := H
    exact ⟨sg, h1, h2, h3⟩
  induction g with
  | zero =>
    obtain ⟨s0, hs0, hlen, harch⟩ := first_evaluated_spec P N rand nums
    have h0 : (rd s0.population P).fitness = 0 := by rw [harch]; rfl
    have hp := hpos 0 (le_refl _) s0 hs0
    obtain ⟨b, hb, hl, hfit⟩ := keep_the_best_fitness P N s0 (by omega) hlen h0 hp
    refine ⟨__keep_the_best P N s0, by simp [after_generation, best_captured, hs0], hl, ?_, ?_⟩
    · intro k hk sk hsk i hi
      have hk0 : k = 0 := by omega
      subst hk0
      have : sk = s0 := by
        have h := hsk.symm.trans hs0
        exact Option.some.inj h
      subst this
      rw [hfit]
      exact hb.2 i hi
    · exact ⟨0, s0, b, le_refl _, hs0, hb.1, hfit.symm⟩
  | succ g ih =>
    obtain ⟨sg, hsg, hlen, hub, k0, sk0, i0, hk0, hsk0, hi0, hatt⟩ :=
      ih (fun k hk => hpos k (by omega))
    obtain ⟨h1, h2⟩ := generation_evaluated_same_archive P N PXOVER PMUTATION rand sg (by omega)
    obtain ⟨s', b, hel, hlen', hb, hfit⟩ := elitist_archive_max P N
      (generation_evaluated P N PXOVER PMUTATION rand sg) hP (by rw [h1, hlen])
    have hev : evaluated_in P N PXOVER PMUTATION rand (some nums) (g + 1)
        = some (generation_evaluated P N PXOVER PMUTATION rand sg) := by
      simp [evaluated_in, hsg]
    rw [h2] at hfit
    refine ⟨s', by simp [after_generation, hsg, generation_step, hel], hlen', ?_, ?_⟩
    · intro k hk sk hsk i hi
      rcases Nat.lt_or_ge k (g + 1) with hlt | hge
      · have := hub k (by omega) sk hsk i hi
        rw [hfit]
        split_ifs with h
        · exact le_trans this h
        · exact this
      · have hk1 : k = g + 1 := by omega
        subst hk1
        have : sk = generation_evaluated P N PXOVER PMUTATION rand sg :=
          Option.some.inj (hsk.symm.trans hev)
        subst this
        rw [hfit]
        split_ifs with h
        · exact hb.2 i hi
        · exact le_trans (hb.2 i hi) (le_of_lt (not_le.mp h))
    · by_cases h : (rd sg.population P).fitness ≤
          (rd (generation_evaluated P N PXOVER PMUTATION rand sg).population b).fitness
      · exact ⟨g + 1, _, b, le_refl _, hev, hb.1, by rw [hfit, if_pos h]⟩
      · exact ⟨k0, sk0, i0, by omega, hsk0, hi0, by rw [hfit, if_neg h]; exact hatt⟩

theorem first_evaluated_small :
    first_evaluated 2 3 (fun _ => 0) (some small_infile) =
      some ⟨[⟨[1, 0, 1], 2, [2, 1, 2], [1, 0, 1], 0, 0⟩,
             ⟨[1, 0, 1], 2, [2, 1, 2], [1, 0, 1], 0, 0⟩, zero_genotype 3],
            [zero_genotype 3, zero_genotype 3, zero_genotype 3], 0, 0, 6, []⟩ := by
  simp [first_evaluated, __initialize, __evaluate, start_state, for_loop, small_infile,
    zero_genotype, rd, rdq, set_fitness, __randval]
  norm_num

theorem best_captured_small :
    best_captured 2 3 (fun _ => 0) (some small_infile) =
      some ⟨[⟨[1, 0, 1], 2, [2, 1, 2], [1, 0, 1], 0, 0⟩,
             ⟨[1, 0, 1], 2, [2, 1, 2], [1, 0, 1], 0, 0⟩,
             ⟨[1, 0, 1], 2, [0, 0, 0], [0, 0, 0], 0, 0⟩],
            [zero_genotype 3, zero_genotype 3, zero_genotype 3], 0, 0, 6, []⟩ := by
  rw [best_captured, first_evaluated_small]
  simp [__keep_the_best, copy_genes, for_loop, zero_genotype, rd, rdq, set_fitness, set_gene]

theorem generation_evaluated_small :
    evaluated_in 2 3 (4 / 5) (3 / 20) (fun _ => 0) (some small_infile) 1 =
      some ⟨[⟨[1, 0, 1], 2, [2, 1, 2], [1, 0, 1], 1 / 2, 1 / 2⟩,
             ⟨[1, 0, 1], 2, [2, 1, 2], [1, 0, 1], 1 / 2, 1 / 2⟩,
             ⟨[1, 0, 1], 2, [0, 0, 0], [0, 0, 0], 0, 0⟩],
            [⟨[1, 0, 1], 2, [2, 1, 2], [1, 0, 1], 1 / 2, 1 / 2⟩,
             ⟨[1, 0, 1], 2, [2, 1, 2], [1, 0, 1], 1 / 2, 1 / 2⟩, zero_genotype 3],
            1, 0, 23, [⟨1, 2, 2, 0⟩]⟩ := by
  rw [evaluated_in, after_generation, best_captured_small]
  simp [generation_evaluated, __select, select_copy_back, select_survivors, select_fitness,
    select_cumulative, select_relative, select_sum, select_scan, select_draw,
    __crossover, __Xover, Xover_point, __swap, decision_draw, __mutate, __report, __evaluate,
    for_loop, zero_genotype, rd, rdq, set_fitness, set_gene, __randval]
  norm_num


theorem small_run_positive :
    ∀ k, k ≤ 1 → ∀ sk,
      evaluated_in 2 3 (4 / 5) (3 / 20) (fun _ => 0) (some small_infile) k = some sk →
      ∀ i, i < 2 → 0 < (rd sk.population i).fitness := by
  intro k hk sk hsk i hi
  have hk' : k = 0 ∨ k = 1 := by omega
  have hi' : i = 0 ∨ i = 1 := by omega
  rcases hk' with h | h <;> subst h
  · rw [evaluated_in, first_evaluated_small] at hsk
    have := Option.some.inj hsk
    subst this
    rcases hi' with h | h <;> subst h <;> simp [rd]
  · rw [generation_evaluated_small] at hsk
    have := Option.some.inj hsk
    subst this
    rcases hi' with h | h <;> subst h <;> simp [rd]

/-- C2 on the run with two working members, the bounds of `small_infile` and the constant
random stream 0, up to generation 1. -/
theorem archive_is_running_maximum_witness :
    2 ≤ 2 ∧
    (∀ k, k ≤ 1 → ∀ sk,
      evaluated_in 2 3 (4 / 5) (3 / 20) (fun _ => 0) (some small_infile) k = some sk →
      ∀ i, i < 2 → 0 < (rd sk.population i).fitness) ∧
    ∃ sg, after_generation 2 3 (4 / 5) (3 / 20) (fun _ => 0) (some small_infile) 1 = some sg ∧
      (∀ k, k ≤ 1 → ∀ sk,
        evaluated_in 2 3 (4 / 5) (3 / 20) (fun _ => 0) (some small_infile) k = some sk →
        ∀ i, i < 2 → (rd sk.population i).fitness ≤ (rd sg.population 2).fitness) ∧
      ∃ k sk i, k ≤ 1 ∧
        evaluated_in 2 3 (4 / 5) (3 / 20) (fun _ => 0) (some small_infile) k = some sk ∧
        i < 2 ∧ (rd sk.population i).fitness = (rd sg.population 2).fitness :=
  ⟨by decide, small_run_positive,
    archive_is_running_maximum 2 3 (4 / 5) (3 / 20) (fun _ => 0) small_infile 1 (by decide)
      small_run_positive⟩

/-! ## Selection: relative and cumulative fitness -/

theorem select_sum_eq (P : ℕ) (pop : List genotype) :
    select_sum P pop = ∑ i in Finset.range P, (rd pop i).fitness := by
  unfold select_sum
  induction P with
  | zero => simp [for_loop]
  | succ n ih => rw [for_loop_succ _ _ _ _ (Nat.zero_le _), ih, Finset.sum_range_succ]

/-- The relative fitness loop in closed form. -/
theorem select_relative_spec (P : ℕ) (pop : List genotype) (hlen : P ≤ pop.length) :
    (select_relative P pop).length = pop.length ∧
    ∀ i, rd (select_relative P pop) i =
      if i < P then { rd pop i with rfitness := (rd pop i).fitness / select_sum P pop }
      else rd pop i := by
  unfold select_relative
  simp only []
  have key := for_loop_inv (fun k (q : List genotype) => k ≤ P → (q.length = pop.length ∧
    ∀ i, rd q i =
      if i < k then { rd pop i with rfitness := (rd pop i).fitness / select_sum P pop }
      else rd pop i)) 0 P (fun mem (q : List genotype) =>
    q.set mem { rd q mem with rfitness := (rd q mem).fitness / select_sum P pop }) pop
    (Nat.zero_le _) (fun _ => ⟨rfl, fun i => by simp⟩) (by
      rintro k q - hk ih -
      obtain ⟨h1, h2⟩ := ih (by omega)
      refine ⟨by simp [h1], fun i => ?_⟩
      by_cases hik : k = i
      · subst hik
        rw [rd_set_eq _ _ _ (by omega), h2 k]
        simp
      · rw [rd_set_ne _ _ _ _ hik, h2 i]
        have e : i < k + 1 ↔ i < k := by omega
        simp only [e])
  exact key (le_refl _)

/-- The cumulative fitness loop in closed form. -/
theorem select_cumulative_spec (P : ℕ) (pop : List genotype) (hP : 1 ≤ P)
    (hlen : P ≤ pop.length) :
    (select_cumulative P pop).length = pop.length ∧
    ∀ i, rd (select_cumulative P pop) i =
      if i < P then
        { rd pop i with cfitness := ∑ k in Finset.range (i + 1), (rd pop k).rfitness }
      else rd pop i := by
  unfold select_cumulative
  have key := for_loop_inv (fun k (q : List genotype) => k ≤ P → (q.length = pop.length ∧
    ∀ i, rd q i =
      if i < k then
        { rd pop i with cfitness := ∑ k in Finset.range (i + 1), (rd pop k).rfitness }
      else rd pop i)) 1 P (fun mem (q : List genotype) =>
    q.set mem { rd q mem with
      cfitness := (rd q (mem - 1)).cfitness + (rd q mem).rfitness })
    (pop.set 0 { rd pop 0 with cfitness := (rd pop 0).rfitness })
    hP (fun _ => ⟨by simp, fun i => by
      by_cases hi : 0 = i
      · subst hi
        rw [rd_set_eq _ _ _ (by omega)]
        simp
      · rw [rd_set_ne _ _ _ _ hi]
        have : ¬ i < 1 := by omega
        simp [this]⟩) (by
      rintro k q hk1 hk ih -
      obtain ⟨h1, h2⟩ := ih (by omega)
      refine ⟨by simp [h1], fun i => ?_⟩
      by_cases hik : k = i
      · subst hik
        rw [rd_set_eq _ _ _ (by omega), h2 k, h2 (k - 1)]
        have e1 : k - 1 < k := by omega
        have e2 : k - 1 + 1 = k := by omega
        simp only [lt_irrefl, if_false, e1, if_true, Nat.lt_succ_self, e2]
        rw [Finset.sum_range_succ _ k]
      · rw [rd_set_ne _ _ _ _ hik, h2 i]
        have e : i < k + 1 ↔ i < k := by omega
        simp only [e])
  exact key (le_refl _)


/-- The relative and cumulative fitness that `__select` computes, in closed form. -/
theorem select_fitness_spec (P : ℕ) (pop : List genotype) (hP : 1 ≤ P)
    (hlen : P ≤ pop.length) :
    (select_fitness P pop).length = pop.length ∧
    (∀ i, i < P → rd (select_fitness P pop) i =
      { rd pop i with
        rfitness := (rd pop i).fitness / select_sum P pop,
        cfitness := ∑ k in Finset.range (i + 1), (rd pop k).fitness / select_sum P pop }) ∧
    ∀ i, P ≤ i → rd (select_fitness P pop) i = rd pop i := by
  obtain ⟨h1, h2⟩ := select_relative_spec P pop hlen
  obtain ⟨h3, h4⟩ := select_cumulative_spec P (select_relative P pop) hP (by omega)
  unfold select_fitness
  refine ⟨h3.trans h1, ?_, ?_⟩
  · intro i hi
    rw [h4 i, if_pos hi, h2 i, if_pos hi]
    have : ∑ k in Finset.range (i + 1), (rd (select_relative P pop) k).rfitness
        = ∑ k in Finset.range (i + 1), (rd pop k).fitness / select_sum P pop := by
      apply Finset.sum_congr rfl
      intro k hk
      have hk' : k < P := by
        have := Finset.mem_range.mp hk
        omega
      rw [h2 k, if_pos hk']
    rw [this]
  · intro i hi
    rw [h4 i, if_neg (by omega), h2 i, if_neg (by omega)]

/-- C9: for non-negative working fitness with a strictly positive total, the relative
fitness values that `__select` computes are `fitness / total` and sum to 1 over the
working genotypes, `cfitness[j]` is the sum of `rfitness[0..j]`, the last cumulative
value `cfitness[POPSIZE - 1]` is 1, and `cfitness` is non-decreasing in the index. -/
theorem select_fitness_normalised (P : ℕ) (pop : List genotype)
    (hlen : pop.length = P + 1)
    (hnn : ∀ i, i < P → 0 ≤ (rd pop i).fitness)
    (hS : 0 < select_sum P pop) :
    (∀ i, i < P →
      (rd (select_fitness P pop) i).rfitness = (rd pop i).fitness / select_sum P pop) ∧
    ∑ i in Finset.range P, (rd (select_fitness P pop) i).rfitness = 1 ∧
    (∀ j, j < P → (rd (select_fitness P pop) j).cfitness =
      ∑ i in Finset.range (j + 1), (rd (select_fitness P pop) i).rfitness) ∧
    (rd (select_fitness P pop) (P - 1)).cfitness = 1 ∧
    ∀ j, j + 1 < P →
      (rd (select_fitness P pop) j).cfitness ≤ (rd (select_fitness P pop) (j + 1)).cfitness := by
  have hP : 1 ≤ P := by
    rcases Nat.eq_zero_or_pos P with h | h
    · subst h
      simp [select_sum, for_loop] at hS
    · exact h
  obtain ⟨-, h2, -⟩ := select_fitness_spec P pop hP (by omega)
  have hr : ∀ i, i < P →
      (rd (select_fitness P pop) i).rfitness = (rd pop i).fitness / select_sum P pop := by
    intro i hi; rw [h2 i hi]
  have hc : ∀ j, j < P → (rd (select_fitness P pop) j).cfitness =
      ∑ k in Finset.range (j + 1), (rd pop k).fitness / select_sum P pop := by
    intro j hj; rw [h2 j hj]
  have hsum : ∀ n, n ≤ P → ∑ i in Finset.range n, (rd (select_fitness P pop) i).rfitness
      = ∑ k in Finset.range n, (rd pop k).fitness / select_sum P pop := by
    intro n hn
    apply Finset.sum_congr rfl
    intro k hk
    exact hr k (by have := Finset.mem_range.mp hk; omega)
  have htotal : ∑ k in Finset.range P, (rd pop k).fitness / select_sum P pop = 1 := by
    rw [← Finset.sum_div, ← select_sum_eq]
    exact div_self (ne_of_gt hS)
  refine ⟨hr, ?_, ?_, ?_, ?_⟩
  · rw [hsum P (le_refl _)]
    exact htotal
  · intro j hj
    rw [hc j hj, hsum (j + 1) (by omega)]
  · rw [hc (P - 1) (by omega)]
    have : P - 1 + 1 = P := by omega
    rw [this]
    exact htotal
  · intro j hj
    rw [hc j (by omega), hc (j + 1) hj, Finset.sum_range_succ _ (j + 1)]
    have : 0 ≤ (rd pop (j + 1)).fitness / select_sum P pop :=
      div_nonneg (hnn (j + 1) hj) (le_of_lt hS)
    linarith


theorem small_state_nonneg : ∀ i, i < 2 → 0 ≤ (rd small_state.population i).fitness := by
  intro i hi
  have : i = 0 ∨ i = 1 := by omega
  rcases this with h | h <;> subst h <;> simp [small_state, rd]

theorem small_state_sum_pos : 0 < select_sum 2 small_state.population := by
  simp [select_sum, for_loop, small_state, rd]

/-- C9 on the population of `small_state` (fitness 2 and 2). -/
theorem select_fitness_normalised_witness :
    small_state.population.length = 2 + 1 ∧
    (∀ i, i < 2 → 0 ≤ (rd small_state.population i).fitness) ∧
    0 < select_sum 2 small_state.population ∧
    (∀ i, i < 2 →
      (rd (select_fitness 2 small_state.population) i).rfitness
        = (rd small_state.population i).fitness / select_sum 2 small_state.population) ∧
    ∑ i in Finset.range 2, (rd (select_fitness 2 small_state.population) i).rfitness = 1 ∧
    (∀ j, j < 2 → (rd (select_fitness 2 small_state.population) j).cfitness =
      ∑ i in Finset.range (j + 1), (rd (select_fitness 2 small_state.population) i).rfitness) ∧
    (rd (select_fitness 2 small_state.population) (2 - 1)).cfitness = 1 ∧
    ∀ j, j + 1 < 2 →
      (rd (select_fitness 2 small_state.population) j).cfitness
        ≤ (rd (select_fitness 2 small_state.population) (j + 1)).cfitness :=
  ⟨rfl, small_state_nonneg, small_state_sum_pos,
    select_fitness_normalised 2 small_state.population rfl small_state_nonneg
      small_state_sum_pos⟩

/-! ## Selection: the roulette-wheel scan -/

/-- The survivor loop of `__select` in closed form. -/
theorem select_survivors_spec (P : ℕ) (rand : ℕ → ℕ) (s : State)
    (hnew : P ≤ s.newpopulation.length) :
    (select_survivors P rand s).nrand = s.nrand + P ∧
    (select_survivors P rand s).newpopulation.length = s.newpopulation.length ∧
    (∀ i, i < P → rd (select_survivors P rand s).newpopulation i =
      select_scan P s.population (select_draw (rand (s.nrand + i))) (rd s.newpopulation i)) ∧
    ∀ i, P ≤ i → rd (select_survivors P rand s).newpopulation i = rd s.newpopulation i := by
  unfold select_survivors
  have key := for_loop_inv (fun k (t : State) => k ≤ P → (t.population = s.population ∧
      t.nrand = s.nrand + k ∧ t.newpopulation.length = s.newpopulation.length ∧
      (∀ i, i < k → rd t.newpopulation i =
        select_scan P s.population (select_draw (rand (s.nrand + i))) (rd s.newpopulation i)) ∧
      ∀ i, k ≤ i → rd t.newpopulation i = rd s.newpopulation i)) 0 P
    (fun i (s : State) =>
      { s with nrand := s.nrand + 1,
               newpopulation := s.newpopulation.set i
                 (select_scan P s.population (select_draw (rand s.nrand))
                   (rd s.newpopulation i)) }) s (Nat.zero_le _)
    (fun _ => ⟨rfl, rfl, rfl, fun i hi => absurd hi (Nat.not_lt_zero _), fun _ _ => rfl⟩) (by
      rintro k t - hk ih -
      obtain ⟨h1, h2, h3, h4, h5⟩ := ih (by omega)
      refine ⟨h1, by simp only [h2]; omega, by simp [h3], ?_, ?_⟩
      · intro i hi
        by_cases hik : k = i
        · subst hik
          simp only []
          rw [rd_set_eq _ _ _ (by omega), h1, h2, h5 k (le_refl _)]
        · simp only []
          rw [rd_set_ne _ _ _ _ hik]
          exact h4 i (by omega)
      · intro i hi
        simp only []
        rw [rd_set_ne _ _ _ _ (by omega)]
        exact h5 i (by omega))
  obtain ⟨-, h2, h3, h4, h5⟩ := key (le_refl _)
  exact ⟨h2, h3, h4, h5⟩

/-- The copy-back loop of `__select` in closed form. -/
theorem select_copy_back_spec (P : ℕ) (s : State) (hlen : P ≤ s.population.length) :
    (select_copy_back P s).population.length = s.population.length ∧
    (select_copy_back P s).newpopulation = s.newpopulation ∧
    (select_copy_back P s).nrand = s.nrand ∧
    (∀ i, i < P → rd (select_copy_back P s).population i = rd s.newpopulation i) ∧
    ∀ i, P ≤ i → rd (select_copy_back P s).population i = rd s.population i := by
  unfold select_copy_back
  have key := for_loop_inv (fun k (t : State) => k ≤ P → (
      t.population.length = s.population.length ∧ t.newpopulation = s.newpopulation ∧
      t.nrand = s.nrand ∧
      (∀ i, i < k → rd t.population i = rd s.newpopulation i) ∧
      ∀ i, k ≤ i → rd t.population i = rd s.population i)) 0 P
    (fun i (s : State) => { s with population := s.population.set i (rd s.newpopulation i) })
    s (Nat.zero_le _)
    (fun _ => ⟨rfl, rfl, rfl, fun i hi => absurd hi (Nat.not_lt_zero _), fun _ _ => rfl⟩) (by
      rintro k t - hk ih -
      obtain ⟨h1, h2, h3, h4, h5⟩ := ih (by omega)
      refine ⟨by simp [h1], h2, h3, ?_, ?_⟩
      · intro i hi
        by_cases hik : k = i
        · subst hik
          simp only []
          rw [rd_set_eq _ _ _ (by omega), h2]
        · simp only []
          rw [rd_set_ne _ _ _ _ hik]
          exact h4 i (by omega)
      · intro i hi
        simp only []
        rw [rd_set_ne _ _ _ _ (by omega)]
        exact h5 i (by omega))
  exact key (le_refl _)

/-- The function `__select` in closed form: position `i` of the working population gets
the result of the scan for the `i`-th draw, the scan running on the population with
its relative and cumulative fitness computed. -/
theorem select_spec (P : ℕ) (rand : ℕ → ℕ) (s : State) (hP : 1 ≤ P)
    (hlen : s.population.length = P + 1) (hnew : s.newpopulation.length = P + 1) :
    (__select P rand s).population.length = P + 1 ∧
    (__select P rand s).newpopulation.length = P + 1 ∧
    (__select P rand s).nrand = s.nrand + P ∧
    (∀ i, i < P → rd (__select P rand s).population i =
      select_scan P (select_fitness P s.population) (select_draw (rand (s.nrand + i)))
        (rd s.newpopulation i)) ∧
    ∀ i, i < P → rd (__select P rand s).newpopulation i = rd (__select P rand s).population i := by
  obtain ⟨f1, -, -⟩ := select_fitness_spec P s.population hP (by omega)
  obtain ⟨a1, a2, a3, -⟩ := select_survivors_spec P rand
    { s with population := select_fitness P s.population } (by simp only []; omega)
  have hpop := select_survivors_population P rand
    { s with population := select_fitness P s.population }
  obtain ⟨b1, b2, b3, b4, -⟩ := select_copy_back_spec P (select_survivors P rand
    { s with population := select_fitness P s.population }) (by rw [hpop]; simp only []; omega)
  unfold __select
  refine ⟨by rw [b1, hpop]; simp only []; omega, by rw [b2, a2]; exact hnew,
    by rw [b3, a1], ?_, ?_⟩
  · intro i hi
    rw [b4 i hi, a3 i hi]
  · intro i hi
    rw [b4 i hi, b2]

/-- The scan of `__select` for a draw below the last cumulative value, on cumulative
values that do not decrease: it yields the member at the least index whose cumulative
value exceeds the draw. -/
theorem select_scan_least (P : ℕ) (q : List genotype) (p : ℚ) (slot : genotype)
    (hP : 1 ≤ P)
    (hmono : ∀ j, j + 1 < P → (rd q j).cfitness ≤ (rd q (j + 1)).cfitness)
    (hp : p < (rd q (P - 1)).cfitness) :
    ∃ j, j < P ∧ p < (rd q j).cfitness ∧ (∀ k, k < j → (rd q k).cfitness ≤ p) ∧
      select_scan P q p slot = rd q j := by
  have hex : ∃ j, j < P ∧ p < (rd q j).cfitness := ⟨P - 1, by omega, hp⟩
  classical
  let m := Nat.find hex
  have hm : m < P ∧ p < (rd q m).cfitness := Nat.find_spec hex
  have hmin : ∀ k, k < m → (rd q k).cfitness ≤ p := by
    intro k hk
    have := Nat.find_min hex hk
    have hkP : k < P := by omega
    exact not_lt.mp (fun h => this ⟨hkP, h⟩)
  have habove : ∀ j, m ≤ j → j < P → p < (rd q j).cfitness := by
    intro j hj
    induction j with
    | zero =>
      intro _
      have : m = 0 := by omega
      rw [← this]; exact hm.2
    | succ n ih =>
      intro hn
      rcases Nat.eq_or_lt_of_le hj with h | h
      · rw [← h]; exact hm.2
      · exact lt_of_lt_of_le (ih (by omega) (by omega)) (hmono n hn)
  refine ⟨m, hm.1, hm.2, hmin, ?_⟩
  unfold select_scan
  split_ifs with h0
  · have : m = 0 := by
      by_contra hne
      exact absurd h0 (not_lt.mpr (hmin 0 (Nat.pos_of_ne_zero hne)))
    rw [this]
  · have hm1 : 1 ≤ m := by
      rcases Nat.eq_zero_or_pos m with h | h
      · exfalso; apply h0
        have := hm.2
        rwa [h] at this
      · exact h
    have key := for_loop_inv (fun k (g : genotype) => k ≤ P →
        g = if m ≤ k then rd q m else slot) 0 P
      (fun j (slot : genotype) =>
        if p ≥ (rd q j).cfitness ∧ p < (rd q (j + 1)).cfitness then rd q (j + 1) else slot)
      slot (Nat.zero_le _) (fun _ => by rw [if_neg (by omega)]) (by
        rintro k g - hk ih -
        have hg := ih (by omega)
        simp only []
        rcases Nat.lt_trichotomy (k + 1) m with h | h | h
        · have : ¬ (p ≥ (rd q k).cfitness ∧ p < (rd q (k + 1)).cfitness) :=
            fun hc => absurd hc.2 (not_lt.mpr (hmin (k + 1) h))
          rw [if_neg this, hg, if_neg (by omega), if_neg (by omega)]
        · have : p ≥ (rd q k).cfitness ∧ p < (rd q (k + 1)).cfitness :=
            ⟨hmin k (by omega), by rw [h]; exact hm.2⟩
          rw [if_pos this, if_pos (by omega), h]
        · have : ¬ (p ≥ (rd q k).cfitness ∧ p < (rd q (k + 1)).cfitness) :=
            fun hc => absurd (habove k (by omega) hk) (not_lt.mpr hc.1)
          rw [if_neg this, hg, if_pos (by omega), if_pos (by omega)])
    rw [key (le_refl _), if_pos (by omega)]


theorem select_sum_pos (P : ℕ) (pop : List genotype) (hP : 1 ≤ P)
    (hpos : ∀ i, i < P → 0 < (rd pop i).fitness) : 0 < select_sum P pop := by
  rw [select_sum_eq]
  apply Finset.sum_pos
  · intro i hi
    exact hpos i (Finset.mem_range.mp hi)
  · exact ⟨0, Finset.mem_range.mpr (by omega)⟩

theorem select_draw_range (r : ℕ) : 0 ≤ select_draw r ∧ select_draw r < 1 := by
  unfold select_draw
  have h : r % 1000 < 1000 := Nat.mod_lt _ (by norm_num)
  have h' : ((r % 1000 : ℕ) : ℚ) < 1000 := by exact_mod_cast h
  constructor
  · positivity
  · rw [div_lt_one (by norm_num)]
    exact h'

/-- For non-negative working fitness with a positive total, the last cumulative value
is 1 and the cumulative values do not decrease. -/
theorem select_fitness_last_mono (P : ℕ) (pop : List genotype) (hP : 1 ≤ P)
    (hlen : pop.length = P + 1)
    (hnn : ∀ i, i < P → 0 ≤ (rd pop i).fitness)
    (hS : 0 < select_sum P pop) :
    (rd (select_fitness P pop) (P - 1)).cfitness = 1 ∧
    ∀ j, j + 1 < P →
      (rd (select_fitness P pop) j).cfitness ≤ (rd (select_fitness P pop) (j + 1)).cfitness := by
  obtain ⟨-, h2, -⟩ := select_fitness_spec P pop hP (by omega)
  constructor
  · rw [h2 (P - 1) (by omega)]
    have : P - 1 + 1 = P := by omega
    simp only [this]
    rw [← Finset.sum_div, ← select_sum_eq]
    exact div_self (ne_of_gt hS)
  · intro j hj
    rw [h2 j (by omega), h2 (j + 1) hj]
    simp only []
    rw [Finset.sum_range_succ _ (j + 1)]
    have : 0 ≤ (rd pop (j + 1)).fitness / select_sum P pop :=
      div_nonneg (hnn (j + 1) hj) (le_of_lt hS)
    linarith

/-- C6: for strictly positive working fitness (exact arithmetic), the scan of `__select`
maps every draw `p` with `0 ≤ p < cfitness[POPSIZE - 1]` to the working genotype at the
smallest index `j` with `p < cfitness[j]`; the genotype that `__select` writes at each
position of the working population is that genotype for the position's draw, a
complete copy (genes, bounds, fitness) of the old working genotype `j`; the array
keeps its size. -/
theorem select_roulette_wheel (P : ℕ) (rand : ℕ → ℕ) (s : State) (hP : 1 ≤ P)
    (hlen : s.population.length = P + 1) (hnew : s.newpopulation.length = P + 1)
    (hpos : ∀ i, i < P → 0 < (rd s.population i).fitness) :
    (∀ p slot, 0 ≤ p → p < (rd (select_fitness P s.population) (P - 1)).cfitness →
      ∃ j, j < P ∧ p < (rd (select_fitness P s.population) j).cfitness ∧
        (∀ k, k < j → (rd (select_fitness P s.population) k).cfitness ≤ p) ∧
        select_scan P (select_fitness P s.population) p slot
          = rd (select_fitness P s.population) j) ∧
    (∀ i, i < P → ∃ j, j < P ∧
      select_draw (rand (s.nrand + i)) < (rd (select_fitness P s.population) j).cfitness ∧
      (∀ k, k < j →
        (rd (select_fitness P s.population) k).cfitness ≤ select_draw (rand (s.nrand + i))) ∧
      rd (__select P rand s).population i = rd (select_fitness P s.population) j ∧
      (rd (__select P rand s).population i).gene = (rd s.population j).gene ∧
      (rd (__select P rand s).population i).upper = (rd s.population j).upper ∧
      (rd (__select P rand s).population i).lower = (rd s.population j).lower ∧
      (rd (__select P rand s).population i).fitness = (rd s.population j).fitness) ∧
    (__select P rand s).population.length = P + 1 := by
  have hS := select_sum_pos P s.population hP hpos
  obtain ⟨hlast, hmono⟩ := select_fitness_last_mono P s.population hP hlen
    (fun i hi => le_of_lt (hpos i hi)) hS
  obtain ⟨-, hq, -⟩ := select_fitness_spec P s.population hP (by omega)
  obtain ⟨hl, -, -, hsel, -⟩ := select_spec P rand s hP hlen hnew
  refine ⟨?_, ?_, hl⟩
  · intro p slot _ hp
    exact select_scan_least P _ p slot hP hmono hp
  · intro i hi
    obtain ⟨j, hj, h1, h2, h3⟩ := select_scan_least P (select_fitness P s.population)
      (select_draw (rand (s.nrand + i))) (rd s.newpopulation i) hP hmono
      (by rw [hlast]; exact (select_draw_range _).2)
    refine ⟨j, hj, h1, h2, by rw [hsel i hi, h3], ?_, ?_, ?_, ?_⟩ <;>
      rw [hsel i hi, h3, hq j hj]

/-- C6 on `fresh_state` with the random stream 0, 500, 1000, ... -/
theorem select_roulette_wheel_witness :
    1 ≤ 2 ∧ fresh_state.population.length = 2 + 1 ∧
    fresh_state.newpopulation.length = 2 + 1 ∧
    (∀ i, i < 2 → 0 < (rd fresh_state.population i).fitness) ∧
    (∀ p slot, 0 ≤ p → p < (rd (select_fitness 2 fresh_state.population) (2 - 1)).cfitness →
      ∃ j, j < 2 ∧ p < (rd (select_fitness 2 fresh_state.population) j).cfitness ∧
        (∀ k, k < j → (rd (select_fitness 2 fresh_state.population) k).cfitness ≤ p) ∧
        select_scan 2 (select_fitness 2 fresh_state.population) p slot
          = rd (select_fitness 2 fresh_state.population) j) ∧
    (∀ i, i < 2 → ∃ j, j < 2 ∧
      select_draw ((fun n => 500 * n) (fresh_state.nrand + i))
        < (rd (select_fitness 2 fresh_state.population) j).cfitness ∧
      (∀ k, k < j → (rd (select_fitness 2 fresh_state.population) k).cfitness
        ≤ select_draw ((fun n => 500 * n) (fresh_state.nrand + i))) ∧
      rd (__select 2 (fun n => 500 * n) fresh_state).population i
        = rd (select_fitness 2 fresh_state.population) j ∧
      (rd (__select 2 (fun n => 500 * n) fresh_state).population i).gene
        = (rd fresh_state.population j).gene ∧
      (rd (__select 2 (fun n => 500 * n) fresh_state).population i).upper
        = (rd fresh_state.population j).upper ∧
      (rd (__select 2 (fun n => 500 * n) fresh_state).population i).lower
        = (rd fresh_state.population j).lower ∧
      (rd (__select 2 (fun n => 500 * n) fresh_state).population i).fitness
        = (rd fresh_state.population j).fitness) ∧
    (__select 2 (fun n => 500 * n) fresh_state).population.length = 2 + 1 :=
  ⟨by decide, rfl, rfl, fresh_state_positive,
    select_roulette_wheel 2 (fun n => 500 * n) fresh_state (by decide) rfl rfl
      fresh_state_positive⟩

/-! ## Selection: the last cumulative value in exact arithmetic -/

/-- For a non-zero total fitness the last cumulative value that `__select` computes is
exactly 1: the relative values `fitness / total` add up to 1 in exact arithmetic. -/
theorem select_fitness_last_one (P : ℕ) (pop : List genotype) (hP : 1 ≤ P)
    (hlen : P ≤ pop.length) (hS : select_sum P pop ≠ 0) :
    (rd (select_fitness P pop) (P - 1)).cfitness = 1 := by
  obtain ⟨-, h2, -⟩ := select_fitness_spec P pop hP hlen
  rw [h2 (P - 1) (by omega)]
  have : P - 1 + 1 = P := by omega
  simp only [this]
  rw [← Finset.sum_div, ← select_sum_eq]
  exact div_self hS

/-- For a non-zero total fitness every draw `rand () % 1000 / 1000.0` of `__select`
lies strictly below the last cumulative value: without rounding no draw reaches or
exceeds `cfitness[POPSIZE - 1]`. -/
theorem select_draw_below_last (P : ℕ) (pop : List genotype) (hP : 1 ≤ P)
    (hlen : P ≤ pop.length) (hS : select_sum P pop ≠ 0) (r : ℕ) :
    select_draw r < (rd (select_fitness P pop) (P - 1)).cfitness := by
  rw [select_fitness_last_one P pop hP hlen hS]
  exact (select_draw_range r).2

/-! ## Selection: non-positive totals -/

/-- C8, counterexample: the working fitness values of `negative_state` sum to -4, yet
`__select` (draws 1/2) returns, having divided by the total (relative fitness 3/4) and
resampled: position 0 of the working population now holds a copy of the old member 1. -/
theorem select_negative_total_example :
    select_sum 2 negative_state.population ≤ 0 ∧
    rd (__select 2 (fun _ => 500) negative_state).population 0
      = ⟨[4, 5, 6], -3, [9, 9, 9], [0, 0, 0], 3 / 4, 1⟩ ∧
    rd (__select 2 (fun _ => 500) negative_state).population 0
      ≠ rd negative_state.population 0 := by
  have h : rd (__select 2 (fun _ => 500) negative_state).population 0
      = ⟨[4, 5, 6], -3, [9, 9, 9], [0, 0, 0], 3 / 4, 1⟩ := by
    simp [__select, select_copy_back, select_survivors, select_fitness, select_cumulative,
      select_relative, select_sum, select_scan, select_draw, for_loop, negative_state, rd,
      zero_genotype]
    norm_num
  refine ⟨?_, h, ?_⟩
  · simp [select_sum, for_loop, negative_state, rd]
    norm_num
  · rw [h]
    simp [negative_state, rd]

/-- C8, amended: `__select` has no failure path.  For every working population whose
total fitness is at most 0 it returns, consumes `POPSIZE` draws and overwrites every
working position with the result of its scan for that position's draw (it resamples);
when the total is not 0 the relative fitness it stores is `fitness / total` (it
divides by the total). -/
theorem select_without_guard (P : ℕ) (rand : ℕ → ℕ) (s : State) (hP : 1 ≤ P)
    (hlen : s.population.length = P + 1) (hnew : s.newpopulation.length = P + 1)
    (_hS : select_sum P s.population ≤ 0) :
    (__select P rand s).nrand = s.nrand + P ∧
    (∀ i, i < P → rd (__select P rand s).population i =
      select_scan P (select_fitness P s.population) (select_draw (rand (s.nrand + i)))
        (rd s.newpopulation i)) ∧
    (select_sum P s.population ≠ 0 → ∀ i, i < P →
      (rd (select_fitness P s.population) i).rfitness
        = (rd s.population i).fitness / select_sum P s.population) := by
  obtain ⟨-, -, hn, hsel, -⟩ := select_spec P rand s hP hlen hnew
  obtain ⟨-, hq, -⟩ := select_fitness_spec P s.population hP (by omega)
  refine ⟨hn, hsel, fun _ i hi => ?_⟩
  rw [hq i hi]

theorem negative_state_total : select_sum 2 negative_state.population ≤ 0 := by
  simp [select_sum, for_loop, negative_state, rd]
  norm_num

/-- C8 (amended) on `negative_state` with draws 1/2. -/
theorem select_without_guard_witness :
    1 ≤ 2 ∧ negative_state.population.length = 2 + 1 ∧
    negative_state.newpopulation.length = 2 + 1 ∧
    select_sum 2 negative_state.population ≤ 0 ∧
    (__select 2 (fun _ => 500) negative_state).nrand = negative_state.nrand + 2 ∧
    (∀ i, i < 2 → rd (__select 2 (fun _ => 500) negative_state).population i =
      select_scan 2 (select_fitness 2 negative_state.population)
        (select_draw ((fun _ => 500) (negative_state.nrand + i)))
        (rd negative_state.newpopulation i)) ∧
    (select_sum 2 negative_state.population ≠ 0 → ∀ i, i < 2 →
      (rd (select_fitness 2 negative_state.population) i).rfitness
        = (rd negative_state.population i).fitness / select_sum 2 negative_state.population) :=
  ⟨by decide, rfl, rfl, negative_state_total,
    select_without_guard 2 (fun _ => 500) negative_state (by decide) rfl rfl
      negative_state_total⟩

/-! ## Crossover of one pair: `__Xover` -/

theorem with_genes_self (pop : List genotype) (m : ℕ) (h : m < pop.length) :
    with_genes pop m (rd pop m).gene = pop :=
  set_rd_self _ _ h

theorem length_with_genes (pop : List genotype) (m : ℕ) (G : List ℚ) :
    (with_genes pop m G).length = pop.length := by
  simp [with_genes]

theorem rd_with_genes_eq (pop : List genotype) (m : ℕ) (G : List ℚ) (h : m < pop.length) :
    rd (with_genes pop m G) m = { rd pop m with gene := G } :=
  rd_set_eq _ _ _ h

theorem rd_with_genes_ne (pop : List genotype) (m j : ℕ) (G : List ℚ) (h : m ≠ j) :
    rd (with_genes pop m G) j = rd pop j :=
  rd_set_ne _ _ _ _ h

theorem set_four {α : Type} (l : List α) (i j : ℕ) (a b a' b' : α) (h : i ≠ j) :
    (((l.set i a).set j b).set i a').set j b' = (l.set i a').set j b' := by
  rw [List.set_comm b a' (l.set i a) (Ne.symm h), List.set_set, List.set_set]

/-- The exchange loop of `__Xover` in closed form: after `k` iterations on two distinct
members with at least `k` genes each, the first `k` genes of the two are exchanged and
nothing else has changed. -/
theorem Xover_loop_spec (one two : ℕ) (s : State) (k : ℕ) (h12 : one ≠ two)
    (h1 : one < s.population.length) (h2 : two < s.population.length)
    (hk1 : k ≤ (rd s.population one).gene.length)
    (hk2 : k ≤ (rd s.population two).gene.length) :
    ∃ G1 G2 : List ℚ,
      for_loop 0 k (fun i (s : State) =>
        let w := __swap (rdq (rd s.population one).gene i) (rdq (rd s.population two).gene i)
        let pop1 := set_gene s.population one i w.1
        { s with population := set_gene pop1 two i w.2 }) s
      = { s with population := with_genes (with_genes s.population one G1) two G2 } ∧
      G1.length = (rd s.population one).gene.length ∧
      G2.length = (rd s.population two).gene.length ∧
      (∀ i, rdq G1 i = if i < k then rdq (rd s.population two).gene i
        else rdq (rd s.population one).gene i) ∧
      ∀ i, rdq G2 i = if i < k then rdq (rd s.population one).gene i
        else rdq (rd s.population two).gene i := by
  induction k with
  | zero =>
    refine ⟨(rd s.population one).gene, (rd s.population two).gene, ?_, rfl, rfl,
      fun i => by simp, fun i => by simp⟩
    simp only [for_loop]
    rw [with_genes_self _ _ h1, with_genes_self _ _ h2]
  | succ n ih =>
    obtain ⟨G1, G2, hloop, hl1, hl2, hg1, hg2⟩ := ih (by omega) (by omega)
    rw [for_loop_succ _ _ _ _ (Nat.zero_le _), hloop]
    have hlen2 : two < (with_genes s.population one G1).length := by
      rw [length_with_genes]; exact h2
    have r1 : rd (with_genes (with_genes s.population one G1) two G2) one
        = { rd s.population one with gene := G1 } := by
      rw [rd_with_genes_ne _ _ _ _ (Ne.symm h12), rd_with_genes_eq _ _ _ h1]
    have r2 : rd (with_genes (with_genes s.population one G1) two G2) two
        = { rd s.population two with gene := G2 } := by
      rw [rd_with_genes_eq _ _ _ hlen2, rd_with_genes_ne _ _ _ _ h12]
    refine ⟨G1.set n (rdq G2 n), G2.set n (rdq G1 n), ?_, by simpa using hl1,
      by simpa using hl2, ?_, ?_⟩
    · simp only [__swap, set_gene, r1, r2]
      rw [rd_set_ne _ one two _ h12, r2]
      congr 1
      simp only [with_genes]
      simp only [rd_set_ne _ one two _ h12]
      exact set_four _ _ _ _ _ _ _ h12
    · intro i
      by_cases hin : n = i
      · subst hin
        rw [rdq_set_eq _ _ _ (by omega), hg2 n]
        simp
      · rw [rdq_set_ne _ _ _ _ hin, hg1 i]
        have e : i < n + 1 ↔ i < n := by omega
        simp only [e]
    · intro i
      by_cases hin : n = i
      · subst hin
        rw [rdq_set_eq _ _ _ (by omega), hg1 n]
        simp
      · rw [rdq_set_ne _ _ _ _ hin, hg2 i]
        have e : i < n + 1 ↔ i < n := by omega
        simp only [e]


theorem Xover_point_range (N r : ℕ) (hN : 2 ≤ N) :
    1 ≤ Xover_point N r ∧ Xover_point N r ≤ N - 1 := by
  unfold Xover_point
  have : r % (N - 1) < N - 1 := Nat.mod_lt _ (by omega)
  omega

/-- C10: with `NVARS = 3`, for two distinct working indices and any output `r` of
`rand ()`, `__Xover` uses the point `(r mod 2) + 1`, which lies in `[1, 2]`; it exchanges
`gene[i]` between the two genotypes for every `i` below the point and leaves `gene[i]`
of both unchanged from the point on; fitness, bounds and the two derived fitness
fields of both, and every other genotype (the archive included), are unchanged. -/
theorem Xover_exchanges_prefix (P : ℕ) (rand : ℕ → ℕ) (one two : ℕ) (s : State)
    (h12 : one ≠ two) (h1 : one < P) (h2 : two < P) (hwf : well_formed P 3 s.population) :
    Xover_point 3 (rand s.nrand) = rand s.nrand % (3 - 1) + 1 ∧
    1 ≤ Xover_point 3 (rand s.nrand) ∧ Xover_point 3 (rand s.nrand) ≤ 3 - 1 ∧
    (∀ i, i < Xover_point 3 (rand s.nrand) →
      rdq (rd (__Xover 3 rand one two s).population one).gene i
        = rdq (rd s.population two).gene i ∧
      rdq (rd (__Xover 3 rand one two s).population two).gene i
        = rdq (rd s.population one).gene i) ∧
    (∀ i, Xover_point 3 (rand s.nrand) ≤ i →
      rdq (rd (__Xover 3 rand one two s).population one).gene i
        = rdq (rd s.population one).gene i ∧
      rdq (rd (__Xover 3 rand one two s).population two).gene i
        = rdq (rd s.population two).gene i) ∧
    (∀ m, m = one ∨ m = two →
      (rd (__Xover 3 rand one two s).population m).gene.length = 3 ∧
      (rd (__Xover 3 rand one two s).population m).fitness = (rd s.population m).fitness ∧
      (rd (__Xover 3 rand one two s).population m).upper = (rd s.population m).upper ∧
      (rd (__Xover 3 rand one two s).population m).lower = (rd s.population m).lower ∧
      (rd (__Xover 3 rand one two s).population m).rfitness = (rd s.population m).rfitness ∧
      (rd (__Xover 3 rand one two s).population m).cfitness = (rd s.population m).cfitness) ∧
    (∀ m, m ≠ one → m ≠ two →
      rd (__Xover 3 rand one two s).population m = rd s.population m) ∧
    (__Xover 3 rand one two s).population.length = P + 1 := by
  obtain ⟨hlen, hgene⟩ := hwf
  obtain ⟨hp1, hp2⟩ := Xover_point_range 3 (rand s.nrand) (by norm_num)
  have hl1 : one < s.population.length := by omega
  have hl2 : two < s.population.length := by omega
  have hg1 := hgene one (by omega)
  have hg2 := hgene two (by omega)
  obtain ⟨G1, G2, hloop, hG1, hG2, hq1, hq2⟩ := Xover_loop_spec one two
    { s with nrand := s.nrand + 1 } (Xover_point 3 (rand s.nrand)) h12 hl1 hl2
    (by simp only []; omega) (by simp only []; omega)
  have hX : (__Xover 3 rand one two s).population
      = with_genes (with_genes s.population one G1) two G2 := by
    unfold __Xover
    simp only [show (3 : ℕ) > 1 by norm_num, show ¬ ((3 : ℕ) = 2) by norm_num, if_true,
      if_false]
    rw [hloop]
  have hlw : two < (with_genes s.population one G1).length := by
    rw [length_with_genes]; exact hl2
  have r1 : rd (__Xover 3 rand one two s).population one
      = { rd s.population one with gene := G1 } := by
    rw [hX, rd_with_genes_ne _ _ _ _ (Ne.symm h12), rd_with_genes_eq _ _ _ hl1]
  have r2 : rd (__Xover 3 rand one two s).population two
      = { rd s.population two with gene := G2 } := by
    rw [hX, rd_with_genes_eq _ _ _ hlw, rd_with_genes_ne _ _ _ _ h12]
  refine ⟨rfl, hp1, hp2, ?_, ?_, ?_, ?_, ?_⟩
  · intro i hi
    rw [r1, r2]
    exact ⟨by rw [hq1 i, if_pos hi], by rw [hq2 i, if_pos hi]⟩
  · intro i hi
    rw [r1, r2]
    exact ⟨by rw [hq1 i, if_neg (by omega)], by rw [hq2 i, if_neg (by omega)]⟩
  · rintro m (hm | hm)
    · subst hm
      rw [r1]
      exact ⟨by simpa using hG1.trans hg1, rfl, rfl, rfl, rfl, rfl⟩
    · subst hm
      rw [r2]
      exact ⟨by simpa using hG2.trans hg2, rfl, rfl, rfl, rfl, rfl⟩
  · intro m hm1 hm2
    rw [hX, rd_with_genes_ne _ _ _ _ (Ne.symm hm2), rd_with_genes_ne _ _ _ _ (Ne.symm hm1)]
  · rw [hX, length_with_genes, length_with_genes, hlen]

/-- C10 on members 0 and 1 of `small_state` with `rand ()` output 7 (point 2). -/
theorem Xover_exchanges_prefix_witness :
    (0 : ℕ) ≠ 1 ∧ 0 < 2 ∧ 1 < 2 ∧ well_formed 2 3 small_state.population ∧
    Xover_point 3 ((fun _ => 7) small_state.nrand)
      = (fun _ => 7) small_state.nrand % (3 - 1) + 1 ∧
    1 ≤ Xover_point 3 ((fun _ => 7) small_state.nrand) ∧
    Xover_point 3 ((fun _ => 7) small_state.nrand) ≤ 3 - 1 ∧
    (∀ i, i < Xover_point 3 ((fun _ => 7) small_state.nrand) →
      rdq (rd (__Xover 3 (fun _ => 7) 0 1 small_state).population 0).gene i
        = rdq (rd small_state.population 1).gene i ∧
      rdq (rd (__Xover 3 (fun _ => 7) 0 1 small_state).population 1).gene i
        = rdq (rd small_state.population 0).gene i) ∧
    (∀ i, Xover_point 3 ((fun _ => 7) small_state.nrand) ≤ i →
      rdq (rd (__Xover 3 (fun _ => 7) 0 1 small_state).population 0).gene i
        = rdq (rd small_state.population 0).gene i ∧
      rdq (rd (__Xover 3 (fun _ => 7) 0 1 small_state).population 1).gene i
        = rdq (rd small_state.population 1).gene i) ∧
    (∀ m, m = 0 ∨ m = 1 →
      (rd (__Xover 3 (fun _ => 7) 0 1 small_state).population m).gene.length = 3 ∧
      (rd (__Xover 3 (fun _ => 7) 0 1 small_state).population m).fitness
        = (rd small_state.population m).fitness ∧
      (rd (__Xover 3 (fun _ => 7) 0 1 small_state).population m).upper
        = (rd small_state.population m).upper ∧
      (rd (__Xover 3 (fun _ => 7) 0 1 small_state).population m).lower
        = (rd small_state.population m).lower ∧
      (rd (__Xover 3 (fun _ => 7) 0 1 small_state).population m).rfitness
        = (rd small_state.population m).rfitness ∧
      (rd (__Xover 3 (fun _ => 7) 0 1 small_state).population m).cfitness
        = (rd small_state.population m).cfitness) ∧
    (∀ m, m ≠ 0 → m ≠ 1 →
      rd (__Xover 3 (fun _ => 7) 0 1 small_state).population m
        = rd small_state.population m) ∧
    (__Xover 3 (fun _ => 7) 0 1 small_state).population.length = 2 + 1 :=
  ⟨by decide, by decide, by decide, well_formed_small_state,
    Xover_exchanges_prefix 2 (fun _ => 7) 0 1 small_state (by decide) (by decide) (by decide)
      well_formed_small_state⟩

/-! ## First-best capture without a better member -/

/-- The first loop of `__keep_the_best` when no working fitness exceeds the archive
fitness: nothing is assigned but `cur_best = 0`. -/
theorem keep_the_best_no_update (P : ℕ) (s : State)
    (hle : ∀ i, i < P → (rd s.population i).fitness ≤ (rd s.population P).fitness) :
    for_loop 0 P (fun mem (s : State) =>
      if (rd s.population mem).fitness > (rd s.population P).fitness then
        { s with cur_best := mem,
                 population := set_fitness s.population P (rd s.population mem).fitness }
      else s) { s with cur_best := 0 } = { s with cur_best := 0 } := by
  have key := for_loop_inv (fun k (t : State) => k ≤ P → t = { s with cur_best := 0 }) 0 P
    (fun mem (s : State) =>
      if (rd s.population mem).fitness > (rd s.population P).fitness then
        { s with cur_best := mem,
                 population := set_fitness s.population P (rd s.population mem).fitness }
      else s) { s with cur_best := 0 } (Nat.zero_le _) (fun _ => rfl) (by
      rintro k t - hk ih -
      rw [ih (by omega)]
      simp only []
      rw [if_neg (not_lt.mpr (hle k hk))])
  exact key (le_refl _)

/-- C20: when no working genotype has fitness strictly greater than the archive's
initial fitness 0, `__keep_the_best` leaves the archive fitness at 0, sets
`cur_best = 0` and copies the gene vector of working genotype 0 into the archive; so
the archive fitness differs from the fitness of the genotype whose genes the archive
holds whenever that fitness is not 0. -/
theorem keep_the_best_without_better (P N : ℕ) (s : State) (hP : 1 ≤ P)
    (hwf : well_formed P N s.population)
    (h0 : (rd s.population P).fitness = 0)
    (hle : ∀ i, i < P → (rd s.population i).fitness ≤ 0) :
    (__keep_the_best P N s).cur_best = 0 ∧
    (rd (__keep_the_best P N s).population P).fitness = 0 ∧
    (rd (__keep_the_best P N s).population P).gene = (rd s.population 0).gene ∧
    ((rd s.population 0).fitness ≠ 0 →
      (rd (__keep_the_best P N s).population P).fitness ≠ (rd s.population 0).fitness) ∧
    ∀ i, i < P → rd (__keep_the_best P N s).population i = rd s.population i := by
  obtain ⟨hlen, hgene⟩ := hwf
  have hloop := keep_the_best_no_update P s (fun i hi => by rw [h0]; exact hle i hi)
  have hPlt : P < s.population.length := by omega
  have hpop : (__keep_the_best P N s).population
      = s.population.set P { rd s.population P with gene := (rd s.population 0).gene } := by
    unfold __keep_the_best
    simp only [hloop]
    exact copy_genes_eq N _ P 0 (by omega) hPlt (hgene P (le_refl _)) (hgene 0 (by omega))
  have hcur : (__keep_the_best P N s).cur_best = 0 := by
    unfold __keep_the_best
    simp only [hloop]
  have hfit : (rd (__keep_the_best P N s).population P).fitness = 0 := by
    rw [hpop, rd_set_eq _ _ _ hPlt]
    exact h0
  refine ⟨hcur, hfit, ?_, ?_, ?_⟩
  · rw [hpop, rd_set_eq _ _ _ hPlt]
  · intro h
    rw [hfit]
    exact fun e => h e.symm
  · intro i hi
    rw [hpop, rd_set_ne _ _ _ _ (by omega)]

/-- C20 on `negative_state` (working fitness -1 and -3, zero-filled archive). -/
theorem keep_the_best_without_better_witness :
    1 ≤ 2 ∧ well_formed 2 3 negative_state.population ∧
    (rd negative_state.population 2).fitness = 0 ∧
    (∀ i, i < 2 → (rd negative_state.population i).fitness ≤ 0) ∧
    (__keep_the_best 2 3 negative_state).cur_best = 0 ∧
    (rd (__keep_the_best 2 3 negative_state).population 2).fitness = 0 ∧
    (rd (__keep_the_best 2 3 negative_state).population 2).gene
      = (rd negative_state.population 0).gene ∧
    ((rd negative_state.population 0).fitness ≠ 0 →
      (rd (__keep_the_best 2 3 negative_state).population 2).fitness
        ≠ (rd negative_state.population 0).fitness) ∧
    ∀ i, i < 2 → rd (__keep_the_best 2 3 negative_state).population i
      = rd negative_state.population i :=
  have hwf : well_formed 2 3 negative_state.population := by
    refine ⟨rfl, ?_⟩
    intro i hi
    have : i = 0 ∨ i = 1 ∨ i = 2 := by omega
    rcases this with h | h | h <;> subst h <;> rfl
  have hle : ∀ i, i < 2 → (rd negative_state.population i).fitness ≤ 0 := by
    intro i hi
    have : i = 0 ∨ i = 1 := by omega
    rcases this with h | h <;> subst h <;> simp [negative_state, rd]
  ⟨by decide, hwf, rfl, hle,
    keep_the_best_without_better 2 3 negative_state (by decide) hwf rfl hle⟩

/-! ## The decision draw of `__crossover` and `__mutate` -/

/-- The decision value of `__crossover` and `__mutate` ranges over `[0, 10]`. -/
theorem decision_draw_range (r : ℕ) : 0 ≤ decision_draw r ∧ decision_draw r ≤ 10 := by
  unfold decision_draw
  have h : r % 10001 < 10001 := Nat.mod_lt _ (by norm_num)
  have h' : ((r % 10001 : ℕ) : ℚ) ≤ 10000 := by exact_mod_cast Nat.lt_succ_iff.mp h
  constructor
  · positivity
  · rw [div_le_iff₀ (by norm_num)]
    linarith

/-- C17, failing input: for the `rand ()` output 5000 the decision value
`(5000 mod 10001) / 1000` is 5, outside `[0, 1)`; for the output 10000 it is 10. -/
theorem decision_draw_beyond_one :
    decision_draw 5000 = 5 ∧ ¬ decision_draw 5000 < 1 ∧ decision_draw 10000 = 10 := by
  unfold decision_draw
  norm_num

/-- C13, failing input: with mutation probability 1 and a random stream whose outputs
are all 5000 (decision value 5), `__mutate` redraws no gene of `small_state`: the
population is unchanged and only the six decision draws are consumed. -/
theorem mutate_probability_one_skips :
    (__mutate 2 3 1 (fun _ => 5000) small_state).population = small_state.population ∧
    (__mutate 2 3 1 (fun _ => 5000) small_state).nrand = small_state.nrand + 6 := by
  simp [__mutate, decision_draw, for_loop, small_state]
  norm_num

/-! ## Elitism: ties in the scan -/

/-- The scan of `__elitist` leaves in `best_mem` the largest index of maximum fitness. -/
theorem elitist_scan_best_last (P : ℕ) (pop : List genotype) (hP : 2 ≤ P) :
    ∃ b, (elitist_scan P pop).best_mem = some b ∧ b < P ∧
      (∀ i, i < P → (rd pop i).fitness ≤ (rd pop b).fitness) ∧
      ∀ i, b < i → i < P → (rd pop i).fitness < (rd pop b).fitness := by
  have key : ∃ b, b ≤ P - 1 ∧ (elitist_scan P pop).best = (rd pop b).fitness ∧
      (∀ i, i ≤ P - 1 → (rd pop i).fitness ≤ (elitist_scan P pop).best) ∧
      (∀ i, b < i → i ≤ P - 1 → (rd pop i).fitness < (elitist_scan P pop).best) ∧
      (0 < P - 1 → (elitist_scan P pop).best_mem = some b) := by
    unfold elitist_scan
    refine for_loop_inv (fun k (l : elitist_locals) => ∃ b, b ≤ k ∧
      l.best = (rd pop b).fitness ∧ (∀ i, i ≤ k → (rd pop i).fitness ≤ l.best) ∧
      (∀ i, b < i → i ≤ k → (rd pop i).fitness < l.best) ∧
      (0 < k → l.best_mem = some b)) 0 (P - 1) _ _ (Nat.zero_le _) ?_ ?_
    · refine ⟨0, le_refl _, rfl, fun i hi => ?_, fun i h1 h2 => ?_,
        fun h => absurd h (lt_irrefl _)⟩
      · have : i = 0 := by omega
        subst this
        exact le_refl _
      · omega
    · rintro k l - hk ⟨b, hb, hbest, hall, hlater, hbm⟩
      have hb0 : k = 0 → l.best = (rd pop k).fitness := by
        intro h; subst h; have : b = 0 := by omega
        subst this; exact hbest
      have hkle := hall k (le_refl _)
      dsimp only
      by_cases h1 : (rd pop k).fitness > (rd pop (k + 1)).fitness
      · by_cases h2 : (rd pop k).fitness ≥ l.best
        · refine ⟨k, by omega, ?_, ?_, ?_, fun _ => ?_⟩
          · simp only [h1, h2, if_true]; split_ifs <;> rfl
          · intro i hi
            have hc : i ≤ k ∨ i = k + 1 := by omega
            have hv : (rd pop i).fitness ≤ (rd pop k).fitness := by
              rcases hc with h | h
              · exact le_trans (hall i h) h2
              · subst h; exact le_of_lt h1
            simp only [h1, h2, if_true]; split_ifs <;> exact hv
          · intro i hi1 hi2
            have : i = k + 1 := by omega
            subst this
            simp only [h1, h2, if_true]; split_ifs <;> exact h1
          · simp only [h1, h2, if_true]; split_ifs <;> rfl
        · have hpos : 0 < k := by
            rcases Nat.eq_zero_or_pos k with h | h
            · exact absurd (hb0 h).le h2
            · exact h
          have h2' : (rd pop k).fitness < l.best := not_le.mp h2
          refine ⟨b, by omega, ?_, ?_, ?_, fun _ => ?_⟩
          · simp only [h1, h2, if_true, if_false]; split_ifs <;> exact hbest
          · intro i hi
            have hc : i ≤ k ∨ i = k + 1 := by omega
            have hv : (rd pop i).fitness ≤ l.best := by
              rcases hc with h | h
              · exact hall i h
              · subst h; exact le_of_lt (lt_trans h1 h2')
            simp only [h1, h2, if_true, if_false]; split_ifs <;> exact hv
          · intro i hi1 hi2
            have hc : i ≤ k ∨ i = k + 1 := by omega
            have hv : (rd pop i).fitness < l.best := by
              rcases hc with h | h
              · exact hlater i hi1 h
              · subst h; exact lt_trans h1 h2'
            simp only [h1, h2, if_true, if_false]; split_ifs <;> exact hv
          · simp only [h1, h2, if_true, if_false]; split_ifs <;> exact hbm hpos
      · have h1' : (rd pop k).fitness ≤ (rd pop (k + 1)).fitness := not_lt.mp h1
        by_cases h2 : (rd pop (k + 1)).fitness ≥ l.best
        · refine ⟨k + 1, le_refl _, ?_, ?_, ?_, fun _ => ?_⟩
          · simp only [h1, if_false]; split_ifs <;> rfl
          · intro i hi
            have hc : i ≤ k ∨ i = k + 1 := by omega
            have hv : (rd pop i).fitness ≤ (rd pop (k + 1)).fitness := by
              rcases hc with h | h
              · exact le_trans (hall i h) h2
              · subst h; exact le_refl _
            simp only [h1, if_false]; split_ifs <;> exact hv
          · intro i hi1 hi2
            omega
          · simp only [h1, if_false]; split_ifs <;> rfl
        · have hpos : 0 < k := by
            rcases Nat.eq_zero_or_pos k with h | h
            · exact absurd (le_trans (hb0 h).le h1') h2
            · exact h
          have h2' : (rd pop (k + 1)).fitness < l.best := not_le.mp h2
          refine ⟨b, by omega, ?_, ?_, ?_, fun _ => ?_⟩
          · simp only [h1, if_false]; split_ifs <;> exact hbest
          · intro i hi
            have hc : i ≤ k ∨ i = k + 1 := by omega
            have hv : (rd pop i).fitness ≤ l.best := by
              rcases hc with h | h
              · exact hall i h
              · subst h; exact le_of_lt h2'
            simp only [h1, if_false]; split_ifs <;> exact hv
          · intro i hi1 hi2
            have hc : i ≤ k ∨ i = k + 1 := by omega
            have hv : (rd pop i).fitness < l.best := by
              rcases hc with h | h
              · exact hlater i hi1 h
              · subst h; exact h2'
            simp only [h1, if_false]; split_ifs <;> exact hv
          · simp only [h1, if_false]; split_ifs <;> exact hbm hpos
  obtain ⟨b, hb, hbest, hall, hlater, hbm⟩ := key
  refine ⟨b, hbm (by omega), by omega, ?_, ?_⟩
  · intro i hi
    rw [← hbest]
    exact hall i (by omega)
  · intro i h1 h2
    rw [← hbest]
    exact hlater i h1 (by omega)

/-- The scan of `__elitist` leaves in `worst_mem` an index of minimum fitness after
which only the last working index can have that fitness too, and then `worst_mem` is
the index just before it. -/
theorem elitist_scan_worst_last (P : ℕ) (pop : List genotype) (hP : 2 ≤ P) :
    ∃ w, (elitist_scan P pop).worst_mem = some w ∧ w < P ∧
      (∀ i, i < P → (rd pop w).fitness ≤ (rd pop i).fitness) ∧
      (∀ i, w < i → i < P - 1 → (rd pop w).fitness < (rd pop i).fitness) ∧
      (w < P - 1 → (rd pop (P - 1)).fitness = (rd pop w).fitness → w + 1 = P - 1) ∧
      (w = P - 1 → (rd pop (P - 1 - 1)).fitness > (rd pop (P - 1)).fitness) := by
  have key : ∃ w, w ≤ P - 1 ∧ (elitist_scan P pop).worst = (rd pop w).fitness ∧
      (∀ i, i ≤ P - 1 → (elitist_scan P pop).worst ≤ (rd pop i).fitness) ∧
      (∀ i, w < i → i < P - 1 → (elitist_scan P pop).worst < (rd pop i).fitness) ∧
      (w < P - 1 → (rd pop (P - 1)).fitness = (elitist_scan P pop).worst → w + 1 = P - 1) ∧
      (w = P - 1 → 0 < P - 1 → (rd pop (P - 1 - 1)).fitness > (rd pop (P - 1)).fitness) ∧
      (0 < P - 1 → (elitist_scan P pop).worst_mem = some w) := by
    unfold elitist_scan
    refine for_loop_inv (fun k (l : elitist_locals) => ∃ w, w ≤ k ∧
      l.worst = (rd pop w).fitness ∧ (∀ i, i ≤ k → l.worst ≤ (rd pop i).fitness) ∧
      (∀ i, w < i → i < k → l.worst < (rd pop i).fitness) ∧
      (w < k → (rd pop k).fitness = l.worst → w + 1 = k) ∧
      (w = k → 0 < k → (rd pop (k - 1)).fitness > (rd pop k).fitness) ∧
      (0 < k → l.worst_mem = some w)) 0 (P - 1) _ _ (Nat.zero_le _) ?_ ?_
    · refine ⟨0, le_refl _, rfl, fun i hi => ?_, fun i h1 h2 => ?_, fun h => ?_,
        fun _ h => absurd h (lt_irrefl _), fun h => absurd h (lt_irrefl _)⟩
      · have : i = 0 := by omega
        subst this
        exact le_refl _
      · omega
      · omega
    · rintro k l - hk ⟨w, hw, hworst, hall, hbetween, hc, hd, hwm⟩
      have hw0 : k = 0 → l.worst = (rd pop k).fitness := by
        intro h; subst h; have : w = 0 := by omega
        subst this; exact hworst
      have hkle := hall k (le_refl _)
      dsimp only
      by_cases h1 : (rd pop k).fitness > (rd pop (k + 1)).fitness
      · by_cases h2 : (rd pop (k + 1)).fitness ≤ l.worst
        · refine ⟨k + 1, le_refl _, ?_, ?_, ?_, ?_, ?_, fun _ => ?_⟩
          · simp only [h1, if_true]; split_ifs <;> rfl
          · intro i hi
            have hcs : i ≤ k ∨ i = k + 1 := by omega
            have hv : (rd pop (k + 1)).fitness ≤ (rd pop i).fitness := by
              rcases hcs with h | h
              · exact le_trans h2 (hall i h)
              · subst h; exact le_refl _
            simp only [h1, if_true]; split_ifs <;> exact hv
          · intro i hi1 hi2
            omega
          · intro h
            omega
          · intro _ _
            simpa using h1
          · simp only [h1, if_true]; split_ifs <;> rfl
        · have h2' : l.worst < (rd pop (k + 1)).fitness := not_le.mp h2
          have hpos : 0 < k := by
            rcases Nat.eq_zero_or_pos k with h | h
            · exact absurd (le_of_lt (lt_of_lt_of_le h1 (hw0 h).ge)) h2
            · exact h
          refine ⟨w, by omega, ?_, ?_, ?_, ?_, ?_, fun _ => ?_⟩
          · simp only [h1, if_true]; split_ifs <;> exact hworst
          · intro i hi
            have hcs : i ≤ k ∨ i = k + 1 := by omega
            have hv : l.worst ≤ (rd pop i).fitness := by
              rcases hcs with h | h
              · exact hall i h
              · subst h; exact le_of_lt h2'
            simp only [h1, if_true]; split_ifs <;> exact hv
          · intro i hi1 hi2
            have hcs : i < k ∨ i = k := by omega
            have hv : l.worst < (rd pop i).fitness := by
              rcases hcs with h | h
              · exact hbetween i hi1 h
              · subst h; exact lt_trans h2' h1
            simp only [h1, if_true]; split_ifs <;> exact hv
          · intro _ he
            exfalso
            have hv : (rd pop (k + 1)).fitness = l.worst := by
              revert he
              simp only [h1, if_true]; split_ifs <;> exact fun e => e
            exact absurd hv (ne_of_gt h2')
          · intro h
            omega
          · simp only [h1, if_true]; split_ifs <;> exact hwm hpos
      · have h1' : (rd pop k).fitness ≤ (rd pop (k + 1)).fitness := not_lt.mp h1
        by_cases h2 : (rd pop k).fitness ≤ l.worst
        · refine ⟨k, by omega, ?_, ?_, ?_, ?_, ?_, fun _ => ?_⟩
          · simp only [h1, h2, if_true, if_false]; split_ifs <;> rfl
          · intro i hi
            have hcs : i ≤ k ∨ i = k + 1 := by omega
            have hv : (rd pop k).fitness ≤ (rd pop i).fitness := by
              rcases hcs with h | h
              · exact le_trans h2 (hall i h)
              · subst h; exact h1'
            simp only [h1, h2, if_true, if_false]; split_ifs <;> exact hv
          · intro i hi1 hi2
            omega
          · intro _ _
            rfl
          · intro h
            omega
          · simp only [h1, h2, if_true, if_false]; split_ifs <;> rfl
        · have h2' : l.worst < (rd pop k).fitness := not_le.mp h2
          have hpos : 0 < k := by
            rcases Nat.eq_zero_or_pos k with h | h
            · exact absurd (hw0 h).ge h2
            · exact h
          refine ⟨w, by omega, ?_, ?_, ?_, ?_, ?_, fun _ => ?_⟩
          · simp only [h1, h2, if_false]; split_ifs <;> exact hworst
          · intro i hi
            have hcs : i ≤ k ∨ i = k + 1 := by omega
            have hv : l.worst ≤ (rd pop i).fitness := by
              rcases hcs with h | h
              · exact hall i h
              · subst h; exact le_of_lt (lt_of_lt_of_le h2' h1')
            simp only [h1, h2, if_false]; split_ifs <;> exact hv
          · intro i hi1 hi2
            have hcs : i < k ∨ i = k := by omega
            have hv : l.worst < (rd pop i).fitness := by
              rcases hcs with h | h
              · exact hbetween i hi1 h
              · subst h; exact h2'
            simp only [h1, h2, if_false]; split_ifs <;> exact hv
          · intro _ he
            exfalso
            have hv : (rd pop (k + 1)).fitness = l.worst := by
              revert he
              simp only [h1, h2, if_false]; split_ifs <;> exact fun e => e
            exact absurd hv (ne_of_gt (lt_of_lt_of_le h2' h1'))
          · intro h
            omega
          · simp only [h1, h2, if_false]; split_ifs <;> exact hwm hpos
  obtain ⟨w, hw, hworst, hall, hbetween, hc, hd, hwm⟩ := key
  have hpos : 0 < P - 1 := by omega
  refine ⟨w, hwm hpos, by omega, ?_, ?_, ?_, ?_⟩
  · intro i hi
    rw [← hworst]
    exact hall i (by omega)
  · intro i h1 h2
    rw [← hworst]
    exact hbetween i h1 h2
  · intro h1 h2
    exact hc h1 (by rw [hworst]; exact h2)
  · intro h
    exact hd h hpos

/-- C16, counterexample: on `small_state` (fitness 2, 2) the scan of `__elitist` leaves
`best_mem = 1` although index 0 has the maximum fitness too; on `tied_state` (fitness
2, 2, 2) it leaves `worst_mem = 1` although index 0 has the minimum fitness too. -/
theorem elitist_scan_ties_example :
    (elitist_scan 2 small_state.population).best_mem = some 1 ∧
    is_best 2 small_state.population 0 ∧
    (elitist_scan 3 tied_state.population).worst_mem = some 1 ∧
    is_worst 3 tied_state.population 0 := by
  refine ⟨?_, ⟨by decide, ?_⟩, ?_, ⟨by decide, ?_⟩⟩
  · simp [elitist_scan, for_loop, small_state, rd]
  · intro i hi
    have : i = 0 ∨ i = 1 := by omega
    rcases this with h | h <;> subst h <;> simp [small_state, rd]
  · simp [elitist_scan, for_loop, tied_state, rd]
  · intro i hi
    have : i = 0 ∨ i = 1 ∨ i = 2 := by omega
    rcases this with h | h | h <;> subst h <;> simp [tied_state, rd]

/-- C16, amended: for at least two working members, the scan of `__elitist` chooses as
`best_mem` the largest index among the working genotypes of maximum fitness, and as
`worst_mem` the largest index among those of minimum fitness, except that it is
`POPSIZE - 2` when the last two working genotypes both have the minimum fitness (the
last index is chosen only when its fitness is below that of its predecessor). -/
theorem elitist_scan_tie_break (P : ℕ) (pop : List genotype) (hP : 2 ≤ P) :
    ∃ b w, (elitist_scan P pop).best_mem = some b ∧
      (elitist_scan P pop).worst_mem = some w ∧
      is_best P pop b ∧
      (∀ i, b < i → i < P → (rd pop i).fitness < (rd pop b).fitness) ∧
      is_worst P pop w ∧
      (∀ i, w < i → i < P → (rd pop i).fitness = (rd pop w).fitness →
        i = P - 1 ∧ w = P - 2) ∧
      (w = P - 1 → (rd pop (P - 2)).fitness > (rd pop (P - 1)).fitness) := by
  obtain ⟨b, hbm, hb, hmax, hlater⟩ := elitist_scan_best_last P pop hP
  obtain ⟨w, hwm, hw, hmin, hbetween, hc, hd⟩ := elitist_scan_worst_last P pop hP
  refine ⟨b, w, hbm, hwm, ⟨hb, hmax⟩, hlater, ⟨hw, hmin⟩, ?_, ?_⟩
  · intro i h1 h2 h3
    have hi : i = P - 1 := by
      by_contra hne
      have := hbetween i h1 (by omega)
      rw [h3] at this
      exact lt_irrefl _ this
    subst hi
    have := hc h1 h3
    exact ⟨rfl, by omega⟩
  · intro h
    have := hd h
    have e : P - 1 - 1 = P - 2 := by omega
    rwa [e] at this

/-- C16 (amended) on the population of `tied_state`. -/
theorem elitist_scan_tie_break_witness :
    2 ≤ 3 ∧
    ∃ b w, (elitist_scan 3 tied_state.population).best_mem = some b ∧
      (elitist_scan 3 tied_state.population).worst_mem = some w ∧
      is_best 3 tied_state.population b ∧
      (∀ i, b < i → i < 3 →
        (rd tied_state.population i).fitness < (rd tied_state.population b).fitness) ∧
      is_worst 3 tied_state.population w ∧
      (∀ i, w < i → i < 3 →
        (rd tied_state.population i).fitness = (rd tied_state.population w).fitness →
        i = 3 - 1 ∧ w = 3 - 2) ∧
      (w = 3 - 1 →
        (rd tied_state.population (3 - 2)).fitness
          > (rd tied_state.population (3 - 1)).fitness) :=
  ⟨by decide, elitist_scan_tie_break 3 tied_state.population (by decide)⟩

/-! ## Crossover of one pair: the prefix exchange and its inverse -/

theorem list_eq_of_rd (a b : List genotype) (hl : a.length = b.length)
    (h : ∀ i, i < a.length → rd a i = rd b i) : a = b := by
  apply List.ext_getElem hl
  intro i h1 h2
  have := h i h1
  simpa [rd, List.getD_eq_getElem?_getD, List.getElem?_eq_getElem, h1, h2] using this

theorem rdq_take_append_drop (a b : List ℚ) (k i : ℕ) (hk : k ≤ a.length) :
    rdq (a.take k ++ b.drop k) i = if i < k then rdq a i else rdq b i := by
  have hlen : (a.take k).length = k := by simp [hk]
  unfold rdq
  rw [List.getD_eq_getElem?_getD, List.getD_eq_getElem?_getD, List.getD_eq_getElem?_getD]
  split_ifs with h
  · rw [List.getElem?_append_left (by omega), List.getElem?_take_of_lt h]
  · rw [List.getElem?_append_right (by omega), hlen, List.getElem?_drop]
    congr 2
    omega

theorem length_take_append_drop (a b : List ℚ) (k : ℕ) (hk : k ≤ a.length)
    (hb : k ≤ b.length) : (a.take k ++ b.drop k).length = b.length := by
  simp
  omega

/-- The exchange loop of `__Xover` computes the prefix exchange of the specification. -/
theorem Xover_loop_eq (one two : ℕ) (s : State) (k : ℕ) (h12 : one ≠ two)
    (h1 : one < s.population.length) (h2 : two < s.population.length)
    (hk1 : k ≤ (rd s.population one).gene.length)
    (hk2 : k ≤ (rd s.population two).gene.length) :
    for_loop 0 k (fun i (s : State) =>
      let w := __swap (rdq (rd s.population one).gene i) (rdq (rd s.population two).gene i)
      let pop1 := set_gene s.population one i w.1
      { s with population := set_gene pop1 two i w.2 }) s
    = { s with population := prefix_exchange k one two s.population } := by
  obtain ⟨G1, G2, hloop, hl1, hl2, hg1, hg2⟩ := Xover_loop_spec one two s k h12 h1 h2 hk1 hk2
  have e1 : G1 = (rd s.population two).gene.take k ++ (rd s.population one).gene.drop k := by
    apply list_eq_of_rdq
    · rw [hl1, length_take_append_drop _ _ _ hk2 hk1]
    · intro i _
      rw [hg1 i, rdq_take_append_drop _ _ _ _ hk2]
  have e2 : G2 = (rd s.population one).gene.take k ++ (rd s.population two).gene.drop k := by
    apply list_eq_of_rdq
    · rw [hl2, length_take_append_drop _ _ _ hk1 hk2]
    · intro i _
      rw [hg2 i, rdq_take_append_drop _ _ _ _ hk1]
  rw [hloop, e1, e2]
  rfl

/-- The function `__Xover` in closed form: the prefix exchange at `crossover_point`, and
one more `rand ()` call when `NVARS > 2`. -/
theorem Xover_eq (P N : ℕ) (rand : ℕ → ℕ) (one two : ℕ) (s : State) (h12 : one ≠ two)
    (h1 : one < P) (h2 : two < P) (hwf : well_formed P N s.population) :
    __Xover N rand one two s =
      { s with nrand := s.nrand + (if 2 < N then 1 else 0),
               population := prefix_exchange (crossover_point N (rand s.nrand)) one two
                 s.population } := by
  obtain ⟨hlen, hgene⟩ := hwf
  have hl1 : one < s.population.length := by omega
  have hl2 : two < s.population.length := by omega
  have hg1 := hgene one (by omega)
  have hg2 := hgene two (by omega)
  unfold __Xover crossover_point
  by_cases hN1 : N > 1
  · by_cases hN2 : N = 2
    · subst hN2
      simp only [show (2 : ℕ) > 1 by norm_num, if_true, show ¬ ((2 : ℕ) ≤ 1) by norm_num,
        if_false, lt_irrefl, Nat.add_zero]
      exact Xover_loop_eq one two s 1 h12 hl1 hl2 (by omega) (by omega)
    · have hN3 : 2 < N := by omega
      obtain ⟨-, hp⟩ := Xover_point_range N (rand s.nrand) (by omega)
      simp only [hN1, hN2, if_true, if_false, show ¬ (N ≤ 1) by omega, hN3]
      exact Xover_loop_eq one two { s with nrand := s.nrand + 1 } _ h12 hl1 hl2
        (by simp only []; omega) (by simp only []; omega)
  · have hle : N ≤ 1 := by omega
    simp only [hN1, hle, if_true, if_false, show ¬ (2 < N) by omega, Nat.add_zero]
    have e1 : prefix_exchange 0 one two s.population = s.population := by
      unfold prefix_exchange
      simp only [List.take_zero, List.drop_zero, List.nil_append]
      rw [with_genes_self _ _ hl1, with_genes_self _ _ hl2]
    rw [e1]

theorem length_prefix_exchange (k one two : ℕ) (pop : List genotype) :
    (prefix_exchange k one two pop).length = pop.length := by
  simp [prefix_exchange, length_with_genes]

theorem rd_prefix_exchange_one (k one two : ℕ) (pop : List genotype) (h12 : one ≠ two)
    (h1 : one < pop.length) :
    rd (prefix_exchange k one two pop) one =
      { rd pop one with gene := (rd pop two).gene.take k ++ (rd pop one).gene.drop k } := by
  unfold prefix_exchange
  rw [rd_with_genes_ne _ _ _ _ (Ne.symm h12), rd_with_genes_eq _ _ _ h1]

theorem rd_prefix_exchange_two (k one two : ℕ) (pop : List genotype) (h12 : one ≠ two)
    (h2 : two < pop.length) :
    rd (prefix_exchange k one two pop) two =
      { rd pop two with gene := (rd pop one).gene.take k ++ (rd pop two).gene.drop k } := by
  unfold prefix_exchange
  rw [rd_with_genes_eq _ _ _ (by rw [length_with_genes]; exact h2),
    rd_with_genes_ne _ _ _ _ h12]

theorem rd_prefix_exchange_other (k one two m : ℕ) (pop : List genotype) (hm1 : m ≠ one)
    (hm2 : m ≠ two) : rd (prefix_exchange k one two pop) m = rd pop m := by
  unfold prefix_exchange
  rw [rd_with_genes_ne _ _ _ _ (Ne.symm hm2), rd_with_genes_ne _ _ _ _ (Ne.symm hm1)]

/-- The prefix exchange keeps the sizes of the arrays. -/
theorem well_formed_prefix_exchange (P N k one two : ℕ) (pop : List genotype)
    (h12 : one ≠ two) (h1 : one < P) (h2 : two < P) (hk : k ≤ N)
    (hwf : well_formed P N pop) : well_formed P N (prefix_exchange k one two pop) := by
  obtain ⟨hlen, hgene⟩ := hwf
  refine ⟨by rw [length_prefix_exchange, hlen], ?_⟩
  intro i hi
  by_cases hi1 : i = one
  · subst hi1
    rw [rd_prefix_exchange_one _ _ _ _ h12 (by omega)]
    simp only []
    rw [length_take_append_drop _ _ _ (by rw [hgene two (by omega)]; exact hk)
      (by rw [hgene i hi]; exact hk)]
    exact hgene i hi
  · by_cases hi2 : i = two
    · subst hi2
      rw [rd_prefix_exchange_two _ _ _ _ h12 (by omega)]
      simp only []
      rw [length_take_append_drop _ _ _ (by rw [hgene one (by omega)]; exact hk)
        (by rw [hgene i hi]; exact hk)]
      exact hgene i hi
    · rw [rd_prefix_exchange_other _ _ _ _ _ hi1 hi2]
      exact hgene i hi

theorem take_drop_twice (a b : List ℚ) (k : ℕ) (ha : k ≤ a.length) (hb : k ≤ b.length) :
    (a.take k ++ b.drop k).take k ++ (b.take k ++ a.drop k).drop k = a := by
  have h1 : (a.take k).length = k := by simp [ha]
  have h2 : (b.take k).length = k := by simp [hb]
  rw [List.take_append_of_le_length (by omega), List.drop_append_of_le_length (by omega)]
  rw [List.take_of_length_le (by omega), List.drop_of_length_le (by omega)]
  simp

/-- The prefix exchange is its own inverse. -/
theorem prefix_exchange_twice (P N k one two : ℕ) (pop : List genotype)
    (h12 : one ≠ two) (h1 : one < P) (h2 : two < P) (hk : k ≤ N)
    (hwf : well_formed P N pop) :
    prefix_exchange k one two (prefix_exchange k one two pop) = pop := by
  obtain ⟨hlen, hgene⟩ := hwf
  have hl1 : one < pop.length := by omega
  have hl2 : two < pop.length := by omega
  have hk1 : k ≤ (rd pop one).gene.length := by rw [hgene one (by omega)]; exact hk
  have hk2 : k ≤ (rd pop two).gene.length := by rw [hgene two (by omega)]; exact hk
  apply list_eq_of_rd
  · rw [length_prefix_exchange, length_prefix_exchange]
  · intro i _
    by_cases hi1 : i = one
    · subst hi1
      rw [rd_prefix_exchange_one _ _ _ _ h12 (by rw [length_prefix_exchange]; exact hl1),
        rd_prefix_exchange_one _ _ _ _ h12 hl1, rd_prefix_exchange_two _ _ _ _ h12 hl2]
      simp only []
      rw [take_drop_twice _ _ _ hk1 hk2]
    · by_cases hi2 : i = two
      · subst hi2
        rw [rd_prefix_exchange_two _ _ _ _ h12 (by rw [length_prefix_exchange]; exact hl2),
          rd_prefix_exchange_one _ _ _ _ h12 hl1, rd_prefix_exchange_two _ _ _ _ h12 hl2]
        simp only []
        rw [take_drop_twice _ _ _ hk2 hk1]
      · rw [rd_prefix_exchange_other _ _ _ _ _ hi1 hi2,
          rd_prefix_exchange_other _ _ _ _ _ hi1 hi2]

theorem crossover_point_le (N r : ℕ) : crossover_point N r ≤ N := by
  unfold crossover_point
  split_ifs with h1 h2
  · omega
  · omega
  · have := (Xover_point_range N r (by omega)).2
    omega

/-- C11: for two distinct working indices and every crossover point `pt` in
`[1, NVARS - 1]`, when the point of `__Xover` is `pt` in two successive calls on the
same pair, the first call performs the prefix exchange at `pt` and the second call
restores the whole population, hence the original gene vectors of both genotypes. -/
theorem Xover_twice_restores (P N : ℕ) (rand : ℕ → ℕ) (one two pt : ℕ) (s : State)
    (h12 : one ≠ two) (h1 : one < P) (h2 : two < P) (hwf : well_formed P N s.population)
    (hpt1 : 1 ≤ pt) (hpt2 : pt ≤ N - 1)
    (hd1 : Xover_point N (rand s.nrand) = pt)
    (hd2 : Xover_point N (rand (s.nrand + 1)) = pt) :
    (__Xover N rand one two s).population = prefix_exchange pt one two s.population ∧
    (__Xover N rand one two (__Xover N rand one two s)).population = s.population := by
  have hN : 2 ≤ N := by omega
  have hc1 : crossover_point N (rand s.nrand) = pt := by
    unfold crossover_point
    split_ifs with a b
    · omega
    · omega
    · exact hd1
  have hX1 := Xover_eq P N rand one two s h12 h1 h2 hwf
  have hwf1 : well_formed P N (__Xover N rand one two s).population := by
    rw [hX1]
    exact well_formed_prefix_exchange P N _ one two _ h12 h1 h2 (crossover_point_le _ _) hwf
  have hX2 := Xover_eq P N rand one two (__Xover N rand one two s) h12 h1 h2 hwf1
  have hc2 : crossover_point N (rand (__Xover N rand one two s).nrand) = pt := by
    unfold crossover_point
    split_ifs with a b
    · omega
    · omega
    · rw [hX1]
      simp only [show 2 < N by omega, if_true]
      exact hd2
  refine ⟨by rw [hX1, hc1], ?_⟩
  rw [hX2, hc2]
  simp only []
  rw [hX1, hc1]
  exact prefix_exchange_twice P N pt one two s.population h12 h1 h2 (by omega) hwf

/-- C11 on members 0 and 1 of `small_state` with `rand ()` output 1 (point 2). -/
theorem Xover_twice_restores_witness :
    (0 : ℕ) ≠ 1 ∧ 0 < 2 ∧ 1 < 2 ∧ well_formed 2 3 small_state.population ∧
    1 ≤ 2 ∧ 2 ≤ 3 - 1 ∧
    Xover_point 3 ((fun _ => 1) small_state.nrand) = 2 ∧
    Xover_point 3 ((fun _ => 1) (small_state.nrand + 1)) = 2 ∧
    (__Xover 3 (fun _ => 1) 0 1 small_state).population
      = prefix_exchange 2 0 1 small_state.population ∧
    (__Xover 3 (fun _ => 1) 0 1 (__Xover 3 (fun _ => 1) 0 1 small_state)).population
      = small_state.population :=
  ⟨by decide, by decide, by decide, well_formed_small_state, by decide, by decide,
    by decide, by decide,
    Xover_twice_restores 2 3 (fun _ => 1) 0 1 2 small_state (by decide) (by decide)
      (by decide) well_formed_small_state (by decide) (by decide) (by decide) (by decide)⟩

/-! ## Fields that the operators leave alone -/

/-- Frame rule for a component of the loop state that no iteration changes. -/
theorem for_loop_keeps {σ α : Type} (proj : σ → α) (lo hi : ℕ) (body : ℕ → σ → σ) (s : σ)
    (h : ∀ i t, proj (body i t) = proj t) : proj (for_loop lo hi body s) = proj s := by
  induction hi with
  | zero => rfl
  | succ n ih =>
    simp only [for_loop]
    split_ifs
    · rw [h, ih]
    · rfl

/-- The globals that `__Xover` leaves alone. -/
theorem Xover_keeps (N : ℕ) (rand : ℕ → ℕ) (one two : ℕ) (s : State) :
    (__Xover N rand one two s).newpopulation = s.newpopulation ∧
    (__Xover N rand one two s).generation = s.generation ∧
    (__Xover N rand one two s).cur_best = s.cur_best ∧
    (__Xover N rand one two s).galog = s.galog := by
  unfold __Xover
  split_ifs with h1 h2
  · exact ⟨for_loop_keeps State.newpopulation _ _ _ _ (fun _ _ => rfl),
      for_loop_keeps State.generation _ _ _ _ (fun _ _ => rfl),
      for_loop_keeps State.cur_best _ _ _ _ (fun _ _ => rfl),
      for_loop_keeps State.galog _ _ _ _ (fun _ _ => rfl)⟩
  · exact ⟨for_loop_keeps State.newpopulation _ _ _ _ (fun _ _ => rfl),
      for_loop_keeps State.generation _ _ _ _ (fun _ _ => rfl),
      for_loop_keeps State.cur_best _ _ _ _ (fun _ _ => rfl),
      for_loop_keeps State.galog _ _ _ _ (fun _ _ => rfl)⟩
  · exact ⟨rfl, rfl, rfl, rfl⟩

/-- The globals that `__crossover` leaves alone. -/
theorem crossover_keeps (P N : ℕ) (PXOVER : ℚ) (rand : ℕ → ℕ) (s : State) :
    (__crossover P N PXOVER rand s).newpopulation = s.newpopulation ∧
    (__crossover P N PXOVER rand s).generation = s.generation ∧
    (__crossover P N PXOVER rand s).cur_best = s.cur_best ∧
    (__crossover P N PXOVER rand s).galog = s.galog := by
  unfold __crossover
  refine ⟨for_loop_keeps (fun l : crossover_locals => l.state.newpopulation) _ _ _ _ ?_,
    for_loop_keeps (fun l : crossover_locals => l.state.generation) _ _ _ _ ?_,
    for_loop_keeps (fun l : crossover_locals => l.state.cur_best) _ _ _ _ ?_,
    for_loop_keeps (fun l : crossover_locals => l.state.galog) _ _ _ _ ?_⟩ <;>
  · intro i l
    dsimp only
    split_ifs
    · first
        | exact (Xover_keeps N rand l.one i _).1
        | exact (Xover_keeps N rand l.one i _).2.1
        | exact (Xover_keeps N rand l.one i _).2.2.1
        | exact (Xover_keeps N rand l.one i _).2.2.2
    · rfl
    · rfl

/-- The globals that `__mutate` leaves alone. -/
theorem mutate_keeps (P N : ℕ) (PMUTATION : ℚ) (rand : ℕ → ℕ) (s : State) :
    (__mutate P N PMUTATION rand s).newpopulation = s.newpopulation ∧
    (__mutate P N PMUTATION rand s).generation = s.generation ∧
    (__mutate P N PMUTATION rand s).cur_best = s.cur_best ∧
    (__mutate P N PMUTATION rand s).galog = s.galog := by
  unfold __mutate
  refine ⟨for_loop_keeps State.newpopulation _ _ _ _ (fun i t =>
      for_loop_keeps State.newpopulation _ _ _ _ (fun j u => ?_)),
    for_loop_keeps State.generation _ _ _ _ (fun i t =>
      for_loop_keeps State.generation _ _ _ _ (fun j u => ?_)),
    for_loop_keeps State.cur_best _ _ _ _ (fun i t =>
      for_loop_keeps State.cur_best _ _ _ _ (fun j u => ?_)),
    for_loop_keeps State.galog _ _ _ _ (fun i t =>
      for_loop_keeps State.galog _ _ _ _ (fun j u => ?_))⟩ <;>
  · dsimp only
    split_ifs <;> rfl

theorem select_survivors_keeps (P : ℕ) (rand : ℕ → ℕ) (s : State) :
    (select_survivors P rand s).generation = s.generation ∧
    (select_survivors P rand s).cur_best = s.cur_best ∧
    (select_survivors P rand s).galog = s.galog ∧
    (select_survivors P rand s).newpopulation.length = s.newpopulation.length := by
  unfold select_survivors
  exact ⟨for_loop_keeps State.generation _ _ _ _ (fun _ _ => rfl),
    for_loop_keeps State.cur_best _ _ _ _ (fun _ _ => rfl),
    for_loop_keeps State.galog _ _ _ _ (fun _ _ => rfl),
    for_loop_keeps (fun t : State => t.newpopulation.length) _ _ _ _ (fun _ _ => by simp)⟩

theorem select_copy_back_keeps (P : ℕ) (s : State) :
    (select_copy_back P s).generation = s.generation ∧
    (select_copy_back P s).cur_best = s.cur_best ∧
    (select_copy_back P s).galog = s.galog ∧
    (select_copy_back P s).newpopulation = s.newpopulation := by
  unfold select_copy_back
  exact ⟨for_loop_keeps State.generation _ _ _ _ (fun _ _ => rfl),
    for_loop_keeps State.cur_best _ _ _ _ (fun _ _ => rfl),
    for_loop_keeps State.galog _ _ _ _ (fun _ _ => rfl),
    for_loop_keeps State.newpopulation _ _ _ _ (fun _ _ => rfl)⟩

/-- The globals that `__select` leaves alone. -/
theorem select_keeps (P : ℕ) (rand : ℕ → ℕ) (s : State) :
    (__select P rand s).generation = s.generation ∧
    (__select P rand s).cur_best = s.cur_best ∧
    (__select P rand s).galog = s.galog ∧
    (__select P rand s).newpopulation.length = s.newpopulation.length := by
  unfold __select
  obtain ⟨a1, a2, a3, a4⟩ := select_copy_back_keeps P
    (select_survivors P rand { s with population := select_fitness P s.population })
  obtain ⟨b1, b2, b3, b4⟩ := select_survivors_keeps P rand
    { s with population := select_fitness P s.population }
  exact ⟨a1.trans b1, a2.trans b2, a3.trans b3, (congrArg List.length a4).trans b4⟩

/-- The globals that `__keep_the_best` leaves alone. -/
theorem keep_the_best_keeps (P N : ℕ) (s : State) :
    (__keep_the_best P N s).newpopulation = s.newpopulation ∧
    (__keep_the_best P N s).generation = s.generation ∧
    (__keep_the_best P N s).nrand = s.nrand ∧
    (__keep_the_best P N s).galog = s.galog := by
  unfold __keep_the_best
  refine ⟨?_, ?_, ?_, ?_⟩
  · exact for_loop_keeps State.newpopulation _ _ _ _ (fun i t => by
      split_ifs <;> rfl)
  · exact for_loop_keeps State.generation _ _ _ _ (fun i t => by
      split_ifs <;> rfl)
  · exact for_loop_keeps State.nrand _ _ _ _ (fun i t => by
      split_ifs <;> rfl)
  · exact for_loop_keeps State.galog _ _ _ _ (fun i t => by
      split_ifs <;> rfl)

/-- The globals that `__initialize` leaves alone. -/
theorem initialize_keeps (P N : ℕ) (rand : ℕ → ℕ) (nums : List ℚ) (s s1 : State)
    (h : __initialize P N rand (some nums) s = some s1) :
    s1.newpopulation = s.newpopulation ∧ s1.generation = s.generation ∧
    s1.galog = s.galog := by
  unfold __initialize at h
  have h' := (Option.some.inj h).symm
  subst h'
  refine ⟨for_loop_keeps (fun t : State × ℚ × ℚ => t.1.newpopulation) _ _ _ _ (fun i t =>
      for_loop_keeps State.newpopulation _ _ _ _ (fun _ _ => rfl)),
    for_loop_keeps (fun t : State × ℚ × ℚ => t.1.generation) _ _ _ _ (fun i t =>
      for_loop_keeps State.generation _ _ _ _ (fun _ _ => rfl)),
    for_loop_keeps (fun t : State × ℚ × ℚ => t.1.galog) _ _ _ _ (fun i t =>
      for_loop_keeps State.galog _ _ _ _ (fun _ _ => rfl))⟩

/-- The globals that `__elitist` leaves alone. -/
theorem elitist_keeps (P N : ℕ) (s s' : State) (h : __elitist P N s = some s') :
    s'.newpopulation = s.newpopulation ∧ s'.generation = s.generation ∧
    s'.nrand = s.nrand ∧ s'.galog = s.galog ∧ s'.cur_best = s.cur_best := by
  unfold __elitist at h
  dsimp only at h
  split_ifs at h
  · cases hb : (elitist_scan P s.population).best_mem with
    | none => rw [hb] at h; exact absurd h (by simp)
    | some b =>
      rw [hb] at h
      have h' := (Option.some.inj h).symm
      subst h'
      exact ⟨rfl, rfl, rfl, rfl, rfl⟩
  · cases hw : (elitist_scan P s.population).worst_mem with
    | none => rw [hw] at h; exact absurd h (by simp)
    | some w =>
      rw [hw] at h
      have h' := (Option.some.inj h).symm
      subst h'
      exact ⟨rfl, rfl, rfl, rfl, rfl⟩

/-! ## Selection never takes the archive -/

theorem rd_set_gene_cfitness (q : List genotype) (m i j : ℕ) (v : ℚ) :
    (rd (set_gene q m i v) j).cfitness = (rd q j).cfitness := by
  unfold set_gene
  by_cases hmj : m = j
  · subst hmj
    by_cases hlt : m < q.length
    · rw [rd_set_eq _ _ _ hlt]
    · rw [List.set_eq_of_length_le (not_lt.mp hlt)]
  · rw [rd_set_ne _ _ _ _ hmj]

theorem rd_set_fitness_cfitness (q : List genotype) (m j : ℕ) (v : ℚ) :
    (rd (set_fitness q m v) j).cfitness = (rd q j).cfitness := by
  unfold set_fitness
  by_cases hmj : m = j
  · subst hmj
    by_cases hlt : m < q.length
    · rw [rd_set_eq _ _ _ hlt]
    · rw [List.set_eq_of_length_le (not_lt.mp hlt)]
  · rw [rd_set_ne _ _ _ _ hmj]

theorem copy_genes_cfitness (N : ℕ) (pop : List genotype) (dst src : ℕ) :
    ∀ j, (rd (copy_genes N pop dst src) j).cfitness = (rd pop j).cfitness := by
  unfold copy_genes
  refine for_loop_inv (fun _ (q : List genotype) =>
    ∀ j, (rd q j).cfitness = (rd pop j).cfitness) 0 N _ pop (Nat.zero_le _)
    (fun _ => rfl) ?_
  rintro i q - - h j
  rw [rd_set_gene_cfitness, h]

/-- The function `__keep_the_best` writes no cumulative fitness and keeps the length of
the array. -/
theorem keep_the_best_cfitness (P N : ℕ) (s : State) :
    (__keep_the_best P N s).population.length = s.population.length ∧
    ∀ j, (rd (__keep_the_best P N s).population j).cfitness = (rd s.population j).cfitness := by
  have key := for_loop_inv (fun _ (t : State) =>
      t.population.length = s.population.length ∧
      ∀ j, (rd t.population j).cfitness = (rd s.population j).cfitness) 0 P
    (fun mem (s : State) =>
      if (rd s.population mem).fitness > (rd s.population P).fitness then
        { s with cur_best := mem,
                 population := set_fitness s.population P (rd s.population mem).fitness }
      else s) { s with cur_best := 0 } (Nat.zero_le _) ⟨rfl, fun _ => rfl⟩ (by
      rintro k t - - ⟨h1, h2⟩
      dsimp only
      split_ifs
      · exact ⟨by simp [set_fitness, h1], fun j => by
          simp only []
          rw [rd_set_fitness_cfitness, h2]⟩
      · exact ⟨h1, h2⟩)
  unfold __keep_the_best
  obtain ⟨h1, h2⟩ := key
  refine ⟨?_, fun j => ?_⟩
  · simp only []
    rw [(copy_genes_frame N _ P _).1, h1]
  · simp only []
    rw [copy_genes_cfitness, h2]

/-- The function `__elitist` writes no cumulative fitness and keeps the length of the
array. -/
theorem elitist_cfitness (P N : ℕ) (s s' : State) (h : __elitist P N s = some s') :
    s'.population.length = s.population.length ∧
    ∀ j, (rd s'.population j).cfitness = (rd s.population j).cfitness := by
  unfold __elitist at h
  dsimp only at h
  split_ifs at h
  · cases hb : (elitist_scan P s.population).best_mem with
    | none => rw [hb] at h; exact absurd h (by simp)
    | some b =>
      rw [hb] at h
      have h' := (Option.some.inj h).symm
      subst h'
      refine ⟨by simp [set_fitness, (copy_genes_frame N _ _ _).1], fun j => ?_⟩
      simp only []
      rw [rd_set_fitness_cfitness, copy_genes_cfitness]
  · cases hw : (elitist_scan P s.population).worst_mem with
    | none => rw [hw] at h; exact absurd h (by simp)
    | some w =>
      rw [hw] at h
      have h' := (Option.some.inj h).symm
      subst h'
      refine ⟨by simp [set_fitness, (copy_genes_frame N _ _ _).1], fun j => ?_⟩
      simp only []
      rw [rd_set_fitness_cfitness, copy_genes_cfitness]

/-- In every state that `main` reaches at the head of its loop the two arrays have
`POPSIZE + 1` entries and the cumulative fitness of the archive slot is 0. -/
theorem reachable_archive_cfitness (P N : ℕ) (PXOVER PMUTATION : ℚ) (rand : ℕ → ℕ)
    (nums : List ℚ) (hP : 1 ≤ P) (g : ℕ) :
    ∀ sg, after_generation P N PXOVER PMUTATION rand (some nums) g = some sg →
      sg.population.length = P + 1 ∧ sg.newpopulation.length = P + 1 ∧
      (rd sg.population P).cfitness = 0 := by
  induction g with
  | zero =>
    intro sg hsg
    obtain ⟨s0, hs0, hlen, harch⟩ := first_evaluated_spec P N rand nums
    have hnew0 : s0.newpopulation.length = P + 1 := by
      unfold first_evaluated at hs0
      cases hi : __initialize P N rand (some nums) (start_state P N) with
      | none => rw [hi] at hs0; exact absurd hs0 (by simp)
      | some s1 =>
        rw [hi] at hs0
        have e := (Option.some.inj hs0).symm
        subst e
        have := (initialize_keeps P N rand nums _ s1 hi).1
        show (__evaluate P N s1).newpopulation.length = P + 1
        unfold __evaluate
        simp only []
        rw [this]
        simp [start_state]
    have e : sg = __keep_the_best P N s0 := by
      unfold after_generation best_captured at hsg
      rw [hs0] at hsg
      exact (Option.some.inj hsg).symm
    subst e
    obtain ⟨k1, k2⟩ := keep_the_best_cfitness P N s0
    refine ⟨by rw [k1, hlen], by rw [(keep_the_best_keeps P N s0).1, hnew0], ?_⟩
    rw [k2 P, harch]
    rfl
  | succ g ih =>
    intro sg hsg
    unfold after_generation at hsg
    cases hprev : after_generation P N PXOVER PMUTATION rand (some nums) g with
    | none => rw [hprev] at hsg; exact absurd hsg (by simp)
    | some sp =>
      rw [hprev] at hsg
      obtain ⟨hl, hn, hc⟩ := ih sp hprev
      have hstep : __elitist P N (generation_evaluated P N PXOVER PMUTATION rand sp)
          = some sg := hsg
      obtain ⟨e1, e2⟩ := elitist_cfitness P N _ sg hstep
      obtain ⟨a1, a2⟩ := generation_evaluated_same_archive P N PXOVER PMUTATION rand sp hP
      refine ⟨by rw [e1, a1, hl], ?_, by rw [e2 P, a2, hc]⟩
      rw [(elitist_keeps P N _ sg hstep).1]
      unfold generation_evaluated
      show (__evaluate P N _).newpopulation.length = P + 1
      unfold __evaluate
      simp only []
      show (__mutate P N PMUTATION rand _).newpopulation.length = P + 1
      rw [(mutate_keeps P N PMUTATION rand _).1, (crossover_keeps P N PXOVER rand _).1,
        (select_keeps P rand _).2.2.2]
      exact hn

/-- The scan of `__select` depends only on the entries `0..POPSIZE` of the array. -/
theorem select_scan_reads (P : ℕ) (pop pop' : List genotype) (p : ℚ) (slot : genotype)
    (h : ∀ i, i ≤ P → rd pop' i = rd pop i) :
    select_scan P pop' p slot = select_scan P pop p slot := by
  unfold select_scan
  rw [h 0 (Nat.zero_le _)]
  split_ifs
  · rfl
  · have key := for_loop_inv (fun k (t : genotype × genotype) => k ≤ P → t.1 = t.2) 0 P
      (fun j (t : genotype × genotype) =>
        ((if p ≥ (rd pop' j).cfitness ∧ p < (rd pop' (j + 1)).cfitness then rd pop' (j + 1)
          else t.1),
         (if p ≥ (rd pop j).cfitness ∧ p < (rd pop (j + 1)).cfitness then rd pop (j + 1)
          else t.2))) (slot, slot) (Nat.zero_le _) (fun _ => rfl) (by
        rintro k t - hk ih -
        dsimp only
        rw [h k (by omega), h (k + 1) (by omega), ih (by omega)])
    have p1 : ∀ n, (for_loop 0 n (fun j (t : genotype × genotype) =>
        ((if p ≥ (rd pop' j).cfitness ∧ p < (rd pop' (j + 1)).cfitness then rd pop' (j + 1)
          else t.1),
         (if p ≥ (rd pop j).cfitness ∧ p < (rd pop (j + 1)).cfitness then rd pop (j + 1)
          else t.2))) (slot, slot)).1
        = for_loop 0 n (fun j (slot : genotype) =>
          if p ≥ (rd pop' j).cfitness ∧ p < (rd pop' (j + 1)).cfitness then rd pop' (j + 1)
          else slot) slot := by
      intro n
      induction n with
      | zero => rfl
      | succ m ihm =>
        rw [for_loop_succ _ _ _ _ (Nat.zero_le _), for_loop_succ _ _ _ _ (Nat.zero_le _)]
        dsimp only
        rw [ihm]
    have p2 : ∀ n, (for_loop 0 n (fun j (t : genotype × genotype) =>
        ((if p ≥ (rd pop' j).cfitness ∧ p < (rd pop' (j + 1)).cfitness then rd pop' (j + 1)
          else t.1),
         (if p ≥ (rd pop j).cfitness ∧ p < (rd pop (j + 1)).cfitness then rd pop (j + 1)
          else t.2))) (slot, slot)).2
        = for_loop 0 n (fun j (slot : genotype) =>
          if p ≥ (rd pop j).cfitness ∧ p < (rd pop (j + 1)).cfitness then rd pop (j + 1)
          else slot) slot := by
      intro n
      induction n with
      | zero => rfl
      | succ m ihm =>
        rw [for_loop_succ _ _ _ _ (Nat.zero_le _), for_loop_succ _ _ _ _ (Nat.zero_le _)]
        dsimp only
        rw [ihm]
    rw [← p1 P, ← p2 P]
    exact key (le_refl _)

/-- When the cumulative fitness of the archive slot is 0 and the draw is not negative,
the scan of `__select` yields the previous content of the slot or a working member. -/
theorem select_scan_working (P : ℕ) (pop : List genotype) (p : ℚ) (slot : genotype)
    (hP : 1 ≤ P) (harch : (rd pop P).cfitness = 0) (hp : 0 ≤ p) :
    select_scan P pop p slot = slot ∨ ∃ j, j < P ∧ select_scan P pop p slot = rd pop j := by
  unfold select_scan
  split_ifs
  · exact Or.inr ⟨0, by omega, rfl⟩
  · refine for_loop_inv (fun k (g : genotype) => k ≤ P →
      (g = slot ∨ ∃ j, j < P ∧ g = rd pop j)) 0 P _ slot (Nat.zero_le _)
      (fun _ => Or.inl rfl) ?_ (le_refl _)
    rintro k g - hk ih -
    dsimp only
    split_ifs with hc
    · rcases Nat.lt_or_ge (k + 1) P with h | h
      · exact Or.inr ⟨k + 1, h, rfl⟩
      · have e : k + 1 = P := by omega
        rw [e, harch] at hc
        exact absurd hc.2 (not_lt.mpr hp)
    · exact ih (by omega)

/-- C19: in every state that `main` reaches at the head of its loop (at least one
working member) the `population` array has `POPSIZE + 1` entries and the archive's
cumulative fitness is 0, also after the fitness loops of `__select`.  The interval
scan depends on the entries `0..POPSIZE` only, all inside the array; for a draw
`p ≥ 0` it yields the previous content of the slot or a working member, and every
position of the working population after `__select` holds the previous content of
`newpopulation` there or a working member: the archive slot is never selected. -/
theorem select_never_takes_archive (P N : ℕ) (PXOVER PMUTATION : ℚ) (rand : ℕ → ℕ)
    (nums : List ℚ) (g : ℕ) (sg : State) (hP : 1 ≤ P)
    (hreach : after_generation P N PXOVER PMUTATION rand (some nums) g = some sg) :
    sg.population.length = P + 1 ∧
    (rd sg.population P).cfitness = 0 ∧
    (rd (select_fitness P sg.population) P).cfitness = 0 ∧
    (∀ (pop' : List genotype) (p : ℚ) (slot : genotype),
      (∀ i, i ≤ P → rd pop' i = rd (select_fitness P sg.population) i) →
      select_scan P pop' p slot = select_scan P (select_fitness P sg.population) p slot) ∧
    (∀ (p : ℚ) (slot : genotype), 0 ≤ p →
      select_scan P (select_fitness P sg.population) p slot = slot ∨
      ∃ j, j < P ∧
        select_scan P (select_fitness P sg.population) p slot
          = rd (select_fitness P sg.population) j) ∧
    ∀ i, i < P →
      rd (__select P rand sg).population i = rd sg.newpopulation i ∨
      ∃ j, j < P ∧
        rd (__select P rand sg).population i = rd (select_fitness P sg.population) j := by
  obtain ⟨hlen, hnew, hc⟩ := reachable_archive_cfitness P N PXOVER PMUTATION rand nums hP g
    sg hreach
  have hq : (rd (select_fitness P sg.population) P).cfitness = 0 := by
    rw [(select_fitness_same_archive P sg.population hP).2, hc]
  refine ⟨hlen, hc, hq, fun pop' p slot h => select_scan_reads P _ pop' p slot h,
    fun p slot hp => select_scan_working P _ p slot hP hq hp, ?_⟩
  intro i hi
  obtain ⟨-, -, -, hsel, -⟩ := select_spec P rand sg hP hlen hnew
  rw [hsel i hi]
  exact select_scan_working P _ _ _ hP hq (select_draw_range _).1

theorem after_generation_small :
    after_generation 2 3 (4 / 5) (3 / 20) (fun _ => 0) (some small_infile) 1
      = some small_run_state := by
  have h := generation_evaluated_small
  rw [evaluated_in] at h
  rw [after_generation]
  cases hp : after_generation 2 3 (4 / 5) (3 / 20) (fun _ => 0) (some small_infile) 0 with
  | none => rw [hp] at h; exact absurd h (by simp)
  | some sp =>
    rw [hp] at h
    have he := Option.some.inj h
    simp only [Option.bind, generation_step]
    rw [he]
    simp [__elitist, elitist_scan, copy_genes, for_loop, rd, rdq, set_fitness, set_gene,
      small_run_state]

/-- C19 on the state after generation 1 of the small run. -/
theorem select_never_takes_archive_witness :
    1 ≤ 2 ∧
    after_generation 2 3 (4 / 5) (3 / 20) (fun _ => 0) (some small_infile) 1
      = some small_run_state ∧
    small_run_state.population.length = 2 + 1 ∧
    (rd small_run_state.population 2).cfitness = 0 ∧
    (rd (select_fitness 2 small_run_state.population) 2).cfitness = 0 ∧
    (∀ (pop' : List genotype) (p : ℚ) (slot : genotype),
      (∀ i, i ≤ 2 → rd pop' i = rd (select_fitness 2 small_run_state.population) i) →
      select_scan 2 pop' p slot
        = select_scan 2 (select_fitness 2 small_run_state.population) p slot) ∧
    (∀ (p : ℚ) (slot : genotype), 0 ≤ p →
      select_scan 2 (select_fitness 2 small_run_state.population) p slot = slot ∨
      ∃ j, j < 2 ∧
        select_scan 2 (select_fitness 2 small_run_state.population) p slot
          = rd (select_fitness 2 small_run_state.population) j) ∧
    ∀ i, i < 2 →
      rd (__select 2 (fun _ => 0) small_run_state).population i
        = rd small_run_state.newpopulation i ∨
      ∃ j, j < 2 ∧
        rd (__select 2 (fun _ => 0) small_run_state).population i
          = rd (select_fitness 2 small_run_state.population) j :=
  ⟨by decide, after_generation_small,
    select_never_takes_archive 2 3 (4 / 5) (3 / 20) (fun _ => 0) small_infile 1
      small_run_state (by decide) after_generation_small⟩

/-! ## Crossover: marked members and pairs -/

/-- The marked indices below `mem` are below `mem` and strictly increasing. -/
theorem crossover_marks_sorted (N : ℕ) (PXOVER : ℚ) (rand : ℕ → ℕ) (n0 mem : ℕ) :
    (∀ m, m ∈ crossover_marks N PXOVER rand n0 mem → m < mem) ∧
    (crossover_marks N PXOVER rand n0 mem).Pairwise (· < ·) := by
  induction mem with
  | zero => simp [crossover_marks]
  | succ n ih =>
    obtain ⟨h1, h2⟩ := ih
    unfold crossover_marks
    split_ifs
    · constructor
      · intro m hm
        rcases List.mem_append.mp hm with h | h
        · have := h1 m h; omega
        · have := List.mem_singleton.mp h; omega
      · rw [List.pairwise_append]
        refine ⟨h2, List.pairwise_singleton _ _, ?_⟩
        intro a ha b hb
        have := List.mem_singleton.mp hb
        subst this
        exact h1 a ha
    · exact ⟨fun m hm => Nat.lt_succ_of_lt (h1 m hm), h2⟩

theorem getD_lt_of_pairwise (ms : List ℕ) (h : ms.Pairwise (· < ·)) (i j : ℕ) (hij : i < j)
    (hj : j < ms.length) : ms.getD i 0 < ms.getD j 0 := by
  have hi : i < ms.length := by omega
  rw [List.getD_eq_getElem _ _ hi, List.getD_eq_getElem _ _ hj]
  exact List.pairwise_iff_getElem.mp h i j hi hj hij

theorem getD_mem (ms : List ℕ) (i : ℕ) (hi : i < ms.length) : ms.getD i 0 ∈ ms := by
  rw [List.getD_eq_getElem _ _ hi]
  exact List.getElem_mem _

theorem getD_append_left (ms : List ℕ) (a i : ℕ) (hi : i < ms.length) :
    (ms ++ [a]).getD i 0 = ms.getD i 0 := by
  rw [List.getD_eq_getElem?_getD, List.getD_eq_getElem?_getD, List.getElem?_append_left hi]

theorem getD_append_last (ms : List ℕ) (a : ℕ) : (ms ++ [a]).getD ms.length 0 = a := by
  rw [List.getD_eq_getElem?_getD, List.getElem?_append_right (le_refl _)]
  simp

/-- Loops whose bodies agree on the indices they run over are equal. -/
theorem for_loop_congr {σ : Type} (lo hi : ℕ) (f g : ℕ → σ → σ) (s : σ)
    (h : ∀ i t, lo ≤ i → i < hi → f i t = g i t) : for_loop lo hi f s = for_loop lo hi g s := by
  induction hi with
  | zero => rfl
  | succ n ih =>
    simp only [for_loop]
    split_ifs with hl
    · rw [ih (fun i t h1 h2 => h i t h1 (by omega)), h n _ hl (Nat.lt_succ_self _)]
    · rfl

theorem pair_append (N : ℕ) (rand : ℕ → ℕ) (n0 : ℕ) (ms : List ℕ) (a j : ℕ)
    (hj : j < ms.length / 2) :
    pair_first (ms ++ [a]) j = pair_first ms j ∧
    pair_second (ms ++ [a]) j = pair_second ms j ∧
    pair_point N rand n0 (ms ++ [a]) j = pair_point N rand n0 ms j := by
  have h1 : 2 * j < ms.length := by omega
  have h2 : 2 * j + 1 < ms.length := by omega
  have e1 : pair_first (ms ++ [a]) j = pair_first ms j := getD_append_left ms a _ h1
  have e2 : pair_second (ms ++ [a]) j = pair_second ms j := getD_append_left ms a _ h2
  refine ⟨e1, e2, ?_⟩
  unfold pair_point
  rw [e2]

/-- A marked index appended to an even number of marks opens a pair: no new exchange. -/
theorem crossover_exchanges_append_even (N : ℕ) (rand : ℕ → ℕ) (n0 : ℕ) (ms : List ℕ)
    (a : ℕ) (pop : List genotype) (h : ms.length % 2 = 0) :
    crossover_exchanges N rand n0 (ms ++ [a]) pop = crossover_exchanges N rand n0 ms pop := by
  unfold crossover_exchanges
  have e : (ms ++ [a]).length / 2 = ms.length / 2 := by
    simp only [List.length_append, List.length_singleton]
    omega
  rw [e]
  apply for_loop_congr
  intro j t _ hj
  obtain ⟨e1, e2, e3⟩ := pair_append N rand n0 ms a j hj
  rw [e1, e2, e3]

/-- A marked index appended to an odd number of marks completes a pair: one more
exchange, with the last mark, after those made before. -/
theorem crossover_exchanges_append_odd (N : ℕ) (rand : ℕ → ℕ) (n0 : ℕ) (ms : List ℕ)
    (a : ℕ) (pop : List genotype) (h : ms.length % 2 = 1) :
    crossover_exchanges N rand n0 (ms ++ [a]) pop =
      prefix_exchange (crossover_point N (rand (n0 + a + ms.length / 2 + 1)))
        (ms.getD (ms.length - 1) 0) a (crossover_exchanges N rand n0 ms pop) := by
  unfold crossover_exchanges
  have e : (ms ++ [a]).length / 2 = ms.length / 2 + 1 := by
    simp only [List.length_append, List.length_singleton]
    omega
  rw [e, for_loop_succ _ _ _ _ (Nat.zero_le _)]
  have hf : pair_first (ms ++ [a]) (ms.length / 2) = ms.getD (ms.length - 1) 0 := by
    unfold pair_first
    have : 2 * (ms.length / 2) = ms.length - 1 := by omega
    rw [this]
    exact getD_append_left ms a _ (by omega)
  have hs : pair_second (ms ++ [a]) (ms.length / 2) = a := by
    unfold pair_second
    have : 2 * (ms.length / 2) + 1 = ms.length := by omega
    rw [this]
    exact getD_append_last ms a
  have hp : pair_point N rand n0 (ms ++ [a]) (ms.length / 2)
      = crossover_point N (rand (n0 + a + ms.length / 2 + 1)) := by
    unfold pair_point
    rw [hs]
  rw [hf, hs, hp]
  congr 1
  apply for_loop_congr
  intro j t _ hj
  obtain ⟨e1, e2, e3⟩ := pair_append N rand n0 ms a j hj
  rw [e1, e2, e3]

/-- The pairs of strictly increasing marks below `P` are pairs of distinct working
indices. -/
theorem pair_valid (P : ℕ) (ms : List ℕ) (hlt : ∀ m, m ∈ ms → m < P)
    (hs : ms.Pairwise (· < ·)) (j : ℕ) (hj : j < ms.length / 2) :
    pair_first ms j < pair_second ms j ∧ pair_second ms j < P := by
  unfold pair_first pair_second
  exact ⟨getD_lt_of_pairwise ms hs _ _ (by omega) (by omega),
    hlt _ (getD_mem ms _ (by omega))⟩

/-- The exchanges of the crossover step keep the sizes of the arrays. -/
theorem well_formed_crossover_exchanges (P N : ℕ) (rand : ℕ → ℕ) (n0 : ℕ) (ms : List ℕ)
    (pop : List genotype) (hlt : ∀ m, m ∈ ms → m < P) (hs : ms.Pairwise (· < ·))
    (hwf : well_formed P N pop) :
    well_formed P N (crossover_exchanges N rand n0 ms pop) := by
  unfold crossover_exchanges
  refine for_loop_inv (fun k (q : List genotype) => k ≤ ms.length / 2 → well_formed P N q)
    0 (ms.length / 2) _ pop (Nat.zero_le _) (fun _ => hwf) ?_ (le_refl _)
  rintro k q - hk ih -
  obtain ⟨h1, h2⟩ := pair_valid P ms hlt hs k hk
  exact well_formed_prefix_exchange P N _ _ _ q (by omega) (by omega) h2
    (crossover_point_le _ _) (ih (by omega))

/-- The exchanges of the crossover step change no entry that is not a member of a pair. -/
theorem crossover_exchanges_other (N : ℕ) (rand : ℕ → ℕ) (n0 : ℕ) (ms : List ℕ)
    (pop : List genotype) (i : ℕ)
    (hi : ∀ j, j < ms.length / 2 → i ≠ pair_first ms j ∧ i ≠ pair_second ms j) :
    rd (crossover_exchanges N rand n0 ms pop) i = rd pop i := by
  unfold crossover_exchanges
  refine for_loop_inv (fun k (q : List genotype) => k ≤ ms.length / 2 → rd q i = rd pop i)
    0 (ms.length / 2) _ pop (Nat.zero_le _) (fun _ => rfl) ?_ (le_refl _)
  rintro k q - hk ih -
  rw [rd_prefix_exchange_other _ _ _ _ _ (hi k hk).1 (hi k hk).2]
  exact ih (by omega)

theorem crossover_point_small (N r r' : ℕ) (h : ¬ 2 < N) :
    crossover_point N r = crossover_point N r' := by
  unfold crossover_point
  split_ifs <;> first | rfl | omega

theorem crossover_marks_succ_pos (N : ℕ) (PXOVER : ℚ) (rand : ℕ → ℕ) (n0 mem : ℕ)
    (h : decision_draw (rand (n0 + mem
        + point_draws N (crossover_marks N PXOVER rand n0 mem).length)) < PXOVER) :
    crossover_marks N PXOVER rand n0 (mem + 1) = crossover_marks N PXOVER rand n0 mem ++ [mem] := by
  rw [crossover_marks, if_pos h]

theorem crossover_marks_succ_neg (N : ℕ) (PXOVER : ℚ) (rand : ℕ → ℕ) (n0 mem : ℕ)
    (h : ¬ decision_draw (rand (n0 + mem
        + point_draws N (crossover_marks N PXOVER rand n0 mem).length)) < PXOVER) :
    crossover_marks N PXOVER rand n0 (mem + 1) = crossover_marks N PXOVER rand n0 mem := by
  rw [crossover_marks, if_neg h]

/-- The loop of `__crossover` after `mem` iterations, in terms of the specification:
the exchanges of the pairs completed so far have been applied, `first` counts the marks
and `one` is the last mark when their number is odd. -/
theorem crossover_loop_eq (P N : ℕ) (PXOVER : ℚ) (rand : ℕ → ℕ) (s : State)
    (hwf : well_formed P N s.population) (mem : ℕ) (hmem : mem ≤ P) (L : crossover_locals)
    (hL : L = for_loop 0 mem (fun mem (l : crossover_locals) =>
      let x := decision_draw (rand l.state.nrand)
      let s1 : State := { l.state with nrand := l.state.nrand + 1 }
      if x < PXOVER then
        if (l.first + 1) % 2 = 0 then
          ⟨__Xover N rand l.one mem s1, l.first + 1, l.one⟩
        else ⟨s1, l.first + 1, mem⟩
      else ⟨s1, l.first, l.one⟩) ⟨s, 0, 0⟩) :
    L.state = { s with
        nrand := s.nrand + mem
          + point_draws N (crossover_marks N PXOVER rand s.nrand mem).length,
        population := crossover_exchanges N rand s.nrand
          (crossover_marks N PXOVER rand s.nrand mem) s.population } ∧
    L.first = (crossover_marks N PXOVER rand s.nrand mem).length ∧
    ((crossover_marks N PXOVER rand s.nrand mem).length % 2 = 1 →
      L.one = (crossover_marks N PXOVER rand s.nrand mem).getD
        ((crossover_marks N PXOVER rand s.nrand mem).length - 1) 0) := by
  induction mem generalizing L with
  | zero =>
    subst hL
    simp [for_loop, crossover_marks, point_draws, crossover_exchanges]
  | succ k ih =>
    obtain ⟨hstate, hfirst, hone⟩ := ih (by omega) _ rfl
    obtain ⟨hlt, hsorted⟩ := crossover_marks_sorted N PXOVER rand s.nrand k
    rw [for_loop_succ _ _ _ _ (Nat.zero_le _)] at hL
    generalize for_loop 0 k (fun mem (l : crossover_locals) =>
      let x := decision_draw (rand l.state.nrand)
      let s1 : State := { l.state with nrand := l.state.nrand + 1 }
      if x < PXOVER then
        if (l.first + 1) % 2 = 0 then
          ⟨__Xover N rand l.one mem s1, l.first + 1, l.one⟩
        else ⟨s1, l.first + 1, mem⟩
      else ⟨s1, l.first, l.one⟩) ⟨s, 0, 0⟩ = L0 at hL hstate hfirst hone
    generalize hms : crossover_marks N PXOVER rand s.nrand k = ms at hstate hfirst hone hlt hsorted
    have hnr : L0.state.nrand = s.nrand + k + point_draws N ms.length := by rw [hstate]
    dsimp only at hL
    rw [hnr] at hL
    by_cases hmark : decision_draw (rand (s.nrand + k + point_draws N ms.length)) < PXOVER
    · have hms' : crossover_marks N PXOVER rand s.nrand (k + 1) = ms ++ [k] := by
        rw [crossover_marks_succ_pos N PXOVER rand s.nrand k (by rw [hms]; exact hmark), hms]
      have hlen' : (ms ++ [k]).length = ms.length + 1 := by simp
      rw [if_pos hmark, hfirst] at hL
      rw [hms', hlen']
      by_cases hpar : (ms.length + 1) % 2 = 0
      · have hodd : ms.length % 2 = 1 := by omega
        rw [if_pos hpar] at hL
        have hone' : L0.one = ms.getD (ms.length - 1) 0 := hone hodd
        have honelt : L0.one < k := by
          rw [hone']
          exact hlt _ (getD_mem ms _ (by omega))
        have hwf1 : well_formed P N
            ({ L0.state with
                nrand := s.nrand + k + point_draws N ms.length + 1 } : State).population := by
          simp only []
          rw [hstate]
          exact well_formed_crossover_exchanges P N rand s.nrand ms _
            (fun m hm => lt_of_lt_of_le (hlt m hm) (by omega)) hsorted hwf
        rw [Xover_eq P N rand L0.one k _ (by omega) (by omega) (by omega) hwf1] at hL
        have hcp : crossover_point N (rand (s.nrand + k + point_draws N ms.length + 1))
            = crossover_point N (rand (s.nrand + k + ms.length / 2 + 1)) := by
          by_cases hN : 2 < N
          · simp only [point_draws, hN, if_true]
          · exact crossover_point_small N _ _ hN
        have hpd : s.nrand + k + point_draws N ms.length + 1 + (if 2 < N then 1 else 0)
            = s.nrand + (k + 1) + point_draws N (ms.length + 1) := by
          unfold point_draws
          split_ifs
          · omega
          · omega
        subst hL
        refine ⟨?_, rfl, fun h => by omega⟩
        rw [crossover_exchanges_append_odd N rand s.nrand ms k _ hodd]
        simp only [hstate, hcp, hpd, hone']
      · have heven : ms.length % 2 = 0 := by omega
        rw [if_neg hpar] at hL
        have hpd : s.nrand + k + point_draws N ms.length + 1
            = s.nrand + (k + 1) + point_draws N (ms.length + 1) := by
          unfold point_draws
          split_ifs
          · omega
          · omega
        subst hL
        refine ⟨?_, rfl, fun _ => ?_⟩
        · rw [crossover_exchanges_append_even N rand s.nrand ms k _ heven]
          simp only [hstate, hpd]
        · rw [Nat.add_sub_cancel]
          exact (getD_append_last ms k).symm
    · have hms' : crossover_marks N PXOVER rand s.nrand (k + 1) = ms := by
        rw [crossover_marks_succ_neg N PXOVER rand s.nrand k (by rw [hms]; exact hmark), hms]
      rw [if_neg hmark] at hL
      rw [hms']
      have hpd : s.nrand + k + point_draws N ms.length + 1
          = s.nrand + (k + 1) + point_draws N ms.length := by omega
      subst hL
      exact ⟨by simp only [hstate, hpd], hfirst, hone⟩

/-- The function `__crossover` in terms of the specification: the exchanges of the pairs
of marked indices, `POPSIZE` decision draws and the crossover-point draws. -/
theorem crossover_eq (P N : ℕ) (PXOVER : ℚ) (rand : ℕ → ℕ) (s : State)
    (hwf : well_formed P N s.population) :
    __crossover P N PXOVER rand s =
      { s with
        nrand := s.nrand + P + point_draws N (crossover_marks N PXOVER rand s.nrand P).length,
        population := crossover_exchanges N rand s.nrand
          (crossover_marks N PXOVER rand s.nrand P) s.population } := by
  unfold __crossover
  exact (crossover_loop_eq P N PXOVER rand s hwf P (le_refl _) _ rfl).1

/-- An index is marked exactly when it is a working index whose decision draw is below
the crossover probability. -/
theorem mem_crossover_marks (N : ℕ) (PXOVER : ℚ) (rand : ℕ → ℕ) (n0 P m : ℕ) :
    m ∈ crossover_marks N PXOVER rand n0 P ↔
      (m < P ∧ decision_draw (rand (n0 + m
        + point_draws N (crossover_marks N PXOVER rand n0 m).length)) < PXOVER) := by
  induction P with
  | zero => simp [crossover_marks]
  | succ n ih =>
    by_cases hmark : decision_draw (rand (n0 + n
        + point_draws N (crossover_marks N PXOVER rand n0 n).length)) < PXOVER
    · rw [crossover_marks_succ_pos N PXOVER rand n0 n hmark, List.mem_append, ih,
        List.mem_singleton]
      constructor
      · rintro (⟨h1, h2⟩ | h)
        · exact ⟨by omega, h2⟩
        · subst h
          exact ⟨Nat.lt_succ_self _, hmark⟩
      · rintro ⟨h1, h2⟩
        rcases Nat.lt_succ_iff_lt_or_eq.mp h1 with h | h
        · exact Or.inl ⟨h, h2⟩
        · exact Or.inr h
    · rw [crossover_marks_succ_neg N PXOVER rand n0 n hmark, ih]
      constructor
      · rintro ⟨h1, h2⟩
        exact ⟨by omega, h2⟩
      · rintro ⟨h1, h2⟩
        rcases Nat.lt_succ_iff_lt_or_eq.mp h1 with h | h
        · exact ⟨h, h2⟩
        · subst h
          exact absurd h2 hmark

/-- With a crossover probability of 0 no index is marked. -/
theorem crossover_marks_zero (N : ℕ) (rand : ℕ → ℕ) (n0 P : ℕ) :
    crossover_marks N 0 rand n0 P = [] := by
  induction P with
  | zero => rfl
  | succ n ih =>
    rw [crossover_marks_succ_neg N 0 rand n0 n (not_lt.mpr (decision_draw_range _).1), ih]

/-- C12: let `ms` be the working indices whose decision draw in `__crossover` is below
the crossover probability, in increasing order.  The population after `__crossover` is
the result of the prefix exchanges of the pairs `(ms[0], ms[1])`, `(ms[2], ms[3])`, ...
applied in that order; the pairs consist of distinct working indices and every pair
lies before the next one, so each genotype takes part in at most one exchange; every
unmarked genotype and, when the number of marks is odd, the last marked one are
unchanged; with crossover probability 0 the population is unchanged. -/
theorem crossover_pairs_marked (P N : ℕ) (PXOVER : ℚ) (rand : ℕ → ℕ) (s : State)
    (hwf : well_formed P N s.population) :
    (crossover_marks N PXOVER rand s.nrand P).Pairwise (· < ·) ∧
    (∀ m, m ∈ crossover_marks N PXOVER rand s.nrand P ↔
      (m < P ∧ decision_draw (rand (s.nrand + m
        + point_draws N (crossover_marks N PXOVER rand s.nrand m).length)) < PXOVER)) ∧
    (__crossover P N PXOVER rand s).population =
      crossover_exchanges N rand s.nrand (crossover_marks N PXOVER rand s.nrand P)
        s.population ∧
    (∀ j, j < (crossover_marks N PXOVER rand s.nrand P).length / 2 →
      pair_first (crossover_marks N PXOVER rand s.nrand P) j
        < pair_second (crossover_marks N PXOVER rand s.nrand P) j ∧
      pair_second (crossover_marks N PXOVER rand s.nrand P) j < P) ∧
    (∀ j j', j < j' → j' < (crossover_marks N PXOVER rand s.nrand P).length / 2 →
      pair_second (crossover_marks N PXOVER rand s.nrand P) j
        < pair_first (crossover_marks N PXOVER rand s.nrand P) j') ∧
    (∀ i, i ∉ crossover_marks N PXOVER rand s.nrand P →
      rd (__crossover P N PXOVER rand s).population i = rd s.population i) ∧
    ((crossover_marks N PXOVER rand s.nrand P).length % 2 = 1 →
      rd (__crossover P N PXOVER rand s).population
          ((crossover_marks N PXOVER rand s.nrand P).getD
            ((crossover_marks N PXOVER rand s.nrand P).length - 1) 0)
        = rd s.population
          ((crossover_marks N PXOVER rand s.nrand P).getD
            ((crossover_marks N PXOVER rand s.nrand P).length - 1) 0)) ∧
    (PXOVER = 0 → (__crossover P N PXOVER rand s).population = s.population) := by
  obtain ⟨hlt, hsorted⟩ := crossover_marks_sorted N PXOVER rand s.nrand P
  have heq := crossover_eq P N PXOVER rand s hwf
  have hpop : (__crossover P N PXOVER rand s).population =
      crossover_exchanges N rand s.nrand (crossover_marks N PXOVER rand s.nrand P)
        s.population := by rw [heq]
  have hiff := mem_crossover_marks N PXOVER rand s.nrand P
  have hzero : PXOVER = 0 → (__crossover P N PXOVER rand s).population = s.population := by
    intro h
    subst h
    rw [hpop, crossover_marks_zero]
    rfl
  generalize crossover_marks N PXOVER rand s.nrand P = ms at hlt hsorted hpop hiff ⊢
  refine ⟨hsorted, hiff, hpop, fun j hj => pair_valid P ms hlt hsorted j hj, ?_, ?_, ?_,
    hzero⟩
  · intro j j' h1 h2
    unfold pair_first pair_second
    exact getD_lt_of_pairwise ms hsorted _ _ (by omega) (by omega)
  · intro i hi
    rw [hpop]
    apply crossover_exchanges_other
    intro j hj
    constructor
    · intro e
      exact hi (by rw [e]; exact getD_mem ms _ (by omega))
    · intro e
      exact hi (by rw [e]; exact getD_mem ms _ (by omega))
  · intro hodd
    rw [hpop]
    apply crossover_exchanges_other
    intro j hj
    constructor
    · exact ne_of_gt (getD_lt_of_pairwise ms hsorted _ _ (by omega) (by omega))
    · exact ne_of_gt (getD_lt_of_pairwise ms hsorted _ _ (by omega) (by omega))

/-- C12 on `small_state` with the constant random stream 0 (both members marked) and
crossover probability 0.8. -/
theorem crossover_pairs_marked_witness :
    well_formed 2 3 small_state.population ∧
    (crossover_marks 3 (4 / 5) (fun _ => 0) small_state.nrand 2).Pairwise (· < ·) ∧
    (∀ m, m ∈ crossover_marks 3 (4 / 5) (fun _ => 0) small_state.nrand 2 ↔
      (m < 2 ∧ decision_draw ((fun _ => 0) (small_state.nrand + m
        + point_draws 3
            (crossover_marks 3 (4 / 5) (fun _ => 0) small_state.nrand m).length))
        < 4 / 5)) ∧
    (__crossover 2 3 (4 / 5) (fun _ => 0) small_state).population =
      crossover_exchanges 3 (fun _ => 0) small_state.nrand
        (crossover_marks 3 (4 / 5) (fun _ => 0) small_state.nrand 2)
        small_state.population ∧
    (∀ j, j < (crossover_marks 3 (4 / 5) (fun _ => 0) small_state.nrand 2).length / 2 →
      pair_first (crossover_marks 3 (4 / 5) (fun _ => 0) small_state.nrand 2) j
        < pair_second (crossover_marks 3 (4 / 5) (fun _ => 0) small_state.nrand 2) j ∧
      pair_second (crossover_marks 3 (4 / 5) (fun _ => 0) small_state.nrand 2) j < 2) ∧
    (∀ j j', j < j' →
      j' < (crossover_marks 3 (4 / 5) (fun _ => 0) small_state.nrand 2).length / 2 →
      pair_second (crossover_marks 3 (4 / 5) (fun _ => 0) small_state.nrand 2) j
        < pair_first (crossover_marks 3 (4 / 5) (fun _ => 0) small_state.nrand 2) j') ∧
    (∀ i, i ∉ crossover_marks 3 (4 / 5) (fun _ => 0) small_state.nrand 2 →
      rd (__crossover 2 3 (4 / 5) (fun _ => 0) small_state).population i
        = rd small_state.population i) ∧
    ((crossover_marks 3 (4 / 5) (fun _ => 0) small_state.nrand 2).length % 2 = 1 →
      rd (__crossover 2 3 (4 / 5) (fun _ => 0) small_state).population
          ((crossover_marks 3 (4 / 5) (fun _ => 0) small_state.nrand 2).getD
            ((crossover_marks 3 (4 / 5) (fun _ => 0) small_state.nrand 2).length - 1) 0)
        = rd small_state.population
          ((crossover_marks 3 (4 / 5) (fun _ => 0) small_state.nrand 2).getD
            ((crossover_marks 3 (4 / 5) (fun _ => 0) small_state.nrand 2).length - 1) 0)) ∧
    ((4 / 5 : ℚ) = 0 →
      (__crossover 2 3 (4 / 5) (fun _ => 0) small_state).population
        = small_state.population) :=
  ⟨well_formed_small_state,
    crossover_pairs_marked 2 3 (4 / 5) (fun _ => 0) small_state well_formed_small_state⟩

/-! ## Calls of `rand ()` in one generation -/

/-- The function `__select` makes `POPSIZE` calls of `rand ()`. -/
theorem select_nrand (P : ℕ) (rand : ℕ → ℕ) (s : State) :
    (__select P rand s).nrand = s.nrand + P := by
  unfold __select select_copy_back
  have h1 : ∀ t : State, (for_loop 0 P (fun i (s : State) =>
      { s with population := s.population.set i (rd s.newpopulation i) }) t).nrand = t.nrand :=
    fun t => for_loop_keeps State.nrand _ _ _ _ (fun _ _ => rfl)
  rw [h1]
  unfold select_survivors
  exact for_loop_inv (fun k (t : State) => t.nrand = s.nrand + k) 0 P _ _ (Nat.zero_le _) rfl
    (fun k t _ _ h => by simp only [h]; omega)

/-- The function `__Xover` makes one call of `rand ()` when `NVARS > 2`, none otherwise. -/
theorem Xover_nrand (N : ℕ) (rand : ℕ → ℕ) (one two : ℕ) (s : State) :
    (__Xover N rand one two s).nrand = s.nrand + (if 2 < N then 1 else 0) := by
  unfold __Xover
  split_ifs with h1 h2 h3 h4
  · omega
  · exact for_loop_keeps State.nrand _ _ _ _ (fun _ _ => rfl)
  · exact for_loop_keeps State.nrand _ _ _ _ (fun _ _ => rfl)
  · omega
  · omega
  · rfl

/-- The calls of `rand ()` that `__crossover` makes: `POPSIZE` decision draws and one
crossover-point draw per completed pair of marked members when `NVARS > 2`. -/
theorem crossover_nrand (P N : ℕ) (PXOVER : ℚ) (rand : ℕ → ℕ) (s : State) :
    (__crossover P N PXOVER rand s).nrand
      = s.nrand + P + point_draws N (crossover_marks N PXOVER rand s.nrand P).length := by
  unfold __crossover
  have key := for_loop_inv (fun k (l : crossover_locals) =>
      l.state.nrand = s.nrand + k
        + point_draws N (crossover_marks N PXOVER rand s.nrand k).length ∧
      l.first = (crossover_marks N PXOVER rand s.nrand k).length) 0 P
    (fun mem (l : crossover_locals) =>
      let x := decision_draw (rand l.state.nrand)
      let s1 : State := { l.state with nrand := l.state.nrand + 1 }
      if x < PXOVER then
        if (l.first + 1) % 2 = 0 then
          ⟨__Xover N rand l.one mem s1, l.first + 1, l.one⟩
        else ⟨s1, l.first + 1, mem⟩
      else ⟨s1, l.first, l.one⟩) ⟨s, 0, 0⟩ (Nat.zero_le _)
    (by simp [crossover_marks, point_draws]) (by
      rintro k l - - ⟨hn, hf⟩
      dsimp only
      rw [hn]
      by_cases hmark : decision_draw (rand (s.nrand + k
          + point_draws N (crossover_marks N PXOVER rand s.nrand k).length)) < PXOVER
      · rw [if_pos hmark, crossover_marks_succ_pos N PXOVER rand s.nrand k hmark]
        have hlen : (crossover_marks N PXOVER rand s.nrand k ++ [k]).length
            = (crossover_marks N PXOVER rand s.nrand k).length + 1 := by simp
        rw [hlen, hf]
        split_ifs with hpar
        · refine ⟨?_, rfl⟩
          rw [Xover_nrand]
          unfold point_draws
          split_ifs <;> simp only [] <;> omega
        · refine ⟨?_, rfl⟩
          unfold point_draws
          split_ifs <;> simp only [] <;> omega
      · rw [if_neg hmark, crossover_marks_succ_neg N PXOVER rand s.nrand k hmark]
        exact ⟨by simp only []; omega, hf⟩)
  exact key.1

/-- The calls of `rand ()` that `__mutate` makes: one decision draw per gene and one
`__randval` draw per gene redrawn. -/
theorem mutate_nrand (P N : ℕ) (PMUTATION : ℚ) (rand : ℕ → ℕ) (s : State) :
    (__mutate P N PMUTATION rand s).nrand
      = s.nrand + P * N + mutation_count PMUTATION rand s.nrand (P * N) := by
  unfold __mutate
  refine for_loop_inv (fun i (t : State) =>
    t.nrand = s.nrand + i * N + mutation_count PMUTATION rand s.nrand (i * N)) 0 P _ _
    (Nat.zero_le _) (by simp [mutation_count]) ?_
  rintro i t - - hi
  have key := for_loop_inv (fun j (u : State) =>
    u.nrand = s.nrand + (i * N + j) + mutation_count PMUTATION rand s.nrand (i * N + j)) 0 N
    (fun j (s : State) =>
      let x := decision_draw (rand s.nrand)
      let s1 : State := { s with nrand := s.nrand + 1 }
      if x < PMUTATION then
        let lbound := rdq (rd s1.population i).lower j
        let hbound := rdq (rd s1.population i).upper j
        { s1 with nrand := s1.nrand + 1,
                  population := set_gene s1.population i j
                    (__randval (rand s1.nrand) lbound hbound) }
      else s1) t (Nat.zero_le _) (by simpa using hi) (by
      rintro j u - - hu
      dsimp only
      rw [hu]
      have e : i * N + (j + 1) = (i * N + j) + 1 := by omega
      rw [e, mutation_count]
      split_ifs
      · simp only []
        omega
      · simp only []
        omega)
  have e : (i + 1) * N = i * N + N := by ring
  rw [e]
  exact key

/-- C18, counterexample: on `small_state` (two members, three genes) with the constant
random stream 0 and mutation probability 0.15, every decision draw is 0, every gene is
redrawn and `__mutate` makes 12 calls of `rand ()`, not `POPSIZE * NVARS = 6`. -/
theorem mutate_draws_example :
    (__mutate 2 3 (3 / 20) (fun _ => 0) small_state).nrand = small_state.nrand + 12 ∧
    (__mutate 2 3 (3 / 20) (fun _ => 0) small_state).nrand ≠ small_state.nrand + 2 * 3 := by
  have h : (__mutate 2 3 (3 / 20) (fun _ => 0) small_state).nrand = small_state.nrand + 12 := by
    simp [__mutate, decision_draw, for_loop, small_state]
  exact ⟨h, by rw [h]; omega⟩

/-- C18, amended: for every state and every random stream, `__select` makes exactly
`POPSIZE` calls of `rand ()`; `__crossover` makes exactly `POPSIZE` decision draws plus
one crossover-point draw per completed pair of marked members when `NVARS > 2`
(`marks / 2` in all); `__mutate` makes exactly `POPSIZE * NVARS` decision draws plus
one `__randval` draw per gene it redraws; and one generation makes them in this order,
each operator starting where the one before stopped. -/
theorem generation_draws (P N : ℕ) (PXOVER PMUTATION : ℚ) (rand : ℕ → ℕ) (s : State) :
    (__select P rand s).nrand = s.nrand + P ∧
    (__crossover P N PXOVER rand s).nrand
      = s.nrand + P + point_draws N (crossover_marks N PXOVER rand s.nrand P).length ∧
    (2 < N → (__crossover P N PXOVER rand s).nrand
      = s.nrand + P + (crossover_marks N PXOVER rand s.nrand P).length / 2) ∧
    (__mutate P N PMUTATION rand s).nrand
      = s.nrand + P * N + mutation_count PMUTATION rand s.nrand (P * N) ∧
    (generation_evaluated P N PXOVER PMUTATION rand s).nrand
      = s.nrand + P
        + (P + point_draws N (crossover_marks N PXOVER rand (s.nrand + P) P).length)
        + (P * N + mutation_count PMUTATION rand
            (s.nrand + P
              + (P + point_draws N (crossover_marks N PXOVER rand (s.nrand + P) P).length))
            (P * N)) := by
  refine ⟨select_nrand P rand s, crossover_nrand P N PXOVER rand s, ?_,
    mutate_nrand P N PMUTATION rand s, ?_⟩
  · intro hN
    rw [crossover_nrand, point_draws, if_pos hN]
  · have h1 := select_nrand P rand { s with generation := s.generation + 1 }
    have h2 := crossover_nrand P N PXOVER rand
      (__select P rand { s with generation := s.generation + 1 })
    have h3 := mutate_nrand P N PMUTATION rand (__crossover P N PXOVER rand
      (__select P rand { s with generation := s.generation + 1 }))
    rw [h2, h1] at h3
    simp only [] at h3
    have ea : s.nrand + P + P
          + point_draws N (crossover_marks N PXOVER rand (s.nrand + P) P).length
        = s.nrand + P
          + (P + point_draws N (crossover_marks N PXOVER rand (s.nrand + P) P).length) := by
      omega
    rw [ea] at h3
    have e1 : (generation_evaluated P N PXOVER PMUTATION rand s).nrand
        = (__mutate P N PMUTATION rand (__crossover P N PXOVER rand
            (__select P rand { s with generation := s.generation + 1 }))).nrand := rfl
    rw [e1, h3, Nat.add_assoc]

/-- C18, amended, on `small_state` with the constant random stream 0: three genes, so
`__crossover` makes one crossover-point draw per completed pair. -/
theorem generation_draws_witness :
    2 < 3 ∧
    (__crossover 2 3 (4 / 5) (fun _ => 0) small_state).nrand
      = small_state.nrand + 2
        + (crossover_marks 3 (4 / 5) (fun _ => 0) small_state.nrand 2).length / 2 :=
  ⟨by decide,
    (generation_draws 2 3 (4 / 5) (3 / 20) (fun _ => 0) small_state).2.2.1 (by decide)⟩

/-! ## The order of the operators in the loop of `main` -/

/-- The function `__Xover` writes no fitness. -/
theorem Xover_fitness (N : ℕ) (rand : ℕ → ℕ) (one two : ℕ) (s : State) :
    ∀ j, (rd (__Xover N rand one two s).population j).fitness = (rd s.population j).fitness := by
  have hloop : ∀ (k : ℕ) (t : State), ∀ j, (rd (for_loop 0 k (fun i (s : State) =>
      let w := __swap (rdq (rd s.population one).gene i) (rdq (rd s.population two).gene i)
      let pop1 := set_gene s.population one i w.1
      { s with population := set_gene pop1 two i w.2 }) t).population j).fitness
      = (rd t.population j).fitness := by
    intro k t
    refine for_loop_inv (fun _ (u : State) =>
      ∀ j, (rd u.population j).fitness = (rd t.population j).fitness) 0 k _ t
      (Nat.zero_le _) (fun _ => rfl) ?_
    rintro i u - - h j
    simp only []
    rw [rd_set_gene_fitness, rd_set_gene_fitness, h]
  unfold __Xover
  split_ifs
  · exact hloop _ _
  · exact hloop _ _
  · exact fun _ => rfl

/-- The function `__crossover` writes no fitness. -/
theorem crossover_fitness (P N : ℕ) (PXOVER : ℚ) (rand : ℕ → ℕ) (s : State) :
    ∀ j, (rd (__crossover P N PXOVER rand s).population j).fitness
      = (rd s.population j).fitness := by
  unfold __crossover
  refine for_loop_inv (fun _ (l : crossover_locals) =>
    ∀ j, (rd l.state.population j).fitness = (rd s.population j).fitness) 0 P _ _
    (Nat.zero_le _) (fun _ => rfl) ?_
  rintro i l - - h j
  dsimp only
  split_ifs
  · rw [Xover_fitness]
    exact h j
  · exact h j
  · exact h j

/-- The function `__mutate` writes no fitness. -/
theorem mutate_fitness (P N : ℕ) (PMUTATION : ℚ) (rand : ℕ → ℕ) (s : State) :
    ∀ j, (rd (__mutate P N PMUTATION rand s).population j).fitness
      = (rd s.population j).fitness := by
  unfold __mutate
  refine for_loop_inv (fun _ (t : State) =>
    ∀ j, (rd t.population j).fitness = (rd s.population j).fitness) 0 P _ _
    (Nat.zero_le _) (fun _ => rfl) ?_
  rintro i t - - h
  refine for_loop_inv (fun _ (u : State) =>
    ∀ j, (rd u.population j).fitness = (rd s.population j).fitness) 0 N _ _
    (Nat.zero_le _) h ?_
  rintro k u - - hu j
  dsimp only
  split_ifs
  · simp only []
    rw [rd_set_gene_fitness]
    exact hu j
  · exact hu j

/-- The line that `__report` appends: the generation counter, the archive fitness and
the mean of the fitness fields of the working population as they are at the call. -/
theorem report_line_eq (P : ℕ) (s : State) :
    ∃ line : report_line, (__report P s).galog = s.galog ++ [line] ∧
      line.generation = s.generation ∧
      line.best_val = (rd s.population P).fitness ∧
      line.avg = (∑ i in Finset.range P, (rd s.population i).fitness) / (P : ℚ) := by
  refine ⟨_, rfl, rfl, rfl, ?_⟩
  simp only []
  congr 1
  have key : ∀ n, (for_loop 0 n (fun i (t : ℚ × ℚ) =>
      (t.1 + (rd s.population i).fitness,
       t.2 + (rd s.population i).fitness * (rd s.population i).fitness)) (0, 0)).1
      = ∑ i in Finset.range n, (rd s.population i).fitness := by
    intro n
    induction n with
    | zero => simp [for_loop]
    | succ m ih =>
      rw [for_loop_succ _ _ _ _ (Nat.zero_le _), Finset.sum_range_succ, ← ih]
  exact key P

/-- After `g` passes of the loop of `main` the generation counter is `g`. -/
theorem reachable_generation (P N : ℕ) (PXOVER PMUTATION : ℚ) (rand : ℕ → ℕ)
    (nums : List ℚ) (g : ℕ) :
    ∀ sg, after_generation P N PXOVER PMUTATION rand (some nums) g = some sg →
      sg.generation = g := by
  induction g with
  | zero =>
    intro sg hsg
    unfold after_generation best_captured first_evaluated at hsg
    cases hi : __initialize P N rand (some nums) (start_state P N) with
    | none => rw [hi] at hsg; exact absurd hsg (by simp)
    | some s1 =>
      rw [hi] at hsg
      have e := (Option.some.inj hsg).symm
      subst e
      rw [(keep_the_best_keeps P N _).2.1]
      show s1.generation = 0
      rw [(initialize_keeps P N rand nums _ s1 hi).2.1]
      rfl
  | succ g ih =>
    intro sg hsg
    unfold after_generation at hsg
    cases hprev : after_generation P N PXOVER PMUTATION rand (some nums) g with
    | none => rw [hprev] at hsg; exact absurd hsg (by simp)
    | some sp =>
      rw [hprev] at hsg
      have hstep : __elitist P N (generation_evaluated P N PXOVER PMUTATION rand sp)
          = some sg := hsg
      rw [(elitist_keeps P N _ sg hstep).2.1]
      show (__mutate P N PMUTATION rand _).generation = g + 1
      rw [(mutate_keeps P N PMUTATION rand _).2.1, (crossover_keeps P N PXOVER rand _).2.1,
        (select_keeps P rand _).1]
      simp only []
      rw [ih sp hprev]

/-- C15, amended: one pass of the loop of `main` runs `__select`, `__crossover`,
`__mutate`, `__report`, `__evaluate`, `__elitist` in this order (the report comes before
the evaluation).  So the line reported in generation `g + 1` carries that generation
number, as best fitness the archive fitness after the elitism check of generation `g`
(after the first-best capture for `g = 0`), and as mean the mean of the fitness fields
of the working population after the selection of generation `g + 1`, which that
generation's `__evaluate` has not yet recomputed. -/
theorem report_before_evaluation (P N : ℕ) (PXOVER PMUTATION : ℚ) (rand : ℕ → ℕ)
    (nums : List ℚ) (g : ℕ) (s : State) (hP : 2 ≤ P)
    (hreach : after_generation P N PXOVER PMUTATION rand (some nums) g = some s) :
    generation_step P N PXOVER PMUTATION rand s =
      __elitist P N (__evaluate P N (__report P (__mutate P N PMUTATION rand
        (__crossover P N PXOVER rand
          (__select P rand { s with generation := s.generation + 1 }))))) ∧
    ∃ s' line, after_generation P N PXOVER PMUTATION rand (some nums) (g + 1) = some s' ∧
      s'.galog = s.galog ++ [line] ∧
      line.generation = g + 1 ∧
      line.best_val = (rd s.population P).fitness ∧
      line.avg = (∑ i in Finset.range P,
        (rd (__select P rand { s with generation := s.generation + 1 }).population i).fitness)
          / (P : ℚ) := by
  refine ⟨rfl, ?_⟩
  obtain ⟨hlen, -, -⟩ := reachable_archive_cfitness P N PXOVER PMUTATION rand nums
    (by omega) g s hreach
  have hgen := reachable_generation P N PXOVER PMUTATION rand nums g s hreach
  obtain ⟨a1, a2⟩ := generation_evaluated_same_archive P N PXOVER PMUTATION rand s (by omega)
  obtain ⟨s', hel, -, -⟩ := elitist_archive_fitness P N
    (generation_evaluated P N PXOVER PMUTATION rand s) hP (by rw [a1, hlen])
  obtain ⟨line, hl1, hl2, hl3, hl4⟩ := report_line_eq P (__mutate P N PMUTATION rand
    (__crossover P N PXOVER rand (__select P rand { s with generation := s.generation + 1 })))
  refine ⟨s', line, ?_, ?_, ?_, ?_, ?_⟩
  · rw [after_generation, hreach]
    exact hel
  · rw [(elitist_keeps P N _ s' hel).2.2.2.1]
    show (__report P _).galog = s.galog ++ [line]
    rw [hl1, (mutate_keeps P N PMUTATION rand _).2.2.2,
      (crossover_keeps P N PXOVER rand _).2.2.2, (select_keeps P rand _).2.2.1]
  · rw [hl2, (mutate_keeps P N PMUTATION rand _).2.1, (crossover_keeps P N PXOVER rand _).2.1,
      (select_keeps P rand _).1]
    simp only []
    rw [hgen]
  · rw [hl3, (mutate_same_archive P N PMUTATION rand _).2,
      (crossover_same_archive P N PXOVER rand _).2,
      (select_same_archive P rand _ (by omega)).2]
  · rw [hl4]
    congr 1
    apply Finset.sum_congr rfl
    intro i _
    rw [mutate_fitness, crossover_fitness]

theorem best_captured_improving :
    best_captured 2 3 improving_stream (some small_infile) =
      some ⟨[⟨[1, 0, 1], 2, [2, 1, 2], [1, 0, 1], 0, 0⟩,
             ⟨[1, 0, 1], 2, [2, 1, 2], [1, 0, 1], 0, 0⟩,
             ⟨[1, 0, 1], 2, [0, 0, 0], [0, 0, 0], 0, 0⟩],
            [zero_genotype 3, zero_genotype 3, zero_genotype 3], 0, 0, 6, []⟩ := by
  simp [best_captured, first_evaluated, __initialize, __evaluate, start_state, for_loop,
    small_infile, zero_genotype, rd, rdq, set_fitness, __randval, improving_stream,
    __keep_the_best, copy_genes, set_gene]
  norm_num

theorem evaluated_in_improving :
    evaluated_in 2 3 (4 / 5) (3 / 20) improving_stream (some small_infile) 1
      = some improving_evaluated := by
  rw [evaluated_in, after_generation, best_captured_improving]
  simp [generation_evaluated, __select, select_copy_back, select_survivors, select_fitness,
    select_cumulative, select_relative, select_sum, select_scan, select_draw,
    __crossover, __Xover, Xover_point, __swap, decision_draw, __mutate, __report, __evaluate,
    for_loop, zero_genotype, rd, rdq, set_fitness, set_gene, __randval, improving_stream,
    improving_evaluated]
  norm_num

theorem after_generation_improving :
    after_generation 2 3 (4 / 5) (3 / 20) improving_stream (some small_infile) 1
      = some improving_state := by
  have h := evaluated_in_improving
  rw [evaluated_in] at h
  rw [after_generation]
  cases hp : after_generation 2 3 (4 / 5) (3 / 20) improving_stream (some small_infile) 0 with
  | none => rw [hp] at h; exact absurd h (by simp)
  | some sp =>
    rw [hp] at h
    have he := Option.some.inj h
    simp only [Option.bind, generation_step]
    rw [he]
    simp [__elitist, elitist_scan, copy_genes, for_loop, rd, rdq, set_fitness, set_gene,
      improving_state, improving_evaluated]
    norm_num

/-- C15, counterexample: on the run with two genotypes of three genes read from
`small_infile` and the random stream `improving_stream`, the line reported for
generation 1 carries best fitness 2 and mean 2, while the archive fitness after the
elitism check of generation 1 is 3 and the mean of the fitness values computed by the
evaluator in generation 1 is 3. -/
theorem report_stale_example :
    ∃ s e line,
      after_generation 2 3 (4 / 5) (3 / 20) improving_stream (some small_infile) 1 = some s ∧
      evaluated_in 2 3 (4 / 5) (3 / 20) improving_stream (some small_infile) 1 = some e ∧
      s.galog = [line] ∧ line.generation = 1 ∧
      line.best_val = 2 ∧ (rd s.population 2).fitness = 3 ∧
      line.avg = 2 ∧
      (∑ i in Finset.range 2, (rd e.population i).fitness) / ((2 : ℕ) : ℚ) = 3 := by
  refine ⟨improving_state, improving_evaluated, ⟨1, 2, 2, 0⟩, after_generation_improving,
    evaluated_in_improving, rfl, rfl, rfl, ?_, rfl, ?_⟩
  · simp [improving_state, rd]
  · simp [improving_evaluated, rd, Finset.sum_range_succ]

/-- C15, amended, on the state after generation 1 of the run on `improving_stream`. -/
theorem report_before_evaluation_witness :
    2 ≤ 2 ∧
    after_generation 2 3 (4 / 5) (3 / 20) improving_stream (some small_infile) 1
      = some improving_state ∧
    generation_step 2 3 (4 / 5) (3 / 20) improving_stream improving_state =
      __elitist 2 3 (__evaluate 2 3 (__report 2 (__mutate 2 3 (3 / 20) improving_stream
        (__crossover 2 3 (4 / 5) improving_stream
          (__select 2 improving_stream
            { improving_state with generation := improving_state.generation + 1 }))))) ∧
    ∃ s' line,
      after_generation 2 3 (4 / 5) (3 / 20) improving_stream (some small_infile) (1 + 1)
        = some s' ∧
      s'.galog = improving_state.galog ++ [line] ∧
      line.generation = 1 + 1 ∧
      line.best_val = (rd improving_state.population 2).fitness ∧
      line.avg = (∑ i in Finset.range 2,
        (rd (__select 2 improving_stream
          { improving_state with generation := improving_state.generation + 1 }).population
            i).fitness) / ((2 : ℕ) : ℚ) :=
  ⟨by decide, after_generation_improving,
    report_before_evaluation 2 3 (4 / 5) (3 / 20) improving_stream small_infile 1
      improving_state (by decide) after_generation_improving⟩

/-! ## The bound invariant -/

theorem randval_range (r : ℕ) (low high : ℚ) (h : low ≤ high) :
    low ≤ __randval r low high ∧ __randval r low high ≤ high := by
  unfold __randval
  have hr : r % 1000 < 1000 := Nat.mod_lt _ (by norm_num)
  have h0 : (0 : ℚ) ≤ ((r % 1000 : ℕ) : ℚ) / 1000 := by positivity
  have h1 : ((r % 1000 : ℕ) : ℚ) / 1000 ≤ 1 := by
    rw [div_le_one (by norm_num)]
    exact_mod_cast le_of_lt hr
  constructor
  · nlinarith [mul_nonneg h0 (sub_nonneg.mpr h)]
  · nlinarith [mul_nonneg (sub_nonneg.mpr h1) (sub_nonneg.mpr h)]

theorem rd_set (a : List genotype) (i j : ℕ) (v : genotype) :
    rd (a.set i v) j = if i = j ∧ i < a.length then v else rd a j := by
  by_cases h : i = j
  · subst h
    by_cases hl : i < a.length
    · simp [rd_set_eq _ _ _ hl, hl]
    · rw [List.set_eq_of_length_le (by omega)]
      simp [hl]
  · rw [rd_set_ne _ _ _ _ h]
    simp [h]

theorem rdq_set (a : List ℚ) (i j : ℕ) (v : ℚ) :
    rdq (a.set i v) j = if i = j ∧ i < a.length then v else rdq a j := by
  by_cases h : i = j
  · subst h
    by_cases hl : i < a.length
    · simp [rdq_set_eq _ _ _ hl, hl]
    · rw [List.set_eq_of_length_le (by omega)]
      simp [hl]
  · rw [rdq_set_ne _ _ _ _ h]
    simp [h]

/-- Writing a value within the bounds into a gene of a working genotype keeps the bound
invariant. -/
theorem within_bounds_set_gene (P N : ℕ) (lo hi : ℕ → ℚ) (pop : List genotype) (m j : ℕ)
    (v : ℚ) (hm : m < P) (hv : lo j ≤ v ∧ v ≤ hi j)
    (hb : within_bounds P N lo hi pop) : within_bounds P N lo hi (set_gene pop m j v) := by
  obtain ⟨hw, ha⟩ := hb
  unfold set_gene
  constructor
  · intro m' hm' i hi
    rw [rd_set]
    split_ifs with h
    · obtain ⟨rfl, -⟩ := h
      obtain ⟨h1, h2, h3, h4⟩ := hw m hm i hi
      refine ⟨h1, h2, ?_, ?_⟩
      · show rdq (rd pop m).lower i ≤ rdq ((rd pop m).gene.set j v) i
        rw [rdq_set]
        split_ifs with h'
        · obtain ⟨rfl, -⟩ := h'
          rw [h1]; exact hv.1
        · exact h3
      · show rdq ((rd pop m).gene.set j v) i ≤ rdq (rd pop m).upper i
        rw [rdq_set]
        split_ifs with h'
        · obtain ⟨rfl, -⟩ := h'
          rw [h2]; exact hv.2
        · exact h4
    · exact hw m' hm' i hi
  · intro i hi
    rw [rd_set_ne _ _ _ _ (by omega : m ≠ P)]
    exact ha i hi

/-- The bound invariant depends only on the genes and bounds of the entries. -/
theorem within_bounds_congr (P N : ℕ) (lo hi : ℕ → ℚ) (pop pop' : List genotype)
    (h : ∀ m, m ≤ P → (rd pop' m).gene = (rd pop m).gene ∧
      (rd pop' m).lower = (rd pop m).lower ∧ (rd pop' m).upper = (rd pop m).upper)
    (hb : within_bounds P N lo hi pop) : within_bounds P N lo hi pop' := by
  obtain ⟨hw, ha⟩ := hb
  constructor
  · intro m hm i hi
    obtain ⟨h1, h2, h3⟩ := h m (by omega)
    rw [h1, h2, h3]
    exact hw m hm i hi
  · intro i hi
    rw [(h P (le_refl _)).1]
    exact ha i hi

theorem mutate_within_bounds (P N : ℕ) (PMUTATION : ℚ) (rand : ℕ → ℕ) (lo hi : ℕ → ℚ)
    (s : State) (hb : within_bounds P N lo hi s.population) :
    within_bounds P N lo hi (__mutate P N PMUTATION rand s).population := by
  unfold __mutate
  refine for_loop_inv (fun _ (t : State) => within_bounds P N lo hi t.population) 0 P _ s
    (Nat.zero_le _) hb ?_
  intro i t _ hiP ht
  refine for_loop_inv (fun _ (u : State) => within_bounds P N lo hi u.population) 0 N _ t
    (Nat.zero_le _) ht ?_
  intro j u _ hj hu
  dsimp only
  split_ifs
  · apply within_bounds_set_gene P N lo hi _ i j _ hiP _ hu
    obtain ⟨h1, h2, h3, h4⟩ := hu.1 i hiP j hj
    have := randval_range (rand (u.nrand + 1)) (rdq (rd u.population i).lower j)
      (rdq (rd u.population i).upper j) (le_trans h3 h4)
    rw [h1, h2] at this
    rw [h1, h2]
    exact this
  · exact hu

theorem rd_set_fitness_fields (q : List genotype) (m j : ℕ) (v : ℚ) :
    (rd (set_fitness q m v) j).gene = (rd q j).gene ∧
    (rd (set_fitness q m v) j).lower = (rd q j).lower ∧
    (rd (set_fitness q m v) j).upper = (rd q j).upper := by
  unfold set_fitness
  rw [rd_set]
  split_ifs with h
  · obtain ⟨rfl, -⟩ := h
    exact ⟨rfl, rfl, rfl⟩
  · exact ⟨rfl, rfl, rfl⟩

theorem evaluate_fields (P N : ℕ) (s : State) (j : ℕ) :
    (rd (__evaluate P N s).population j).gene = (rd s.population j).gene ∧
    (rd (__evaluate P N s).population j).lower = (rd s.population j).lower ∧
    (rd (__evaluate P N s).population j).upper = (rd s.population j).upper := by
  unfold __evaluate
  refine for_loop_inv (fun _ (t : List genotype × List ℚ) =>
    (rd t.1 j).gene = (rd s.population j).gene ∧
    (rd t.1 j).lower = (rd s.population j).lower ∧
    (rd t.1 j).upper = (rd s.population j).upper) 0 P _ _ (Nat.zero_le _) ⟨rfl, rfl, rfl⟩ ?_
  intro i t _ _ ht
  dsimp only
  obtain ⟨a1, a2, a3⟩ := rd_set_fitness_fields t.1 i j
    (rdq (for_loop 0 N (fun k (x : List ℚ) => x.set (k + 1) (rdq (rd t.1 i).gene k)) t.2) 1 *
        rdq (for_loop 0 N (fun k (x : List ℚ) => x.set (k + 1) (rdq (rd t.1 i).gene k)) t.2) 1 -
      rdq (for_loop 0 N (fun k (x : List ℚ) => x.set (k + 1) (rdq (rd t.1 i).gene k)) t.2) 1 *
        rdq (for_loop 0 N (fun k (x : List ℚ) => x.set (k + 1) (rdq (rd t.1 i).gene k)) t.2) 2 +
      rdq (for_loop 0 N (fun k (x : List ℚ) => x.set (k + 1) (rdq (rd t.1 i).gene k)) t.2) 3)
  exact ⟨a1.trans ht.1, a2.trans ht.2.1, a3.trans ht.2.2⟩

theorem evaluate_within_bounds (P N : ℕ) (lo hi : ℕ → ℚ) (s : State)
    (hb : within_bounds P N lo hi s.population) :
    within_bounds P N lo hi (__evaluate P N s).population :=
  within_bounds_congr P N lo hi _ _ (fun m _ => evaluate_fields P N s m) hb

theorem select_within_bounds (P : ℕ) (N : ℕ) (rand : ℕ → ℕ) (lo hi : ℕ → ℚ) (s : State)
    (hP : 1 ≤ P) (hlen : s.population.length = P + 1)
    (hnew : s.newpopulation.length = P + 1)
    (hpos : ∀ m, m < P → 0 < (rd s.population m).fitness)
    (hb : within_bounds P N lo hi s.population) :
    within_bounds P N lo hi (__select P rand s).population := by
  have hS := select_sum_pos P s.population hP hpos
  obtain ⟨hlast, hmono⟩ := select_fitness_last_mono P s.population hP hlen
    (fun i h => le_of_lt (hpos i h)) hS
  obtain ⟨-, hq, -⟩ := select_fitness_spec P s.population hP (by omega)
  obtain ⟨-, -, -, hsel, -⟩ := select_spec P rand s hP hlen hnew
  obtain ⟨hw, ha⟩ := hb
  constructor
  · intro m hm
    obtain ⟨j, hj, -, -, h3⟩ := select_scan_least P (select_fitness P s.population)
      (select_draw (rand (s.nrand + m))) (rd s.newpopulation m) hP hmono
      (by rw [hlast]; exact (select_draw_range _).2)
    rw [hsel m hm, h3, hq j hj]
    exact hw j hj
  · intro i h
    rw [(select_same_archive P rand s hP).2]
    exact ha i h

theorem within_bounds_prefix_exchange (P N k one two : ℕ) (lo hi : ℕ → ℚ)
    (pop : List genotype) (h12 : one ≠ two) (h1 : one < P) (h2 : two < P) (hk : k ≤ N)
    (hwf : well_formed P N pop) (hb : within_bounds P N lo hi pop) :
    within_bounds P N lo hi (prefix_exchange k one two pop) := by
  obtain ⟨hlen, hgene⟩ := hwf
  obtain ⟨hw, ha⟩ := hb
  have g1 := hgene one (by omega)
  have g2 := hgene two (by omega)
  constructor
  · intro m hm i h
    obtain ⟨a1, a2, a3, a4⟩ := hw one h1 i h
    obtain ⟨b1, b2, b3, b4⟩ := hw two h2 i h
    by_cases e1 : m = one
    · subst e1
      rw [rd_prefix_exchange_one _ _ _ _ h12 (by omega)]
      refine ⟨a1, a2, ?_, ?_⟩
      · show rdq (rd pop m).lower i
          ≤ rdq ((rd pop two).gene.take k ++ (rd pop m).gene.drop k) i
        rw [rdq_take_append_drop _ _ _ _ (by omega)]
        split_ifs
        · rw [a1, ← b1]; exact b3
        · exact a3
      · show rdq ((rd pop two).gene.take k ++ (rd pop m).gene.drop k) i
          ≤ rdq (rd pop m).upper i
        rw [rdq_take_append_drop _ _ _ _ (by omega)]
        split_ifs
        · rw [a2, ← b2]; exact b4
        · exact a4
    · by_cases e2 : m = two
      · subst e2
        rw [rd_prefix_exchange_two _ _ _ _ h12 (by omega)]
        refine ⟨b1, b2, ?_, ?_⟩
        · show rdq (rd pop m).lower i
            ≤ rdq ((rd pop one).gene.take k ++ (rd pop m).gene.drop k) i
          rw [rdq_take_append_drop _ _ _ _ (by omega)]
          split_ifs
          · rw [b1, ← a1]; exact a3
          · exact b3
        · show rdq ((rd pop one).gene.take k ++ (rd pop m).gene.drop k) i
            ≤ rdq (rd pop m).upper i
          rw [rdq_take_append_drop _ _ _ _ (by omega)]
          split_ifs
          · rw [b2, ← a2]; exact a4
          · exact b4
      · rw [rd_prefix_exchange_other _ _ _ _ _ e1 e2]
        exact hw m hm i h
  · intro i h
    rw [rd_prefix_exchange_other _ _ _ _ _ (by omega) (by omega)]
    exact ha i h

theorem crossover_within_bounds (P N : ℕ) (PXOVER : ℚ) (rand : ℕ → ℕ) (lo hi : ℕ → ℚ)
    (s : State) (hwf : well_formed P N s.population)
    (hb : within_bounds P N lo hi s.population) :
    within_bounds P N lo hi (__crossover P N PXOVER rand s).population := by
  rw [crossover_eq P N PXOVER rand s hwf]
  show within_bounds P N lo hi (crossover_exchanges N rand s.nrand
    (crossover_marks N PXOVER rand s.nrand P) s.population)
  obtain ⟨hlt, hs⟩ := crossover_marks_sorted N PXOVER rand s.nrand P
  generalize crossover_marks N PXOVER rand s.nrand P = ms at hlt hs
  unfold crossover_exchanges
  refine (for_loop_inv (fun k (q : List genotype) => k ≤ ms.length / 2 →
    well_formed P N q ∧ within_bounds P N lo hi q)
    0 (ms.length / 2) _ s.population (Nat.zero_le _) (fun _ => ⟨hwf, hb⟩) ?_ (le_refl _)).2
  rintro k q - hk ih -
  obtain ⟨h1, h2⟩ := pair_valid P ms hlt hs k hk
  obtain ⟨w, b⟩ := ih (by omega)
  exact ⟨well_formed_prefix_exchange P N _ _ _ q (by omega) (by omega) h2
      (crossover_point_le _ _) w,
    within_bounds_prefix_exchange P N _ _ _ lo hi q (by omega) (by omega) h2
      (crossover_point_le _ _) w b⟩

theorem elitist_within_bounds (P N : ℕ) (lo hi : ℕ → ℚ) (s : State) (hP : 2 ≤ P)
    (hwf : well_formed P N s.population) (hb : within_bounds P N lo hi s.population) :
    ∃ s', __elitist P N s = some s' ∧ within_bounds P N lo hi s'.population := by
  obtain ⟨b, w, ⟨hbP, -⟩, ⟨hwP, -⟩, he⟩ := elitist_closed_form P N s hP hwf
  obtain ⟨hlen, -⟩ := hwf
  obtain ⟨hw, ha⟩ := hb
  refine ⟨_, he, ?_⟩
  split_ifs
  · constructor
    · intro m hm
      show member_within N lo hi (rd (s.population.set P _) m)
      rw [rd_set_ne _ _ _ _ (by omega : P ≠ m)]
      exact hw m hm
    · intro i h
      show lo i ≤ rdq (rd (s.population.set P _) P).gene i ∧
        rdq (rd (s.population.set P _) P).gene i ≤ hi i
      rw [rd_set_eq _ _ _ (by omega)]
      obtain ⟨a1, a2, a3, a4⟩ := hw b hbP i h
      exact ⟨a1 ▸ a3, a2 ▸ a4⟩
  · constructor
    · intro m hm i h
      show _ ∧ _ ∧ rdq (rd (s.population.set w _) m).lower i
          ≤ rdq (rd (s.population.set w _) m).gene i ∧
        rdq (rd (s.population.set w _) m).gene i ≤ rdq (rd (s.population.set w _) m).upper i
      by_cases e : w = m
      · subst e
        rw [rd_set_eq _ _ _ (by omega)]
        obtain ⟨a1, a2, -, -⟩ := hw w hwP i h
        refine ⟨a1, a2, ?_, ?_⟩
        · show rdq (rd s.population w).lower i ≤ rdq (rd s.population P).gene i
          rw [a1]; exact (ha i h).1
        · show rdq (rd s.population P).gene i ≤ rdq (rd s.population w).upper i
          rw [a2]; exact (ha i h).2
      · rw [rd_set_ne _ _ _ _ e]
        exact hw m hm i h
    · intro i h
      show lo i ≤ rdq (rd (s.population.set w _) P).gene i ∧
        rdq (rd (s.population.set w _) P).gene i ≤ hi i
      rw [rd_set_ne _ _ _ _ (by omega : w ≠ P)]
      exact ha i h

theorem file_read (nums : List ℚ) (k : ℕ) (d : ℚ) (h : k < nums.length) :
    (nums.get? k).getD d = rdq nums k := by
  simp [rdq, List.getD_eq_getElem?_getD, List.getElem?_eq_getElem h]

/-- After `__initialize` on the start state with a file of `NVARS` ordered bound pairs,
the arrays have their sizes and every working genotype carries the bounds of the file
and has every gene within them. -/
theorem initialize_working_within (P N : ℕ) (rand : ℕ → ℕ) (nums : List ℚ)
    (hnum : 2 * N ≤ nums.length)
    (hord : ∀ i, i < N → rdq nums (2 * i) ≤ rdq nums (2 * i + 1)) :
    ∃ s1, __initialize P N rand (some nums) (start_state P N) = some s1 ∧
      well_formed P N s1.population ∧
      ∀ m, m < P → member_within N (fun i => rdq nums (2 * i)) (fun i => rdq nums (2 * i + 1))
        (rd s1.population m) := by
  refine ⟨_, rfl, ?_⟩
  have key := for_loop_inv (fun k (t : State × ℚ × ℚ) =>
    t.1.population.length = P + 1 ∧
    (∀ m, m ≤ P → (rd t.1.population m).gene.length = N ∧
      (rd t.1.population m).lower.length = N ∧ (rd t.1.population m).upper.length = N) ∧
    ∀ m, m < P → ∀ i, i < k →
      rdq (rd t.1.population m).lower i = rdq nums (2 * i) ∧
      rdq (rd t.1.population m).upper i = rdq nums (2 * i + 1) ∧
      rdq (rd t.1.population m).lower i ≤ rdq (rd t.1.population m).gene i ∧
      rdq (rd t.1.population m).gene i ≤ rdq (rd t.1.population m).upper i) 0 N
    (fun i (t : State × ℚ × ℚ) =>
      let lbound := (nums.get? (2 * i)).getD t.2.1
      let ubound := (nums.get? (2 * i + 1)).getD t.2.2
      (for_loop 0 P (fun j (s : State) =>
        let g := rd s.population j
        let g1 : genotype :=
          { g with fitness := 0, rfitness := 0, cfitness := 0,
                   lower := g.lower.set i lbound, upper := g.upper.set i ubound }
        let g2 : genotype :=
          { g1 with gene := g1.gene.set i
                      (__randval (rand s.nrand) (rdq g1.lower i) (rdq g1.upper i)) }
        { s with population := s.population.set j g2, nrand := s.nrand + 1 }) t.1,
       lbound, ubound)) (start_state P N, 0, 0) (Nat.zero_le _) ?_ ?_
  · obtain ⟨k1, k2, k3⟩ := key
    exact ⟨⟨k1, fun m hm => (k2 m hm).1⟩, fun m hm i h => k3 m hm i h⟩
  · refine ⟨by simp [start_state], ?_, fun m _ i h => absurd h (Nat.not_lt_zero _)⟩
    intro m hm
    simp only [start_state]
    rw [rd_replicate _ _ _ (by omega)]
    simp [zero_genotype]
  · intro i t _ hiN ⟨hl, hsz, hok⟩
    dsimp only
    rw [file_read nums (2 * i) _ (by omega), file_read nums (2 * i + 1) _ (by omega)]
    have inner := for_loop_inv (fun j (u : State) =>
      u.population.length = P + 1 ∧
      (∀ m, m ≤ P → (rd u.population m).gene.length = N ∧
        (rd u.population m).lower.length = N ∧ (rd u.population m).upper.length = N) ∧
      (∀ m, m < P → ∀ k, k < i →
        rdq (rd u.population m).lower k = rdq nums (2 * k) ∧
        rdq (rd u.population m).upper k = rdq nums (2 * k + 1) ∧
        rdq (rd u.population m).lower k ≤ rdq (rd u.population m).gene k ∧
        rdq (rd u.population m).gene k ≤ rdq (rd u.population m).upper k) ∧
      ∀ m, m < j →
        rdq (rd u.population m).lower i = rdq nums (2 * i) ∧
        rdq (rd u.population m).upper i = rdq nums (2 * i + 1) ∧
        rdq (rd u.population m).lower i ≤ rdq (rd u.population m).gene i ∧
        rdq (rd u.population m).gene i ≤ rdq (rd u.population m).upper i) 0 P
      (fun j (s : State) =>
        let g := rd s.population j
        let g1 : genotype :=
          { g with fitness := 0, rfitness := 0, cfitness := 0,
                   lower := g.lower.set i (rdq nums (2 * i)),
                   upper := g.upper.set i (rdq nums (2 * i + 1)) }
        let g2 : genotype :=
          { g1 with gene := g1.gene.set i
                      (__randval (rand s.nrand) (rdq g1.lower i) (rdq g1.upper i)) }
        { s with population := s.population.set j g2, nrand := s.nrand + 1 }) t.1
      (Nat.zero_le _) ⟨hl, hsz, hok, fun m h => absurd h (Nat.not_lt_zero _)⟩ ?_
    · obtain ⟨i1, i2, i3, i4⟩ := inner
      refine ⟨i1, i2, ?_⟩
      intro m hm k hk
      rcases Nat.lt_succ_iff_lt_or_eq.mp hk with h | h
      · exact i3 m hm k h
      · subst h
        exact i4 m hm
    · intro j u _ hjP ⟨ul, usz, uok, unew⟩
      dsimp only
      obtain ⟨z1, z2, z3⟩ := usz j (by omega)
      have hjl : j < u.population.length := by omega
      refine ⟨by simp [ul], ?_, ?_, ?_⟩
      · intro m hm
        by_cases e : j = m
        · subst e
          rw [rd_set_eq _ _ _ hjl]
          simp [z1, z2, z3]
        · rw [rd_set_ne _ _ _ _ e]
          exact usz m hm
      · intro m hm k hk
        by_cases e : j = m
        · subst e
          rw [rd_set_eq _ _ _ hjl]
          have hne : i ≠ k := by omega
          simp only [rdq_set_ne _ _ _ _ hne]
          exact uok j hm k hk
        · rw [rd_set_ne _ _ _ _ e]
          exact uok m hm k hk
      · intro m hm
        by_cases e : j = m
        · subst e
          rw [rd_set_eq _ _ _ hjl]
          simp only [rdq_set_eq _ _ _ (by omega : i < (rd u.population j).lower.length),
            rdq_set_eq _ _ _ (by omega : i < (rd u.population j).upper.length),
            rdq_set_eq _ _ _ (by omega : i < (rd u.population j).gene.length)]
          obtain ⟨r1, r2⟩ := randval_range (rand u.nrand) (rdq nums (2 * i))
            (rdq nums (2 * i + 1)) (hord i hiN)
          exact ⟨trivial, trivial, r1, r2⟩
        · rw [rd_set_ne _ _ _ _ e]
          exact unew m (by omega)

/-- The scan of `__keep_the_best` leaves `cur_best` at a working index and changes no
gene and no bound. -/
theorem keep_the_best_scan_fields (P : ℕ) (s : State) (hP : 1 ≤ P) (t : State)
    (ht : t = for_loop 0 P (fun mem (s : State) =>
      if (rd s.population mem).fitness > (rd s.population P).fitness then
        { s with cur_best := mem,
                 population := set_fitness s.population P (rd s.population mem).fitness }
      else s) { s with cur_best := 0 }) :
    t.cur_best < P ∧ t.population.length = s.population.length ∧
    ∀ j, (rd t.population j).gene = (rd s.population j).gene ∧
      (rd t.population j).lower = (rd s.population j).lower ∧
      (rd t.population j).upper = (rd s.population j).upper := by
  subst ht
  refine for_loop_inv (fun _ (t : State) =>
    t.cur_best < P ∧ t.population.length = s.population.length ∧
    ∀ j, (rd t.population j).gene = (rd s.population j).gene ∧
      (rd t.population j).lower = (rd s.population j).lower ∧
      (rd t.population j).upper = (rd s.population j).upper) 0 P _ _ (Nat.zero_le _)
    ⟨by show 0 < P; omega, rfl, fun _ => ⟨rfl, rfl, rfl⟩⟩ ?_
  intro mem t _ hmem ⟨h1, h2, h3⟩
  split_ifs
  · refine ⟨hmem, by rw [length_set_fitness]; exact h2, ?_⟩
    intro j
    obtain ⟨a1, a2, a3⟩ := rd_set_fitness_fields t.population P j (rd t.population mem).fitness
    obtain ⟨b1, b2, b3⟩ := h3 j
    exact ⟨a1.trans b1, a2.trans b2, a3.trans b3⟩
  · exact ⟨h1, h2, h3⟩

/-- The function `__keep_the_best` establishes the bound invariant from its working
part: it copies the genes of a working genotype into the archive. -/
theorem keep_the_best_within_bounds (P N : ℕ) (lo hi : ℕ → ℚ) (s : State) (hP : 1 ≤ P)
    (hwf : well_formed P N s.population)
    (hw : ∀ m, m < P → member_within N lo hi (rd s.population m)) :
    within_bounds P N lo hi (__keep_the_best P N s).population := by
  obtain ⟨hlen, hgene⟩ := hwf
  obtain ⟨hc, hl, hf⟩ := keep_the_best_scan_fields P s hP _ rfl
  unfold __keep_the_best
  dsimp only
  generalize for_loop 0 P (fun mem (s : State) =>
      if (rd s.population mem).fitness > (rd s.population P).fitness then
        { s with cur_best := mem,
                 population := set_fitness s.population P (rd s.population mem).fitness }
      else s) { s with cur_best := 0 } = t at hc hl hf
  rw [copy_genes_eq N t.population P t.cur_best (by omega) (by omega)
    (by rw [(hf P).1]; exact hgene P (le_refl _))
    (by rw [(hf t.cur_best).1]; exact hgene t.cur_best (by omega))]
  constructor
  · intro m hm
    rw [rd_set_ne _ _ _ _ (by omega : P ≠ m)]
    intro i h
    obtain ⟨a1, a2, a3⟩ := hf m
    rw [a1, a2, a3]
    exact hw m hm i h
  · intro i h
    rw [rd_set_eq _ _ _ (by omega)]
    show lo i ≤ rdq (rd t.population t.cur_best).gene i ∧
      rdq (rd t.population t.cur_best).gene i ≤ hi i
    rw [(hf t.cur_best).1]
    obtain ⟨a1, a2, a3, a4⟩ := hw t.cur_best hc i h
    exact ⟨a1 ▸ a3, a2 ▸ a4⟩

theorem well_formed_evaluate (P N : ℕ) (s : State) (hwf : well_formed P N s.population) :
    well_formed P N (__evaluate P N s).population := by
  obtain ⟨hlen, hgene⟩ := hwf
  refine ⟨by rw [(evaluate_same_archive P N s).1]; exact hlen, ?_⟩
  intro i h
  rw [(evaluate_fields P N s i).1]
  exact hgene i h

/-- C14: the bound invariant `within_bounds` (every working genotype carries the bounds
`lo`, `hi` and has every gene within its own bounds, and the genes of the archive lie
within the same bounds) holds for every random stream as follows.  `__randval` returns
a value between `low` and `high` whenever `low ≤ high`.  For a file that supplies
`NVARS` bound pairs with lower ≤ upper and at least one working genotype, `__initialize`
on the start state returns, and `__keep_the_best` after it (directly, or after the
`__evaluate` call that `main` makes in between) establishes the invariant for the bounds
of the file.  On every state whose arrays have their sizes and which satisfies the
invariant, `__select` (for strictly positive working fitness, exact arithmetic),
`__crossover`, `__mutate` and `__evaluate` keep the invariant, and `__elitist` (for
`POPSIZE ≥ 2`) returns a state that satisfies it. -/
theorem bounds_invariant (P N : ℕ) (PXOVER PMUTATION : ℚ) (rand : ℕ → ℕ) (lo hi : ℕ → ℚ)
    (s : State) (hwf : well_formed P N s.population)
    (hb : within_bounds P N lo hi s.population) :
    (∀ (r : ℕ) (low high : ℚ), low ≤ high →
      low ≤ __randval r low high ∧ __randval r low high ≤ high) ∧
    (∀ nums : List ℚ, 1 ≤ P → 2 * N ≤ nums.length →
      (∀ i, i < N → rdq nums (2 * i) ≤ rdq nums (2 * i + 1)) →
      ∃ s1, __initialize P N rand (some nums) (start_state P N) = some s1 ∧
        within_bounds P N (fun i => rdq nums (2 * i)) (fun i => rdq nums (2 * i + 1))
          (__keep_the_best P N s1).population ∧
        within_bounds P N (fun i => rdq nums (2 * i)) (fun i => rdq nums (2 * i + 1))
          (__keep_the_best P N (__evaluate P N s1)).population) ∧
    (1 ≤ P → s.newpopulation.length = P + 1 →
      (∀ m, m < P → 0 < (rd s.population m).fitness) →
      within_bounds P N lo hi (__select P rand s).population) ∧
    within_bounds P N lo hi (__crossover P N PXOVER rand s).population ∧
    within_bounds P N lo hi (__mutate P N PMUTATION rand s).population ∧
    within_bounds P N lo hi (__evaluate P N s).population ∧
    (2 ≤ P → ∃ s', __elitist P N s = some s' ∧ within_bounds P N lo hi s'.population) := by
  refine ⟨randval_range, ?_, ?_, crossover_within_bounds P N PXOVER rand lo hi s hwf hb,
    mutate_within_bounds P N PMUTATION rand lo hi s hb, evaluate_within_bounds P N lo hi s hb,
    fun hP => elitist_within_bounds P N lo hi s hP hwf hb⟩
  · intro nums hP hnum hord
    obtain ⟨s1, h1, w1, b1⟩ := initialize_working_within P N rand nums hnum hord
    refine ⟨s1, h1, keep_the_best_within_bounds P N _ _ s1 hP w1 b1,
      keep_the_best_within_bounds P N _ _ _ hP (well_formed_evaluate P N s1 w1) ?_⟩
    intro m hm i h
    obtain ⟨a1, a2, a3⟩ := evaluate_fields P N s1 m
    rw [a1, a2, a3]
    exact b1 m hm i h
  · intro hP hnew hpos
    exact select_within_bounds P N rand lo hi s hP hwf.1 hnew hpos hb

theorem well_formed_small_run_state : well_formed 2 3 small_run_state.population := by
  refine ⟨rfl, ?_⟩
  intro i h
  interval_cases i <;> simp [small_run_state, rd]

theorem small_infile_ordered :
    ∀ i, i < 3 → rdq small_infile (2 * i) ≤ rdq small_infile (2 * i + 1) := by
  intro i h
  interval_cases i <;> simp [small_infile, rdq]

theorem within_bounds_small_run_state :
    within_bounds 2 3 (fun i => rdq small_infile (2 * i)) (fun i => rdq small_infile (2 * i + 1))
      small_run_state.population := by
  constructor
  · intro m hm i h
    interval_cases m <;> interval_cases i <;>
      simp [small_run_state, small_infile, rd, rdq]
  · intro i h
    interval_cases i <;> simp [small_run_state, small_infile, rd, rdq]

theorem small_run_state_positive :
    ∀ m, m < 2 → 0 < (rd small_run_state.population m).fitness := by
  intro m hm
  interval_cases m <;> simp [small_run_state, rd]

/-- C14 on the state after generation 1 of the small run, with the bounds of
`small_infile` and the constant random stream 0. -/
theorem bounds_invariant_witness :
    well_formed 2 3 small_run_state.population ∧
    within_bounds 2 3 (fun i => rdq small_infile (2 * i)) (fun i => rdq small_infile (2 * i + 1))
      small_run_state.population ∧
    (1 ≤ __randval 500 1 2 ∧ __randval 500 1 2 ≤ 2) ∧
    (∃ s1, __initialize 2 3 (fun _ => 0) (some small_infile) (start_state 2 3) = some s1 ∧
      within_bounds 2 3 (fun i => rdq small_infile (2 * i))
        (fun i => rdq small_infile (2 * i + 1)) (__keep_the_best 2 3 s1).population ∧
      within_bounds 2 3 (fun i => rdq small_infile (2 * i))
        (fun i => rdq small_infile (2 * i + 1))
        (__keep_the_best 2 3 (__evaluate 2 3 s1)).population) ∧
    within_bounds 2 3 (fun i => rdq small_infile (2 * i)) (fun i => rdq small_infile (2 * i + 1))
      (__select 2 (fun _ => 0) small_run_state).population ∧
    within_bounds 2 3 (fun i => rdq small_infile (2 * i)) (fun i => rdq small_infile (2 * i + 1))
      (__crossover 2 3 (4 / 5) (fun _ => 0) small_run_state).population ∧
    within_bounds 2 3 (fun i => rdq small_infile (2 * i)) (fun i => rdq small_infile (2 * i + 1))
      (__mutate 2 3 (3 / 20) (fun _ => 0) small_run_state).population ∧
    within_bounds 2 3 (fun i => rdq small_infile (2 * i)) (fun i => rdq small_infile (2 * i + 1))
      (__evaluate 2 3 small_run_state).population ∧
    ∃ s', __elitist 2 3 small_run_state = some s' ∧
      within_bounds 2 3 (fun i => rdq small_infile (2 * i))
        (fun i => rdq small_infile (2 * i + 1)) s'.population :=
  have h := bounds_invariant 2 3 (4 / 5) (3 / 20) (fun _ => 0)
    (fun i => rdq small_infile (2 * i)) (fun i => rdq small_infile (2 * i + 1))
    small_run_state well_formed_small_run_state within_bounds_small_run_state
  ⟨well_formed_small_run_state, within_bounds_small_run_state,
    h.1 500 1 2 (by norm_num),
    h.2.1 small_infile (by decide) (by decide) small_infile_ordered,
    h.2.2.1 (by decide) rfl small_run_state_positive,
    h.2.2.2.1, h.2.2.2.2.1, h.2.2.2.2.2.1, h.2.2.2.2.2.2 (by decide)⟩

end GA
